import Mathlib

/-!
# Bezitopo: Brent's method and the ellipsoid

Shallow embedding of `brent.cpp` and of `ellipsoid.cpp` (constructor, geodetic
conversions, conformal latitude, Krüger series, registry).

* `brent.cpp` is embedded over `Dbl`: a C++ `double` read in exact arithmetic.
  A `Dbl` is a rational number, one of the two infinities, or NaN; the
  operations follow IEEE 754 on the special values (comparisons with NaN are
  false, `0/0` and `inf-inf` are NaN, a non-zero value divided by zero is an
  infinity). Rounding, overflow and the sign of zero are not modelled.
* `ellipsoid.cpp` needs `sin`, `cos`, `sqrt`, `cbrt`, `atan2` and complex
  numbers, so it is embedded over the real numbers (exact arithmetic); the NaN
  that `geod` stores on failure is modelled by `none` in an `Option ℝ` field,
  and a failed `assert` by the result `none`.
-/

namespace Bezitopo

/-! ## Doubles in exact arithmetic -/

/-- A `double` in exact arithmetic: finite rational, `+inf`, `-inf` or NaN. -/
inductive Dbl where
  | fin (q : ℚ)
  | pinf
  | ninf
  | nan
deriving DecidableEq

namespace Dbl

/-- Unary minus. -/
def neg : Dbl → Dbl
  | fin q => fin (-q)
  | pinf => ninf
  | ninf => pinf
  | nan => nan

/-- Addition `+` of doubles. -/
def add : Dbl → Dbl → Dbl
  | fin p, fin q => fin (p + q)
  | fin _, pinf => pinf
  | fin _, ninf => ninf
  | pinf, fin _ => pinf
  | ninf, fin _ => ninf
  | pinf, pinf => pinf
  | ninf, ninf => ninf
  | pinf, ninf => nan
  | ninf, pinf => nan
  | nan, _ => nan
  | _, nan => nan

/-- Subtraction `-` of doubles. -/
def sub (u v : Dbl) : Dbl := add u (neg v)

/-- The infinity with the sign of `q*r`, NaN when the product is zero. -/
def infOfSigns (q r : ℚ) : Dbl :=
  if 0 < q * r then pinf else if q * r < 0 then ninf else nan

/-- Multiplication `*` of doubles. -/
def mul : Dbl → Dbl → Dbl
  | fin p, fin q => fin (p * q)
  | fin p, pinf => infOfSigns p 1
  | fin p, ninf => infOfSigns p (-1)
  | pinf, fin q => infOfSigns 1 q
  | ninf, fin q => infOfSigns (-1) q
  | pinf, pinf => pinf
  | ninf, ninf => pinf
  | pinf, ninf => ninf
  | ninf, pinf => ninf
  | nan, _ => nan
  | _, nan => nan

/-- Division `/` of doubles; the zero divisor is read as `+0`. -/
def div : Dbl → Dbl → Dbl
  | fin p, fin q => if q = 0 then infOfSigns p 1 else fin (p / q)
  | fin _, pinf => fin 0
  | fin _, ninf => fin 0
  | pinf, fin q => if q < 0 then ninf else pinf
  | ninf, fin q => if q < 0 then pinf else ninf
  | pinf, pinf => nan
  | ninf, ninf => nan
  | pinf, ninf => nan
  | ninf, pinf => nan
  | nan, _ => nan
  | _, nan => nan

/-- Comparison `<` of doubles: false as soon as one side is NaN. -/
def lt : Dbl → Dbl → Bool
  | fin p, fin q => decide (p < q)
  | fin _, pinf => true
  | ninf, fin _ => true
  | ninf, pinf => true
  | _, _ => false

/-- Comparison `>` of doubles. -/
def gt (u v : Dbl) : Bool := lt v u

/-- Comparison `==` of doubles: NaN is not equal to itself. -/
def eq : Dbl → Dbl → Bool
  | fin p, fin q => decide (p = q)
  | pinf, pinf => true
  | ninf, ninf => true
  | _, _ => false

/-- Comparison `<=` of doubles. -/
def le (u v : Dbl) : Bool := lt u v || eq u v

/-- Comparison `>=` of doubles. -/
def ge (u v : Dbl) : Bool := le v u

/-- The library function `fabs`. -/
def fabs : Dbl → Dbl
  | fin q => fin |q|
  | pinf => pinf
  | ninf => pinf
  | nan => nan

/-- The predicate `std::isnan`. -/
def isNaN : Dbl → Bool
  | nan => true
  | _ => false

end Dbl

/-- Modelled from the spec: `sign` is declared in a header that is not part of
the sources at hand; the spec calls its results the sign triple
`(sign(fa), sign(y), sign(fb))` indexing a 27-entry table, so it is the
three-valued sign `-1`, `0`, `1` (NaN, neither positive nor negative, gives `0`). -/
def sign (u : Dbl) : ℤ :=
  if Dbl.gt u (Dbl.fin 0) then 1 else if Dbl.lt u (Dbl.fin 0) then -1 else 0

/-! ## brent.cpp -/

/-- The table `sidetable[27]`. -/
def sidetable : List ℕ :=
  [3,3,2, 3,0,0, 3,3,1,
   3,3,3, 3,0,3, 3,3,3,
   1,3,3, 0,0,3, 2,3,3]

/-- Swap the pair when the first component is greater (`if (u>v) swap(u,v)`). -/
def swapIfGt (p : Dbl × Dbl) : Dbl × Dbl :=
  if Dbl.gt p.1 p.2 then (p.2, p.1) else p

/-- The function `invquad`. The local `offx` is left unassigned by the source
when none of its three tests holds, which needs a NaN abscissa; it then reads
as NaN here. -/
def invquad (x0 y0 x1 y1 x2 y2 : Dbl) : Dbl :=
  let p01 := swapIfGt (x0, x1)
  let p12 := swapIfGt (p01.2, x2)
  let q01 := swapIfGt (p01.1, p12.1)
  let z0 := q01.1
  let z2 := p12.2
  let offx : Dbl := Dbl.nan
  let offx := if Dbl.lt z0 (Dbl.fin 0) && Dbl.gt z2 (Dbl.fin 0) then Dbl.fin 0 else offx
  let offx := if Dbl.ge z0 (Dbl.fin 0) then z0 else offx
  let offx := if Dbl.le z2 (Dbl.fin 0) then z2 else offx
  let x0 := Dbl.sub x0 offx
  let x1 := Dbl.sub x1 offx
  let x2 := Dbl.sub x2 offx
  let z0 := Dbl.div (Dbl.div (Dbl.mul (Dbl.mul x0 y1) y2) (Dbl.sub y0 y1)) (Dbl.sub y0 y2)
  let z1 := Dbl.div (Dbl.div (Dbl.mul (Dbl.mul x1 y2) y0) (Dbl.sub y1 y2)) (Dbl.sub y1 y0)
  let z2 := Dbl.div (Dbl.div (Dbl.mul (Dbl.mul x2 y0) y1) (Dbl.sub y2 y0)) (Dbl.sub y2 y1)
  Dbl.add (Dbl.add (Dbl.add z0 z1) z2) offx

/-- The offset `offx` of `invquad`: its statements from the sorting of the three
abscissas to the third `if` that assigns `offx`. -/
def invquadOffset (x0 x1 x2 : Dbl) : Dbl :=
  let p01 := swapIfGt (x0, x1)
  let p12 := swapIfGt (p01.2, x2)
  let q01 := swapIfGt (p01.1, p12.1)
  let z0 := q01.1
  let z2 := p12.2
  let offx : Dbl := Dbl.nan
  let offx := if Dbl.lt z0 (Dbl.fin 0) && Dbl.gt z2 (Dbl.fin 0) then Dbl.fin 0 else offx
  let offx := if Dbl.ge z0 (Dbl.fin 0) then z0 else offx
  let offx := if Dbl.le z2 (Dbl.fin 0) then z2 else offx
  offx

/-- The statements of `invquad` after `offx` is chosen: the offset is subtracted
from the abscissas, the three Lagrange terms are added up and the offset is
added back. -/
def invquadShifted (offx x0 y0 x1 y1 x2 y2 : Dbl) : Dbl :=
  let x0 := Dbl.sub x0 offx
  let x1 := Dbl.sub x1 offx
  let x2 := Dbl.sub x2 offx
  let z0 := Dbl.div (Dbl.div (Dbl.mul (Dbl.mul x0 y1) y2) (Dbl.sub y0 y1)) (Dbl.sub y0 y2)
  let z1 := Dbl.div (Dbl.div (Dbl.mul (Dbl.mul x1 y2) y0) (Dbl.sub y1 y2)) (Dbl.sub y1 y0)
  let z2 := Dbl.div (Dbl.div (Dbl.mul (Dbl.mul x2 y0) y1) (Dbl.sub y2 y0)) (Dbl.sub y2 y1)
  Dbl.add (Dbl.add (Dbl.add z0 z1) z2) offx

/-- The value at `y` of the polynomial of degree at most 2 through the points
`(y0,x0)`, `(y1,x1)`, `(y2,x2)`, in Lagrange form: the inverse quadratic
interpolant that the specification of `invquad` speaks of. -/
def inverseQuadratic (x0 y0 x1 y1 x2 y2 y : ℚ) : ℚ :=
  x0 * (y - y1) * (y - y2) / ((y0 - y1) * (y0 - y2))
    + x1 * (y - y2) * (y - y0) / ((y1 - y2) * (y1 - y0))
    + x2 * (y - y0) * (y - y1) / ((y2 - y0) * (y2 - y1))

/-- The data members of class `brent`. -/
structure brent where
  a : Dbl
  fa : Dbl
  b : Dbl
  fb : Dbl
  c : Dbl
  fc : Dbl
  d : Dbl
  fd : Dbl
  x : Dbl
  side : ℕ
  mflag : Bool
deriving DecidableEq

/-- The method `brent::between`. -/
def brent.between (st : brent) (s : Dbl) : Bool :=
  let g := Dbl.div (Dbl.add (Dbl.mul (Dbl.fin 3) st.a) st.b) (Dbl.fin 4)
  (Dbl.lt g s && Dbl.lt s st.b) || (Dbl.lt st.b s && Dbl.lt s g)

/-- First part of `brent::init`: the `if`/`else` ordering the two samples and
`mflag=true`. The members `c`, `d`, `fc`, `fd`, `x` and `side` are not
assigned here and keep whatever the object held. -/
def brent.initBracket (st : brent) (x0 y0 x1 y1 : Dbl) : brent :=
  let st : brent :=
    if Dbl.gt (Dbl.fabs y0) (Dbl.fabs y1) then
      { st with a := x0, fa := y0, b := x1, fb := y1 }
    else
      { st with a := x1, fa := y1, b := x0, fb := y0 }
  { st with mflag := true }

/-- Second part of `brent::init`: `x=b-fb*(a-b)/(fa-fb); if (!between(x))
x=(a+b)/2;`. -/
def brent.initTrial (st : brent) : brent :=
  let x : Dbl :=
    Dbl.sub st.b (Dbl.div (Dbl.mul st.fb (Dbl.sub st.a st.b)) (Dbl.sub st.fa st.fb))
  let st : brent := { st with x := x }
  if !st.between st.x then
    { st with x := Dbl.div (Dbl.add st.a st.b) (Dbl.fin 2) }
  else st

/-- The method `brent::init`, its statements in source order: the object after
the call and the value returned. -/
def brent.init (st : brent) (x0 y0 x1 y1 : Dbl) : brent × Dbl :=
  let st : brent := (st.initBracket x0 y0 x1 y1).initTrial
  let st : brent :=
    if (Dbl.gt y0 (Dbl.fin 0) && Dbl.gt y1 (Dbl.fin 0))
        || (Dbl.lt y0 (Dbl.fin 0) && Dbl.lt y1 (Dbl.fin 0)) then
      { st with x := Dbl.nan }
    else st
  (st, st.x)

/-- The index `9*sign(fa)+3*sign(y)+sign(fb)+13` into `sidetable`. -/
def sideIndex (fa y fb : Dbl) : ℤ := 9 * sign fa + 3 * sign y + sign fb + 13

/-- The classification `sidetable[9*sign(fa)+3*sign(y)+sign(fb)+13]`; the index
always lies in `0..26`, so the default of the lookup is never used. -/
def sideOf (fa y fb : Dbl) : ℕ := sidetable.getD (sideIndex fa y fb).toNat 3

/-- First statement of `brent::step` (the `if` choosing the interpolation): the
plain secant through `(b,fb)`, `(x,y)` when two of `fa`, `fb`, `y` compare
equal, else `invquad`. -/
def brent.interpolate (st : brent) (y : Dbl) : Dbl :=
  if Dbl.eq st.fa st.fb || Dbl.eq st.fb y || Dbl.eq y st.fa then
    Dbl.sub st.x (Dbl.div (Dbl.mul y (Dbl.sub st.b st.x)) (Dbl.sub st.fb y))
  else
    invquad st.a st.fa st.b st.fb st.x y

/-- Second statement of `brent::step`: `if (between(s)) mflag=false; else
{mflag=true; s=(a+b)/2;}`. -/
def brent.acceptOrBisect (st : brent) (s : Dbl) : brent × Dbl :=
  if st.between s then ({ st with mflag := false }, s)
  else ({ st with mflag := true }, Dbl.div (Dbl.add st.a st.b) (Dbl.fin 2))

/-- Third and fourth statements of `brent::step`: the table lookup into `side`
and the `switch (side)`. -/
def brent.classify (st : brent) (y s : Dbl) : brent × Dbl :=
  let st : brent := { st with side := sideOf st.fa y st.fb }
  match st.side with
  | 0 => (st, st.x)
  | 1 => ({ st with b := st.x, fb := y }, s)
  | 2 => ({ st with a := st.x, fa := y }, s)
  | 3 => (st, Dbl.nan)
  | _ => (st, s)

/-- Fifth statement of `brent::step`: `if (mflag && (s==a || s==b)) {s=b; side=0;}`. -/
def brent.tooNarrow (st : brent) (s : Dbl) : brent × Dbl :=
  if st.mflag && (Dbl.eq s st.a || Dbl.eq s st.b) then ({ st with side := 0 }, st.b)
  else (st, s)

/-- Sixth statement of `brent::step`: the block under `if (side%3)`, with the
values `bsave`, `fbsave` saved on entry. -/
def brent.shift (st : brent) (bsave fbsave s : Dbl) : brent :=
  if st.side % 3 ≠ 0 then
    let st : brent :=
      if Dbl.gt (Dbl.fabs st.fb) (Dbl.fabs st.fa) then
        { st with fa := st.fb, fb := st.fa, a := st.b, b := st.a }
      else st
    { st with d := st.c, c := bsave, x := s, fd := st.fc, fc := fbsave }
  else st

/-- The method `brent::step`, its statements in source order: the object after
the call and the value returned. -/
def brent.step (st : brent) (y : Dbl) : brent × Dbl :=
  let bsave := st.b
  let fbsave := st.fb
  let r1 := st.acceptOrBisect (st.interpolate y)
  let r2 := r1.1.classify y r1.2
  let r3 := r2.1.tooNarrow r2.2
  (r3.1.shift bsave fbsave r3.2, r3.2)

/-- The state reached from `st` by feeding the values `ys` to `step` one after
the other, or `none` as soon as a step returns NaN. -/
def brent.steps (st : brent) : List Dbl → Option brent
  | [] => some st
  | y :: ys =>
    let r := st.step y
    if r.2.isNaN then none else brent.steps r.1 ys

/-- An object of class `brent` before `init` is called: the constructor assigns
no member, so every `double` member holds no meaningful value (NaN here). -/
def brent.blank : brent :=
  ⟨Dbl.nan, Dbl.nan, Dbl.nan, Dbl.nan, Dbl.nan, Dbl.nan, Dbl.nan, Dbl.nan, Dbl.nan, 0, false⟩

/-- The state and the list of values returned when the values `ys` are fed to
`step` one after the other, whatever the steps return. -/
def brent.run (st : brent) : List Dbl → brent × List Dbl
  | [] => (st, [])
  | y :: ys =>
    let r := st.step y
    let q := brent.run r.1 ys
    (q.1, r.2 :: q.2)

/-- Two objects hold the same bracket: they agree on `a`, `fa`, `b`, `fb` and `x`
(they may differ on `c`, `d`, `fc`, `fd`, `side` and `mflag`). -/
def sameBracket (s t : brent) : Prop :=
  s.a = t.a ∧ s.fa = t.fa ∧ s.b = t.b ∧ s.fb = t.fb ∧ s.x = t.x

/-- Strictly opposite signs: one of `fa`, `fb` is positive and the other negative. -/
def strictBracket (st : brent) : Prop :=
  (sign st.fa = 1 ∧ sign st.fb = -1) ∨ (sign st.fa = -1 ∧ sign st.fb = 1)

/-! ## breakline.cpp -/

/-- The constant `INT_MAX` of `<climits>`, for a 32-bit `int`. -/
def INT_MAX : ℤ := 2147483647

/-- Modelled from the spec: the class `Breakline0` is declared in `breakline.h`,
which is not part of the sources at hand; `breakline.cpp` uses its one data
member `nodes`, a `vector<int>`. -/
structure Breakline0 where
  nodes : List ℤ
deriving DecidableEq

/-- The element `nodes[i]` of a vector of `int` (0 outside the vector, which the
source never reads). -/
def nodeAt (nodes : List ℤ) (i : ℕ) : ℤ := nodes.getD i 0

/-- The element `nodes.back()`. -/
def nodeBack (nodes : List ℤ) : ℤ := nodeAt nodes (nodes.length - 1)

/-- The method `Breakline0::isEmpty`. -/
def Breakline0.isEmpty (l : Breakline0) : Bool := decide (l.nodes.length < 2)

/-- The method `Breakline0::isOpen`. -/
def Breakline0.isOpen (l : Breakline0) : Bool :=
  if l.nodes.length ≠ 0 then decide (nodeAt l.nodes 0 ≠ nodeBack l.nodes) else true

/-- The first loop of `Breakline0::normalize`, from index `i` on:
`if (nodes[i]<least) {least=nodes[i]; leastpos=i;}`. The pair is `least` and
`leastpos`; the source declares `leastpos` without a value, so it is `none`
until the loop assigns it. -/
def leastScan : List ℤ → ℕ → ℤ × Option ℕ → ℤ × Option ℕ
  | [], _, acc => acc
  | x :: xs, i, acc => leastScan xs (i + 1) (if x < acc.1 then (x, some i) else acc)

/-- The rotation in `Breakline0::normalize`: the loop
`for (i=1;i<=leastpos;i++) nodes.push_back(nodes[i])`, then the `memmove` of
`sz` elements from position `leastpos` to the front and `nodes.resize(sz)`. -/
def rotateNodes (nodes : List ℤ) (leastpos : ℕ) : List ℤ :=
  let sz := nodes.length
  let pushed := (List.range leastpos).foldl (fun v i => v ++ [nodeAt v (i + 1)]) nodes
  (pushed.drop leastpos).take sz

/-- The test of the second `if` of `Breakline0::normalize`. -/
def needsReverse (nodes : List ℤ) : Bool :=
  (decide (nodes.length ≠ 0) && decide (nodeAt nodes 0 > nodeBack nodes))
  || (decide (2 < nodes.length) && decide (nodeAt nodes 0 = nodeBack nodes)
      && decide (nodeAt nodes 1 > nodeAt nodes (nodes.length - 2)))

/-- The first `if` of `Breakline0::normalize`: a closed vector of more than 2
nodes is rotated so as to start at the first least node. The result is `none`
when the source reads `leastpos` without having assigned it (the behaviour is
then undefined). -/
def rotateIfClosed (nodes : List ℤ) : Option (List ℤ) :=
  if 2 < nodes.length ∧ (Breakline0.mk nodes).isOpen = false then
    match (leastScan nodes 0 (INT_MAX, none)).2 with
    | some leastpos => some (rotateNodes nodes leastpos)
    | none => none
  else some nodes

/-- The second `if` of `Breakline0::normalize`: the loop swapping `nodes[i]` and
`nodes[j]` for `i` up and `j` down until they meet reverses the vector. -/
def reverseIfNeeded (nodes : List ℤ) : List ℤ :=
  if needsReverse nodes then nodes.reverse else nodes

/-- The method `Breakline0::normalize`, returning the object after the call, or
`none` when its behaviour is undefined. -/
def Breakline0.normalize (l : Breakline0) : Option Breakline0 :=
  (rotateIfClosed l.nodes).map fun nodes => ⟨reverseIfNeeded nodes⟩

/-- The method `Breakline0::lowEnd`. -/
def Breakline0.lowEnd (l : Breakline0) : ℤ := nodeAt l.nodes 0

/-- The method `Breakline0::highEnd`. -/
def Breakline0.highEnd (l : Breakline0) : ℤ := nodeBack l.nodes

/-- The function `jungible`. -/
def jungible (a b : Breakline0) : Bool :=
  let ret := a.isOpen && b.isOpen
  if ret && decide (a.nodes.length ≠ 0) && decide (b.nodes.length ≠ 0) then
    decide (a.highEnd = b.highEnd) || decide (a.highEnd = b.lowEnd)
      || decide (a.lowEnd = b.highEnd) || decide (a.lowEnd = b.lowEnd)
  else ret

/-- The nodes that `operator+` pushes into `ret` when neither operand is empty:
`a` forwards or backwards (`i` from `size-1` down to 0), then `b` without its
first node (`i` from 1 up) or without its last node, backwards (`i` from
`size-2` down to 0). -/
def joinNodes (a b : Breakline0) : List ℤ :=
  if a.lowEnd = b.lowEnd then a.nodes.reverse ++ b.nodes.drop 1
  else if a.lowEnd = b.highEnd then
    a.nodes.reverse ++ (b.nodes.take (b.nodes.length - 1)).reverse
  else if a.highEnd = b.lowEnd then a.nodes ++ b.nodes.drop 1
  else a.nodes ++ (b.nodes.take (b.nodes.length - 1)).reverse

/-- The function `operator+(Breakline0&,Breakline0&)`; `none` when the call of
`normalize` in it is undefined. -/
def Breakline0.add (a b : Breakline0) : Option Breakline0 :=
  if a.isEmpty then some b
  else if b.isEmpty then some a
  else (Breakline0.mk (joinNodes a b)).normalize

/-! ## geoidboundary.cpp -/

/-- Modelled from the spec: the struct `vball` is declared in `geoid.h`, which is
not part of the sources at hand; `geoidboundary.cpp` reads its members
`face`, `x` and `y`. -/
structure vball where
  face : ℤ
  x : Dbl
  y : Dbl
deriving DecidableEq

/-- Modelled from the spec: the struct `vsegment` is declared in `geoid.h`, which
is not part of the sources at hand; `geoidboundary.cpp` uses its members
`start` and `end` (here `finish`, `end` being a keyword). -/
structure vsegment where
  start : vball
  finish : vball
deriving DecidableEq

/-- Modelled from the spec: the class `g1boundary` is declared in
`geoidboundary.h`, which is not part of the sources at hand;
`geoidboundary.cpp` uses its data member `bdy`, a `vector<vball>`. -/
structure g1boundary where
  bdy : List vball

/-- Conversion of an `int` to the unsigned 64-bit `size_t`: reduction modulo
`2^64`. -/
def toSizeT (n : ℤ) : ℕ := (n % 2 ^ 64).toNat

/-- Conversion of a `size_t` to a 32-bit `int`: reduction modulo `2^32` into the
range from `-2^31` to `2^31 - 1`. -/
def toInt (u : ℕ) : ℤ := ((u : ℤ) + 2 ^ 31) % 2 ^ 32 - 2 ^ 31

/-- The method `g1boundary::seg`. In `n%=bdy.size()` and `n+=bdy.size()` the
`int n` is converted to `size_t`, the operation is done on unsigned numbers
and the result is converted back to `int`; `(n+1)%bdy.size()` is likewise an
unsigned remainder. The result is `none` when the `assert` fails or an index
is outside the vector. -/
def g1boundary.seg (g : g1boundary) (n : ℤ) : Option vsegment :=
  if g.bdy.length = 0 then none
  else
    let n : ℤ := toInt (toSizeT n % g.bdy.length)
    let n : ℤ := if n < 0 then toInt ((toSizeT n + g.bdy.length) % 2 ^ 64) else n
    match g.bdy[toSizeT n]?, g.bdy[toSizeT (n + 1) % g.bdy.length]? with
    | some s, some e => some ⟨s, e⟩
    | _, _ => none

/-! ## ellipsoid.cpp

The functions below use `sin`, `cos`, `sqrt`, `cbrt` and `atan2`; they are stated
over the real numbers, which have no evaluator, hence the `noncomputable`
section. -/

noncomputable section

/-- Modelled from the spec: the class `xyz` is declared in `point.h`, which is
not part of the sources at hand; the spec calls it a 3D point (geocentric
coordinate), so it is a triple of coordinates. -/
structure xyz where
  x : ℝ
  y : ℝ
  z : ℝ

namespace xyz

/-- Modelled from the spec: accessor `east()` of `xyz` (point.h is missing), the
first coordinate. -/
def east (p : xyz) : ℝ := p.x

/-- Modelled from the spec: accessor `north()` of `xyz` (point.h is missing), the
second coordinate. -/
def north (p : xyz) : ℝ := p.y

/-- Modelled from the spec: accessor `elev()` of `xyz` (point.h is missing), the
third coordinate. -/
def elev (p : xyz) : ℝ := p.z

/-- Modelled from the spec: accessor `getx()` of `xyz` (point.h is missing). -/
def getx (p : xyz) : ℝ := p.x

/-- Modelled from the spec: accessor `gety()` of `xyz` (point.h is missing). -/
def gety (p : xyz) : ℝ := p.y

/-- Modelled from the spec: accessor `getz()` of `xyz` (point.h is missing). -/
def getz (p : xyz) : ℝ := p.z

/-- Modelled from the spec: `operator+` of `xyz` (point.h is missing), the sum of
two vectors. -/
def add (p q : xyz) : xyz := ⟨p.x + q.x, p.y + q.y, p.z + q.z⟩

/-- Modelled from the spec: `operator-` of `xyz` (point.h is missing), the
difference of two vectors. -/
def sub (p q : xyz) : xyz := ⟨p.x - q.x, p.y - q.y, p.z - q.z⟩

/-- Modelled from the spec: `operator*` of `xyz` and `double` (point.h is
missing), the vector scaled by a number. -/
def smul (p : xyz) (k : ℝ) : xyz := ⟨p.x * k, p.y * k, p.z * k⟩

/-- Modelled from the spec: `operator/` of `xyz` and `double` (point.h is
missing), the vector divided by a number. -/
def sdiv (p : xyz) (k : ℝ) : xyz := ⟨p.x / k, p.y / k, p.z / k⟩

/-- Modelled from the spec: `xyz::length()` (point.h is missing), the Euclidean
norm. -/
def length (p : xyz) : ℝ := Real.sqrt (p.x * p.x + p.y * p.y + p.z * p.z)

/-- Modelled from the spec: `xyz::normalize()` (point.h is missing), "normalized":
the vector divided by its length. -/
def normalize (p : xyz) : xyz := p.sdiv p.length

end xyz

/-- Modelled from the spec: `dot` of two `xyz` (point.h is missing), used to
"project the residual onto the local normal": the scalar product. -/
def dot (p q : xyz) : ℝ := p.x * q.x + p.y * q.y + p.z * q.z

/-- Modelled from the spec: `dist` of two `xyz` (point.h is missing), the "3D
residual" distance: the Euclidean distance. -/
def dist (p q : xyz) : ℝ := (p.sub q).length

/-- The library function `hypot`. -/
def hypot (u v : ℝ) : ℝ := Real.sqrt (u * u + v * v)

/-- The library function `atan2(y,x)`: the angle in `(-π, π]` of the point
`(x,y)`, and `0` at the origin. -/
def atan2 (y x : ℝ) : ℝ := Complex.arg ⟨x, y⟩

/-- The library function `cbrt`: the real cube root. -/
def cbrt (u : ℝ) : ℝ := if 0 ≤ u then u ^ ((3 : ℝ)⁻¹) else -((-u) ^ ((3 : ℝ)⁻¹))

/-- The data members `eqr`, `por`, `cen`, `name`, `tmForward`, `tmReverse` of
class `ellipsoid` (the member `sphere` is the function `ellipsoid.sphere`
below). The constructor leaves the two coefficient vectors empty. -/
structure ellipsoid where
  eqr : ℝ
  por : ℝ
  cen : xyz
  name : String
  tmForward : List ℝ := []
  tmReverse : List ℝ := []

/-- The method `ellipsoid::avgradius`. -/
def ellipsoid.avgradius (e : ellipsoid) : ℝ := cbrt (e.eqr * e.eqr * e.por)

/-- The constructor `ellipsoid::ellipsoid`, up to the assignment of `por`. -/
def ellipsoid.new (equradius polradius flattening : ℝ) (center : xyz) (ename : String) :
    ellipsoid :=
  let radii : ℝ × ℝ :=
    if polradius = 0 then (equradius, equradius * (1 - flattening))
    else if equradius = 0 then (equradius / (1 - flattening), polradius)
    else (equradius, polradius)
  { eqr := radii.1, por := radii.2, cen := center, name := ename }

/-- The member `sphere` as the constructor sets it: the ellipsoid itself when
`eqr==por`, else `new ellipsoid(avgradius(),0,0,center,"")`. (The other
disjunct of the test, `std::isnan(eqr)`, never holds for a real `eqr`.) -/
def ellipsoid.sphere (e : ellipsoid) : ellipsoid :=
  if e.eqr = e.por then e else ellipsoid.new e.avgradius 0 0 e.cen ""

/-- The method `ellipsoid::geoc(double lat,double lon,double elev)`. -/
def ellipsoid.geoc (e : ellipsoid) (lat lon elev : ℝ) : xyz :=
  let z := Real.sin lat * e.por
  let cylr := Real.cos lat * e.eqr
  let ret : xyz := ⟨cylr * Real.cos lon, cylr * Real.sin lon, z⟩
  let ret : xyz := ret.sdiv ret.length
  let normal : xyz := ⟨ret.east * e.por, ret.north * e.por, ret.elev * e.eqr⟩
  let ret : xyz := (xyz.mk (ret.east * e.eqr) (ret.north * e.eqr) (ret.elev * e.por)).add e.cen
  let normal : xyz := normal.sdiv normal.length
  ret.add (normal.smul elev)

/-- The local `ret` of `ellipsoid::geod` while the loop runs: a `latlongelev`
whose three fields are numbers. -/
structure geodetic where
  lat : ℝ
  lon : ℝ
  elev : ℝ

/-- The struct `latlongelev` of latlong.h as `geod` returns it: a field is `none`
when the `double` is NaN. -/
structure latlongelev where
  lat : Option ℝ
  lon : Option ℝ
  elev : Option ℝ

/-- The overload `ellipsoid::geoc(latlongelev lle)`. -/
def ellipsoid.geocLle (e : ellipsoid) (lle : geodetic) : xyz :=
  e.geoc lle.lat lle.lon lle.elev

/-- The tolerance `toler=avgradius()/1e15` of `ellipsoid::geod`. -/
def ellipsoid.toler (e : ellipsoid) : ℝ := e.avgradius / 1e15

/-- The statements of `ellipsoid::geod` before the loop, on `geocen` already
reduced by `cen`: the closed-form seed. -/
def ellipsoid.geodSeed (e : ellipsoid) (geocen : xyz) : geodetic :=
  let z := geocen.getz
  let cylr := hypot geocen.gety geocen.getx
  { lon := atan2 geocen.gety geocen.getx
    lat := atan2 (z * e.eqr / e.por) (cylr * e.por / e.eqr)
    elev := 0 }

/-- The test of the loop of `ellipsoid::geod`: `dist(chk,geocen)<toler` with
`chk=geoc(ret)-cen`. -/
def ellipsoid.geodDone (e : ellipsoid) (geocen : xyz) (ret : geodetic) : Prop :=
  dist ((e.geocLle ret).sub e.cen) geocen < e.toler

/-- The statements of the loop body of `ellipsoid::geod` after the test: one
refinement of `ret`. -/
def ellipsoid.geodRefine (e : ellipsoid) (geocen : xyz) (ret : geodetic) : geodetic :=
  let chk := (e.geocLle ret).sub e.cen
  let normal := ((e.sphere.geocLle ret).sub e.cen).normalize
  let elev := ret.elev + dot (geocen.sub chk) normal
  let at0 := geocen.sub (normal.smul elev)
  let z := at0.getz
  let cylr := hypot at0.gety at0.getx
  { lon := ret.lon
    lat := atan2 (z * e.eqr / e.por) (cylr * e.por / e.eqr)
    elev := elev }

open Classical in
/-- The loop `for (i=0;i<100;i++)` of `ellipsoid::geod`, entered with `n`
iterations left and the counter at `i`: the values of `ret` and `i` when the
loop is left. -/
def ellipsoid.geodLoop (e : ellipsoid) (geocen : xyz) : ℕ → ℕ → geodetic → geodetic × ℕ
  | 0, i, ret => (ret, i)
  | n + 1, i, ret =>
    if e.geodDone geocen ret then (ret, i)
    else ellipsoid.geodLoop e geocen n (i + 1) (e.geodRefine geocen ret)

/-- The method `ellipsoid::geod`. -/
def ellipsoid.geod (e : ellipsoid) (geocen : xyz) : latlongelev :=
  let geocen := geocen.sub e.cen
  let r := e.geodLoop geocen 100 0 (e.geodSeed geocen)
  if r.2 = 100 then { lat := none, lon := none, elev := none }
  else { lat := some r.1.lat, lon := some r.1.lon, elev := some r.1.elev }

/-- The method `ellipsoid::eccentricity`. -/
def ellipsoid.eccentricity (e : ellipsoid) : ℝ :=
  Real.sqrt (1 - e.por * e.por / e.eqr / e.eqr)

/-- The function `guder`. -/
def guder (x : ℝ) : ℝ := Real.arctan (Real.sinh x)

/-- The function `invGuder`. -/
def invGuder (x : ℝ) : ℝ := Real.arsinh (Real.tan x)

/-- The library function `atanh`: `log((1+x)/(1-x))/2`. -/
def atanh (x : ℝ) : ℝ := Real.log ((1 + x) / (1 - x)) / 2

/-- The method `ellipsoid::conformalLatitude(double lat)`. -/
def ellipsoid.conformalLatitude (e : ellipsoid) (lat : ℝ) : ℝ :=
  let ecc := e.eccentricity
  guder (invGuder lat - ecc * atanh (ecc * Real.sin lat))

/-- The lower seed of `ellipsoid::inverseConformalLatitude`: `lo=lat*por/eqr`. -/
def ellipsoid.inverseConformalLatitudeLo (e : ellipsoid) (lat : ℝ) : ℝ :=
  lat * e.por / e.eqr

/-- The upper seed of `ellipsoid::inverseConformalLatitude`:
`hi=(lat-M_PI/2)*por/eqr+M_PI/2`. -/
def ellipsoid.inverseConformalLatitudeHi (e : ellipsoid) (lat : ℝ) : ℝ :=
  (lat - Real.pi / 2) * e.por / e.eqr + Real.pi / 2

/-- Modelled from the spec: the class `xy` is declared in `point.h`, which is not
part of the sources at hand; the spec reads a point `(x,y)`, so it is a pair
of coordinates. -/
structure xy where
  x : ℝ
  y : ℝ

/-- Modelled from the spec: accessor `getx()` of `xy` (point.h is missing). -/
def xy.getx (p : xy) : ℝ := p.x

/-- Modelled from the spec: accessor `gety()` of `xy` (point.h is missing). -/
def xy.gety (p : xy) : ℝ := p.y

/-- Modelled from the spec: `xy::length()` (point.h is missing), the Euclidean
norm, which makes `krugerizeScale` "a local distortion scale factor". -/
def xy.length (p : xy) : ℝ := Real.sqrt (p.x * p.x + p.y * p.y)

/-- Modelled from the spec: `pairwisesum` is declared in `manysum.h`, which is
not part of the sources at hand; the spec calls it "pairwise (non-sequential)
summation to control round-off", so in exact arithmetic it is the sum of the
terms. -/
def pairwisesum (l : List ℝ) : ℝ := l.sum

/-- The method `ellipsoid::setTmCoefficients`. -/
def ellipsoid.setTmCoefficients (e : ellipsoid) (forward reverse : List ℝ) : ellipsoid :=
  { e with tmForward := forward, tmReverse := reverse }

/-- The loop of `krugerize` and `dekrugerize` over the coefficients `coeff`: the
term pushed at index `i` is `z` when `i` is 0 and `sin((double)i*z)*coeff[i]`
otherwise. -/
def krugerTerms (coeff : List ℝ) (z : ℂ) : List ℂ :=
  (List.range coeff.length).map fun (i : ℕ) =>
    if i ≠ 0 then Complex.sin (((i : ℝ) : ℂ) * z) * ((coeff.getD i 0 : ℝ) : ℂ) else z

/-- The loop of `krugerizeDeriv` and `dekrugerizeDeriv` over the coefficients
`coeff`: the term pushed at index `i` is `1` when `i` is 0 and
`(double)i*cos((double)i*z)*coeff[i]` otherwise. -/
def krugerDerivTerms (coeff : List ℝ) (z : ℂ) : List ℂ :=
  (List.range coeff.length).map fun (i : ℕ) =>
    if i ≠ 0 then
      ((i : ℝ) : ℂ) * Complex.cos (((i : ℝ) : ℂ) * z) * ((coeff.getD i 0 : ℝ) : ℂ)
    else 1

/-- The method `ellipsoid::krugerize`: `none` when the `assert` on the sizes of
the two coefficient vectors fails (the program aborts there), else the point
returned. -/
def ellipsoid.krugerize (e : ellipsoid) (mapPoint : xy) : Option xy :=
  match e.tmForward, e.tmReverse with
  | f0 :: _, r0 :: _ =>
    let z : ℂ := ⟨mapPoint.gety * Real.pi / r0, -mapPoint.getx * Real.pi / r0⟩
    let terms := krugerTerms e.tmForward z
    let rTerms := terms.map Complex.re
    let iTerms := terms.map Complex.im
    some ⟨-pairwisesum iTerms * f0 / Real.pi, pairwisesum rTerms * f0 / Real.pi⟩
  | _, _ => none

/-- The method `ellipsoid::dekrugerize`: `none` when the `assert` fails, else the
point returned. -/
def ellipsoid.dekrugerize (e : ellipsoid) (mapPoint : xy) : Option xy :=
  match e.tmForward, e.tmReverse with
  | f0 :: _, r0 :: _ =>
    let z : ℂ := ⟨mapPoint.gety * Real.pi / f0, -mapPoint.getx * Real.pi / f0⟩
    let terms := krugerTerms e.tmReverse z
    let rTerms := terms.map Complex.re
    let iTerms := terms.map Complex.im
    some ⟨-pairwisesum iTerms * r0 / Real.pi, pairwisesum rTerms * r0 / Real.pi⟩
  | _, _ => none

/-- The method `ellipsoid::krugerizeDeriv`: `none` when the `assert` fails, else
the point returned. -/
def ellipsoid.krugerizeDeriv (e : ellipsoid) (mapPoint : xy) : Option xy :=
  match e.tmForward, e.tmReverse with
  | f0 :: _, r0 :: _ =>
    let z : ℂ := ⟨mapPoint.gety * Real.pi / r0, -mapPoint.getx * Real.pi / r0⟩
    let terms := krugerDerivTerms e.tmForward z
    let rTerms := terms.map Complex.re
    let iTerms := terms.map Complex.im
    some ⟨pairwisesum rTerms * f0 / r0, pairwisesum iTerms * f0 / r0⟩
  | _, _ => none

/-- The method `ellipsoid::dekrugerizeDeriv`: `none` when the `assert` fails,
else the point returned. -/
def ellipsoid.dekrugerizeDeriv (e : ellipsoid) (mapPoint : xy) : Option xy :=
  match e.tmForward, e.tmReverse with
  | f0 :: _, r0 :: _ =>
    let z : ℂ := ⟨mapPoint.gety * Real.pi / f0, -mapPoint.getx * Real.pi / f0⟩
    let terms := krugerDerivTerms e.tmReverse z
    let rTerms := terms.map Complex.re
    let iTerms := terms.map Complex.im
    some ⟨pairwisesum rTerms * r0 / f0, pairwisesum iTerms * r0 / f0⟩
  | _, _ => none

/-- The method `ellipsoid::krugerizeScale`. -/
def ellipsoid.krugerizeScale (e : ellipsoid) (mapPoint : xy) : Option ℝ :=
  (e.krugerizeDeriv mapPoint).map xy.length

/-- The method `ellipsoid::dekrugerizeScale`. -/
def ellipsoid.dekrugerizeScale (e : ellipsoid) (mapPoint : xy) : Option ℝ :=
  (e.dekrugerizeDeriv mapPoint).map xy.length

/-- The standard ellipsoid `Sphere`. -/
def Sphere : ellipsoid := ellipsoid.new 6371000 0 0 ⟨0, 0, 0⟩ "Sphere"

/-- The standard ellipsoid `TestEll9` (present unless `NDEBUG` is defined). -/
def TestEll9 : ellipsoid := ellipsoid.new 6598726.098 0 0.1 ⟨0, 0, 0⟩ "TestEll9"

/-- The standard ellipsoid `Clarke`. -/
def Clarke : ellipsoid := ellipsoid.new 6378206.4 6356583.8 0 ⟨0, 0, 0⟩ "Clarke"

/-- The standard ellipsoid `GRS80`. -/
def GRS80 : ellipsoid := ellipsoid.new 6378137 0 (1 / 298.257222101) ⟨0, 0, 0⟩ "GRS80"

/-- The standard ellipsoid `HGRS87`, whose center is not the origin. -/
def HGRS87 : ellipsoid :=
  ellipsoid.new 6378137 0 (1 / 298.257222101) ⟨-199.87, 74.79, 246.62⟩ "HGRS87"

/-- The standard ellipsoid `WGS84`. -/
def WGS84 : ellipsoid := ellipsoid.new 6378137 0 (1 / 298.257223563) ⟨0, 0, 0⟩ "WGS84"

/-- The standard ellipsoid `ITRS`. -/
def ITRS : ellipsoid := ellipsoid.new 6378136.49 0 (1 / 298.25645) ⟨0, 0, 0⟩ "ITRS"

/-- The standard ellipsoid `Hayford`. -/
def Hayford : ellipsoid := ellipsoid.new 6378388 0 (1 / 297) ⟨0, 0, 0⟩ "Hayford"

/-- The table `ellipsoids[]` (debug build, with `TestEll9`). -/
def ellipsoids : List ellipsoid :=
  [Sphere, TestEll9, Clarke, GRS80, HGRS87, WGS84, ITRS, Hayford]

/-- The function `countEllipsoids`. -/
def countEllipsoids : ℕ := ellipsoids.length

/-- The function `getEllipsoid(int n)`, for an index inside the table. -/
def getEllipsoid (n : ℕ) (h : n < countEllipsoids) : ellipsoid := ellipsoids.get ⟨n, h⟩

/-- The method `ellipsoid::getName`. -/
def ellipsoid.getName (e : ellipsoid) : String := e.name

/-- The loop of `getEllipsoid(string name)` over a table: `ret` is overwritten at
every entry whose name is `name`. -/
def lookupLoop (name : String) (table : List ellipsoid) (ret : Option ellipsoid) :
    Option ellipsoid :=
  table.foldl (fun ret e => if name = e.getName then some e else ret) ret

/-- The function `getEllipsoid(string name)`: `none` is the null pointer. -/
def getEllipsoidByName (name : String) : Option ellipsoid :=
  lookupLoop name ellipsoids none

end

end Bezitopo

/-! ## Theorems: brent.cpp -/

namespace Bezitopo
open Dbl

theorem sign_cases (u : Dbl) : sign u = -1 ∨ sign u = 0 ∨ sign u = 1 := by
  unfold sign; split_ifs <;> simp

theorem sign_fin (q : ℚ) :
    sign (fin q) = if 0 < q then 1 else if q < 0 then -1 else 0 := by
  simp [sign, Dbl.gt, Dbl.lt]

theorem sideOf_of_signs (fa y fb : Dbl) (i j k : ℤ) (hi : sign fa = i) (hj : sign y = j)
    (hk : sign fb = k) : sideOf fa y fb = sidetable.getD (9 * i + 3 * j + k + 13).toNat 3 := by
  subst hi hj hk; rfl

theorem sideOf_eq_one_iff (fa y fb : Dbl) :
    sideOf fa y fb = 1 ↔ (sign fa = -1 ∧ sign y = 1 ∧ sign fb = 1)
      ∨ (sign fa = 1 ∧ sign y = -1 ∧ sign fb = -1) := by
  rcases sign_cases fa with h | h | h <;> rcases sign_cases y with h1 | h1 | h1 <;>
    rcases sign_cases fb with h2 | h2 | h2 <;>
    rw [sideOf_of_signs fa y fb _ _ _ h h1 h2, h, h1, h2] <;> decide

theorem sideOf_eq_two_iff (fa y fb : Dbl) :
    sideOf fa y fb = 2 ↔ (sign fa = -1 ∧ sign y = -1 ∧ sign fb = 1)
      ∨ (sign fa = 1 ∧ sign y = 1 ∧ sign fb = -1) := by
  rcases sign_cases fa with h | h | h <;> rcases sign_cases y with h1 | h1 | h1 <;>
    rcases sign_cases fb with h2 | h2 | h2 <;>
    rw [sideOf_of_signs fa y fb _ _ _ h h1 h2, h, h1, h2] <;> decide

theorem sideOf_eq_zero_iff (fa y fb : Dbl) :
    sideOf fa y fb = 0 ↔ sign y = 0 ∧ (sign fa = -sign fb ∨ sign fb = 0) := by
  rcases sign_cases fa with h | h | h <;> rcases sign_cases y with h1 | h1 | h1 <;>
    rcases sign_cases fb with h2 | h2 | h2 <;>
    rw [sideOf_of_signs fa y fb _ _ _ h h1 h2, h, h1, h2] <;> decide

theorem sideOf_lt_four (fa y fb : Dbl) : sideOf fa y fb < 4 := by
  rcases sign_cases fa with h | h | h <;> rcases sign_cases y with h1 | h1 | h1 <;>
    rcases sign_cases fb with h2 | h2 | h2 <;>
    rw [sideOf_of_signs fa y fb _ _ _ h h1 h2] <;> decide

theorem acceptOrBisect_fields (st : brent) (s : Dbl) :
    (st.acceptOrBisect s).1.fa = st.fa ∧ (st.acceptOrBisect s).1.fb = st.fb
      ∧ (st.acceptOrBisect s).1.a = st.a ∧ (st.acceptOrBisect s).1.b = st.b
      ∧ (st.acceptOrBisect s).1.x = st.x := by
  unfold brent.acceptOrBisect; split_ifs <;> simp

theorem tooNarrow_fields (st : brent) (s : Dbl) :
    (st.tooNarrow s).1.fa = st.fa ∧ (st.tooNarrow s).1.fb = st.fb
      ∧ (st.tooNarrow s).1.a = st.a ∧ (st.tooNarrow s).1.b = st.b
      ∧ (st.tooNarrow s).1.x = st.x := by
  unfold brent.tooNarrow; split_ifs <;> simp

theorem tooNarrow_nan (st : brent) : st.tooNarrow nan = (st, nan) := by
  unfold brent.tooNarrow; simp [Dbl.eq]

theorem shift_signs (st : brent) (bs fbs s : Dbl) :
    ((st.shift bs fbs s).fa = st.fa ∧ (st.shift bs fbs s).fb = st.fb)
      ∨ ((st.shift bs fbs s).fa = st.fb ∧ (st.shift bs fbs s).fb = st.fa) := by
  unfold brent.shift; split_ifs <;> simp

theorem classify_cases (st : brent) (y s : Dbl) :
    (sideOf st.fa y st.fb = 0 ∧ st.classify y s = ({ st with side := 0 }, st.x))
    ∨ (sideOf st.fa y st.fb = 1
        ∧ st.classify y s = ({ st with side := 1, b := st.x, fb := y }, s))
    ∨ (sideOf st.fa y st.fb = 2
        ∧ st.classify y s = ({ st with side := 2, a := st.x, fa := y }, s))
    ∨ (sideOf st.fa y st.fb = 3 ∧ st.classify y s = ({ st with side := 3 }, nan)) := by
  have h4 := sideOf_lt_four st.fa y st.fb
  unfold brent.classify
  generalize sideOf st.fa y st.fb = k at h4 ⊢
  interval_cases k <;> simp

/-- What a step that does not return NaN leaves in `fa`, `fb`: the old values,
or `y` in place of the one the table names, possibly exchanged afterwards. -/
theorem step_fa_fb (st : brent) (y : Dbl) (hr : (st.step y).2.isNaN = false) :
    ∃ u v : Dbl,
      (((st.step y).1.fa = u ∧ (st.step y).1.fb = v)
        ∨ ((st.step y).1.fa = v ∧ (st.step y).1.fb = u))
      ∧ ((u = st.fa ∧ v = st.fb)
        ∨ (sideOf st.fa y st.fb = 1 ∧ u = st.fa ∧ v = y)
        ∨ (sideOf st.fa y st.fb = 2 ∧ u = y ∧ v = st.fb)) := by
  obtain ⟨ha1, ha2, -, -, -⟩ := acceptOrBisect_fields st (st.interpolate y)
  generalize hr1 : st.acceptOrBisect (st.interpolate y) = r1 at ha1 ha2
  have hstep : st.step y = (((r1.1.classify y r1.2).1.tooNarrow (r1.1.classify y r1.2).2).1.shift
      st.b st.fb ((r1.1.classify y r1.2).1.tooNarrow (r1.1.classify y r1.2).2).2,
      ((r1.1.classify y r1.2).1.tooNarrow (r1.1.classify y r1.2).2).2) := by
    simp only [brent.step, hr1]
  rw [hstep] at hr ⊢
  simp only at hr ⊢
  obtain ⟨hn1, hn2, -, -, -⟩ :=
    tooNarrow_fields (r1.1.classify y r1.2).1 (r1.1.classify y r1.2).2
  refine ⟨(r1.1.classify y r1.2).1.fa, (r1.1.classify y r1.2).1.fb, ?_, ?_⟩
  · rcases shift_signs ((r1.1.classify y r1.2).1.tooNarrow (r1.1.classify y r1.2).2).1 st.b
      st.fb ((r1.1.classify y r1.2).1.tooNarrow (r1.1.classify y r1.2).2).2
      with ⟨e1, e2⟩ | ⟨e1, e2⟩
    · left; rw [e1, e2, hn1, hn2]; exact ⟨rfl, rfl⟩
    · right; rw [e1, e2, hn1, hn2]; exact ⟨rfl, rfl⟩
  · rw [← ha1, ← ha2]
    rcases classify_cases r1.1 y r1.2 with ⟨-, hc⟩ | ⟨h1, hc⟩ | ⟨h2, hc⟩ | ⟨-, hc⟩
    · left; rw [hc]; exact ⟨rfl, rfl⟩
    · right; left; rw [hc]; exact ⟨h1, rfl, rfl⟩
    · right; right; rw [hc]; exact ⟨h2, rfl, rfl⟩
    · rw [hc] at hr
      simp only [tooNarrow_nan] at hr
      simp [Dbl.isNaN] at hr

/-- One step that does not return NaN keeps `sign(fa) ≠ sign(fb)`. -/
theorem step_keeps_sign_change (st : brent) (y : Dbl) (h : sign st.fa ≠ sign st.fb)
    (hr : (st.step y).2.isNaN = false) :
    sign (st.step y).1.fa ≠ sign (st.step y).1.fb := by
  obtain ⟨u, v, hsw, hc⟩ := step_fa_fb st y hr
  have key : sign u ≠ sign v := by
    rcases hc with ⟨e1, e2⟩ | ⟨h1, e1, e2⟩ | ⟨h2, e1, e2⟩
    · rw [e1, e2]; exact h
    · rw [sideOf_eq_one_iff] at h1
      rw [e1, e2]
      rcases h1 with ⟨e1, e2, -⟩ | ⟨e1, e2, -⟩ <;> simp [e1, e2]
    · rw [sideOf_eq_two_iff] at h2
      rw [e1, e2]
      rcases h2 with ⟨-, e2, e3⟩ | ⟨-, e2, e3⟩ <;> simp [e2, e3]
  rcases hsw with ⟨e1, e2⟩ | ⟨e1, e2⟩
  · rw [e1, e2]; exact key
  · rw [e1, e2]; exact fun hh => key hh.symm

/-- One step that does not return NaN keeps a strict sign change. -/
theorem step_keeps_strictBracket (st : brent) (y : Dbl) (h : strictBracket st)
    (hr : (st.step y).2.isNaN = false) : strictBracket (st.step y).1 := by
  obtain ⟨u, v, hsw, hc⟩ := step_fa_fb st y hr
  have key : (sign u = 1 ∧ sign v = -1) ∨ (sign u = -1 ∧ sign v = 1) := by
    rcases hc with ⟨e1, e2⟩ | ⟨h1, e1, e2⟩ | ⟨h2, e1, e2⟩
    · rw [e1, e2]; exact h
    · rw [sideOf_eq_one_iff] at h1
      rw [e1, e2]
      rcases h1 with ⟨e1, e2, -⟩ | ⟨e1, e2, -⟩ <;> simp [e1, e2]
    · rw [sideOf_eq_two_iff] at h2
      rw [e1, e2]
      rcases h2 with ⟨-, e2, e3⟩ | ⟨-, e2, e3⟩ <;> simp [e2, e3]
  unfold strictBracket
  rcases hsw with ⟨e1, e2⟩ | ⟨e1, e2⟩
  · rw [e1, e2]; exact key
  · rw [e1, e2]; tauto

theorem steps_keep_strictBracket (ys : List Dbl) :
    ∀ st st1 : brent, strictBracket st → st.steps ys = some st1 → strictBracket st1 := by
  induction ys with
  | nil => intro st st1 h hs; simp [brent.steps] at hs; rw [← hs]; exact h
  | cons y ys ih =>
    intro st st1 h hs
    simp only [brent.steps] at hs
    split_ifs at hs with hn
    have hn1 : (st.step y).2.isNaN = false := by simpa using hn
    exact ih _ _ (step_keeps_strictBracket st y h hn1) hs

theorem sign_eq_one_iff (u : Dbl) : sign u = 1 ↔ Dbl.lt (fin 0) u = true := by
  unfold sign Dbl.gt; split_ifs with h <;> simp [h]

theorem sign_eq_neg_one_iff (u : Dbl) :
    sign u = -1 ↔ Dbl.lt u (fin 0) = true := by
  unfold sign Dbl.gt
  split_ifs with h h1
  · cases u <;> simp_all [Dbl.lt]
    exact le_of_lt h
  · simp [h1]
  · simp [h1]

theorem mul_neg_of_signs (u v : Dbl) (hu : sign u = 1) (hv : sign v = -1) :
    Dbl.lt (Dbl.mul u v) (fin 0) = true ∧ Dbl.lt (Dbl.mul v u) (fin 0) = true := by
  rw [sign_eq_one_iff] at hu
  rw [sign_eq_neg_one_iff] at hv
  rcases u with p | _ | _ | _ <;> rcases v with q | _ | _ | _ <;>
    simp_all [Dbl.lt, Dbl.mul, infOfSigns]
  · constructor
    · exact mul_neg_of_pos_of_neg hu hv
    · exact mul_neg_of_neg_of_pos hv hu
  · rw [if_neg (not_lt.mpr (le_of_lt hu))]
  · rw [if_neg (not_lt.mpr (le_of_lt hv))]

theorem strictBracket_mul_neg (st : brent) (h : strictBracket st) :
    Dbl.lt (Dbl.mul st.fa st.fb) (fin 0) = true := by
  rcases h with ⟨h1, h2⟩ | ⟨h1, h2⟩
  · exact (mul_neg_of_signs _ _ h1 h2).1
  · exact (mul_neg_of_signs _ _ h2 h1).2

theorem initTrial_fields (st : brent) :
    st.initTrial.a = st.a ∧ st.initTrial.fa = st.fa ∧ st.initTrial.b = st.b
      ∧ st.initTrial.fb = st.fb := by
  unfold brent.initTrial; simp only; split_ifs <;> simp

theorem init_fields (st : brent) (x0 y0 x1 y1 : Dbl) :
    (st.init x0 y0 x1 y1).1.a = (st.initBracket x0 y0 x1 y1).a
    ∧ (st.init x0 y0 x1 y1).1.fa = (st.initBracket x0 y0 x1 y1).fa
    ∧ (st.init x0 y0 x1 y1).1.b = (st.initBracket x0 y0 x1 y1).b
    ∧ (st.init x0 y0 x1 y1).1.fb = (st.initBracket x0 y0 x1 y1).fb := by
  obtain ⟨h1, h2, h3, h4⟩ := initTrial_fields (st.initBracket x0 y0 x1 y1)
  unfold brent.init; simp only; split_ifs <;> simp [h1, h2, h3, h4]

theorem init_fa_fb (st : brent) (x0 y0 x1 y1 : Dbl) :
    ((st.init x0 y0 x1 y1).1.fa = y0 ∧ (st.init x0 y0 x1 y1).1.fb = y1)
      ∨ ((st.init x0 y0 x1 y1).1.fa = y1 ∧ (st.init x0 y0 x1 y1).1.fb = y0) := by
  obtain ⟨-, h2, -, h4⟩ := init_fields st x0 y0 x1 y1
  rw [h2, h4]
  unfold brent.initBracket
  simp only
  split_ifs <;> simp

theorem between_finite (st : brent) (s : Dbl) (a b : ℚ) (ha : st.a = fin a) (hb : st.b = fin b)
    (h : st.between s = true) : ∃ q, s = fin q := by
  unfold brent.between at h
  rw [ha, hb] at h
  cases s <;> simp_all [Dbl.lt, Dbl.mul, Dbl.add, Dbl.div]

theorem acceptOrBisect_finite (st : brent) (s : Dbl) (a b : ℚ) (ha : st.a = fin a)
    (hb : st.b = fin b) : ∃ q, (st.acceptOrBisect s).2 = fin q := by
  unfold brent.acceptOrBisect
  split_ifs with h
  · exact between_finite st s a b ha hb h
  · exact ⟨(a + b) / 2, by simp [ha, hb, Dbl.add, Dbl.div]⟩

/-- From a bracket with finite `a`, `b`, `x` a step returns NaN only through the
classification 3. -/
theorem step_finite_of_side (st : brent) (y : Dbl) (a b x : ℚ) (ha : st.a = fin a)
    (hb : st.b = fin b) (hx : st.x = fin x) (h3 : sideOf st.fa y st.fb ≠ 3) :
    ∃ q, (st.step y).2 = fin q := by
  obtain ⟨q1, hq1⟩ := acceptOrBisect_finite st (st.interpolate y) a b ha hb
  obtain ⟨ha1, ha2, ha3, ha4, ha5⟩ := acceptOrBisect_fields st (st.interpolate y)
  generalize hr1 : st.acceptOrBisect (st.interpolate y) = r1 at hq1 ha1 ha2 ha3 ha4 ha5
  have hstep : (st.step y).2 = ((r1.1.classify y r1.2).1.tooNarrow (r1.1.classify y r1.2).2).2 := by
    simp only [brent.step, hr1]
  rw [hstep]
  rw [← ha1, ← ha2] at h3
  rw [← ha3] at ha
  rw [← ha4] at hb
  rw [← ha5] at hx
  rcases classify_cases r1.1 y r1.2 with ⟨-, hc⟩ | ⟨-, hc⟩ | ⟨-, hc⟩ | ⟨h, -⟩
  · rw [hc]; unfold brent.tooNarrow; split_ifs
    · exact ⟨b, by simp [hb]⟩
    · exact ⟨x, by simp [hx]⟩
  · rw [hc]; unfold brent.tooNarrow; split_ifs
    · exact ⟨x, by simp [hx]⟩
    · exact ⟨q1, by simp [hq1]⟩
  · rw [hc]; unfold brent.tooNarrow; split_ifs
    · exact ⟨b, by simp [hb]⟩
    · exact ⟨q1, by simp [hq1]⟩
  · exact absurd h h3

theorem sign_eq_zero_iff (u : Dbl) (hu : u.isNaN = false) : sign u = 0 ↔ u = fin 0 := by
  rcases u with q | _ | _ | _
  · rw [sign_fin]
    split_ifs with h1 h2
    · simp [ne_of_gt h1]
    · simp [ne_of_lt h2]
    · have : q = 0 := le_antisymm (not_lt.mp h1) (not_lt.mp h2)
      simp [this]
  · simp [sign, Dbl.gt, Dbl.lt]
  · simp [sign, Dbl.gt, Dbl.lt]
  · simp [Dbl.isNaN] at hu

/-- C1. Brent bracket invariant: from a state with `sign(fa) ≠ sign(fb)`, a
`step` that does not return NaN leaves `sign(fa) ≠ sign(fb)`; and after
`init` on two finite samples with `y0*y1 < 0`, `fa*fb < 0` holds after any
number of steps none of which returned NaN. -/
theorem brent_bracket_invariant :
    (∀ (st : brent) (y : Dbl), sign st.fa ≠ sign st.fb → (st.step y).2.isNaN = false →
      sign (st.step y).1.fa ≠ sign (st.step y).1.fb)
    ∧ (∀ (st0 : brent) (x0 y0 x1 y1 : ℚ) (ys : List Dbl) (st : brent), y0 * y1 < 0 →
      (st0.init (fin x0) (fin y0) (fin x1) (fin y1)).1.steps ys = some st →
      Dbl.lt (Dbl.mul st.fa st.fb) (fin 0) = true) := by
  refine ⟨step_keeps_sign_change, ?_⟩
  intro st0 x0 y0 x1 y1 ys st hy hs
  apply strictBracket_mul_neg
  refine steps_keep_strictBracket ys _ st ?_ hs
  have hsign : (0 < y0 ∧ y1 < 0) ∨ (y0 < 0 ∧ 0 < y1) := by
    rcases lt_trichotomy y0 0 with h | h | h
    · right; exact ⟨h, pos_of_mul_neg_right hy (le_of_lt h)⟩
    · rw [h] at hy; simp at hy
    · left; exact ⟨h, neg_of_mul_neg_right hy (le_of_lt h)⟩
  have s1 : ∀ q : ℚ, 0 < q → sign (fin q) = 1 := fun q hq => by simp [sign_fin, hq]
  have s2 : ∀ q : ℚ, q < 0 → sign (fin q) = -1 := fun q hq => by
    simp [sign_fin, hq, not_lt.mpr (le_of_lt hq)]
  unfold strictBracket
  rcases init_fa_fb st0 (fin x0) (fin y0) (fin x1) (fin y1) with ⟨e1, e2⟩ | ⟨e1, e2⟩ <;>
    rw [e1, e2] <;> rcases hsign with ⟨h1, h2⟩ | ⟨h1, h2⟩
  · left; exact ⟨s1 _ h1, s2 _ h2⟩
  · right; exact ⟨s2 _ h1, s1 _ h2⟩
  · right; exact ⟨s2 _ h2, s1 _ h1⟩
  · left; exact ⟨s1 _ h2, s2 _ h1⟩

/-- Both parts of `brent_bracket_invariant` on the bracket of `x^2-2` between
`(1,-1)` and `(2,2)`, stepped with `y = (4/3)^2-2 = -2/9`. -/
theorem brent_bracket_invariant_witness :
    (sign (brent.blank.init (fin 1) (fin (-1)) (fin 2) (fin 2)).1.fa
        ≠ sign (brent.blank.init (fin 1) (fin (-1)) (fin 2) (fin 2)).1.fb
      ∧ ((brent.blank.init (fin 1) (fin (-1)) (fin 2) (fin 2)).1.step (fin (-2/9))).2.isNaN
        = false
      ∧ sign ((brent.blank.init (fin 1) (fin (-1)) (fin 2) (fin 2)).1.step (fin (-2/9))).1.fa
        ≠ sign ((brent.blank.init (fin 1) (fin (-1)) (fin 2) (fin 2)).1.step (fin (-2/9))).1.fb)
    ∧ ((-1 : ℚ) * 2 < 0
      ∧ (brent.blank.init (fin 1) (fin (-1)) (fin 2) (fin 2)).1.steps [fin (-2/9)]
        = some ((brent.blank.init (fin 1) (fin (-1)) (fin 2) (fin 2)).1.step (fin (-2/9))).1
      ∧ Dbl.lt (Dbl.mul
          ((brent.blank.init (fin 1) (fin (-1)) (fin 2) (fin 2)).1.step (fin (-2/9))).1.fa
          ((brent.blank.init (fin 1) (fin (-1)) (fin 2) (fin 2)).1.step (fin (-2/9))).1.fb)
          (fin 0) = true) :=
  ⟨⟨by decide!, by decide!, brent_bracket_invariant.1 _ _ (by decide!) (by decide!)⟩,
   ⟨by norm_num, by decide!,
    brent_bracket_invariant.2 brent.blank 1 (-1) 2 2 [fin (-2/9)] _ (by norm_num) (by decide!)⟩⟩

/-- C2. Sign classification in `brent::step`: when `fa` and `fb` are non-zero
with opposite signs and `y` is a number, the table gives 0 exactly when
`y = 0`, 1 exactly when `y` has the sign of `fb`, 2 exactly when `y` has the
sign of `fa`, never 3; so from such a bracket (with finite `a`, `b`, `x`, as
`init` and `step` leave them) the step does not return NaN. -/
theorem brent_sign_classification (st : brent) (y : Dbl)
    (h : strictBracket st) (hy : y.isNaN = false) :
    (sideOf st.fa y st.fb = 0 ↔ y = fin 0)
    ∧ (sideOf st.fa y st.fb = 1 ↔ sign y = sign st.fb)
    ∧ (sideOf st.fa y st.fb = 2 ↔ sign y = sign st.fa)
    ∧ sideOf st.fa y st.fb ≠ 3
    ∧ (∀ a b x : ℚ, st.a = fin a → st.b = fin b → st.x = fin x →
        (st.step y).2.isNaN = false) := by
  have h0 : sideOf st.fa y st.fb = 0 ↔ y = fin 0 := by
    rw [sideOf_eq_zero_iff, sign_eq_zero_iff y hy]
    constructor
    · exact fun hh => hh.1
    · intro hh
      refine ⟨hh, ?_⟩
      rcases h with ⟨e1, e2⟩ | ⟨e1, e2⟩ <;> simp [e1, e2]
  have h1 : sideOf st.fa y st.fb = 1 ↔ sign y = sign st.fb := by
    rw [sideOf_eq_one_iff]
    rcases h with ⟨e1, e2⟩ | ⟨e1, e2⟩ <;> simp [e1, e2]
  have h2 : sideOf st.fa y st.fb = 2 ↔ sign y = sign st.fa := by
    rw [sideOf_eq_two_iff]
    rcases h with ⟨e1, e2⟩ | ⟨e1, e2⟩ <;> simp [e1, e2]
  have h3 : sideOf st.fa y st.fb ≠ 3 := by
    intro h3
    have h4 := sideOf_lt_four st.fa y st.fb
    rcases sign_cases y with e | e | e
    · have : sideOf st.fa y st.fb = 1 ∨ sideOf st.fa y st.fb = 2 := by
        rw [h1, h2]
        rcases h with ⟨e1, e2⟩ | ⟨e1, e2⟩ <;> simp [e, e1, e2]
      omega
    · have : sideOf st.fa y st.fb = 0 := by
        rw [sideOf_eq_zero_iff]
        refine ⟨e, ?_⟩
        rcases h with ⟨e1, e2⟩ | ⟨e1, e2⟩ <;> simp [e1, e2]
      omega
    · have : sideOf st.fa y st.fb = 1 ∨ sideOf st.fa y st.fb = 2 := by
        rw [h1, h2]
        rcases h with ⟨e1, e2⟩ | ⟨e1, e2⟩ <;> simp [e, e1, e2]
      omega
  refine ⟨h0, h1, h2, h3, ?_⟩
  intro a b x ha hb hx
  obtain ⟨q, hq⟩ := step_finite_of_side st y a b x ha hb hx h3
  rw [hq]; rfl

/-- The classification on the bracket of `x^2-2` between `(1,-1)` and `(2,2)`,
at `y = -2/9`: not 3, and the step does not return NaN. -/
theorem brent_sign_classification_witness :
    strictBracket (brent.blank.init (fin 1) (fin (-1)) (fin 2) (fin 2)).1
    ∧ (fin (-2/9)).isNaN = false
    ∧ sideOf (brent.blank.init (fin 1) (fin (-1)) (fin 2) (fin 2)).1.fa (fin (-2/9))
        (brent.blank.init (fin 1) (fin (-1)) (fin 2) (fin 2)).1.fb ≠ 3
    ∧ ((brent.blank.init (fin 1) (fin (-1)) (fin 2) (fin 2)).1.step (fin (-2/9))).2.isNaN
        = false :=
  have hs : strictBracket (brent.blank.init (fin 1) (fin (-1)) (fin 2) (fin 2)).1 :=
    Or.inl ⟨by decide!, by decide!⟩
  ⟨hs, rfl,
    (brent_sign_classification (brent.blank.init (fin 1) (fin (-1)) (fin 2) (fin 2)).1
      (fin (-2/9)) hs rfl).2.2.2.1,
    (brent_sign_classification (brent.blank.init (fin 1) (fin (-1)) (fin 2) (fin 2)).1
      (fin (-2/9)) hs rfl).2.2.2.2 2 1 (4/3) (by decide!) (by decide!) (by decide!)⟩

theorem initTrial_finite (st : brent) (a b : ℚ) (ha : st.a = fin a) (hb : st.b = fin b) :
    ∃ q, st.initTrial.x = fin q := by
  unfold brent.initTrial
  simp only
  split_ifs with h
  · exact ⟨(a + b) / 2, by simp [ha, hb, Dbl.add, Dbl.div]⟩
  · rw [Bool.not_eq_true, Bool.not_eq_false_eq_eq_true] at h
    exact between_finite _ _ a b ha hb h

theorem initBracket_finite (st : brent) (x0 y0 x1 y1 : ℚ) :
    ∃ a b, (st.initBracket (fin x0) (fin y0) (fin x1) (fin y1)).a = fin a
      ∧ (st.initBracket (fin x0) (fin y0) (fin x1) (fin y1)).b = fin b := by
  unfold brent.initBracket
  simp only
  split_ifs
  · exact ⟨x0, x1, rfl, rfl⟩
  · exact ⟨x1, x0, rfl, rfl⟩

/-- C3. For finite `x0`, `y0`, `x1`, `y1`, `brent::init` returns NaN exactly
when `y0` and `y1` share a strict sign (both positive or both negative); in
every other case the trial returned is not NaN. -/
theorem brent_init_nan_iff (st : brent) (x0 y0 x1 y1 : ℚ) :
    (st.init (fin x0) (fin y0) (fin x1) (fin y1)).2.isNaN = true
      ↔ ((0 < y0 ∧ 0 < y1) ∨ (y0 < 0 ∧ y1 < 0)) := by
  obtain ⟨a, b, ha, hb⟩ := initBracket_finite st x0 y0 x1 y1
  obtain ⟨q, hq⟩ := initTrial_finite _ a b ha hb
  unfold brent.init
  simp only [Dbl.gt, Dbl.lt]
  by_cases hs : (0 < y0 ∧ 0 < y1) ∨ (y0 < 0 ∧ y1 < 0)
  · simp [hs, Dbl.isNaN]
  · simp only [hs, iff_false]
    have hs1 : ¬ ((decide (0 < y0) && decide (0 < y1) || decide (y0 < 0) && decide (y1 < 0))
        = true) := by simpa using hs
    simp only [hs1, Bool.false_eq_true, if_false]
    rw [hq]
    simp [Dbl.isNaN]

/-- C4. After `brent::init` on finite samples, `(a,fa)` is the sample of larger
`|y|` and `(b,fb)` the other one, the second sample becoming `a` on a tie, and
`|fb| ≤ |fa|`. -/
theorem brent_init_bracket (st : brent) (x0 y0 x1 y1 : ℚ) :
    (if |y1| < |y0| then
        (st.init (fin x0) (fin y0) (fin x1) (fin y1)).1.a = fin x0
        ∧ (st.init (fin x0) (fin y0) (fin x1) (fin y1)).1.fa = fin y0
        ∧ (st.init (fin x0) (fin y0) (fin x1) (fin y1)).1.b = fin x1
        ∧ (st.init (fin x0) (fin y0) (fin x1) (fin y1)).1.fb = fin y1
      else
        (st.init (fin x0) (fin y0) (fin x1) (fin y1)).1.a = fin x1
        ∧ (st.init (fin x0) (fin y0) (fin x1) (fin y1)).1.fa = fin y1
        ∧ (st.init (fin x0) (fin y0) (fin x1) (fin y1)).1.b = fin x0
        ∧ (st.init (fin x0) (fin y0) (fin x1) (fin y1)).1.fb = fin y0)
    ∧ Dbl.le (Dbl.fabs (st.init (fin x0) (fin y0) (fin x1) (fin y1)).1.fb)
        (Dbl.fabs (st.init (fin x0) (fin y0) (fin x1) (fin y1)).1.fa) = true := by
  obtain ⟨h1, h2, h3, h4⟩ := init_fields st (fin x0) (fin y0) (fin x1) (fin y1)
  rw [h1, h2, h3, h4]
  unfold brent.initBracket
  simp only [Dbl.gt, Dbl.lt, Dbl.fabs]
  by_cases h : |y1| < |y0|
  · simp [h, Dbl.fabs, Dbl.le, Dbl.lt]
  · simp only [h, decide_False, if_false, Dbl.fabs, Dbl.le, Dbl.lt, Dbl.eq, Bool.or_eq_true,
      decide_eq_true_eq, Bool.false_eq_true, and_self, true_and]
    exact lt_or_eq_of_le (not_lt.mp h)

/-! ## Theorems: ellipsoid.cpp -/

/-- The quantity under the root in `geoc`: `eqr²cos²lat + por²sin²lat`. -/
theorem geoc_radicand_pos (e : ellipsoid) (lat : ℝ) (ha : 0 < e.eqr) (hb : 0 < e.por) :
    0 < e.eqr ^ 2 * Real.cos lat ^ 2 + e.por ^ 2 * Real.sin lat ^ 2 := by
  have h1 := Real.sin_sq_add_cos_sq lat
  have ha2 : 0 < e.eqr ^ 2 := by positivity
  have hb2 : 0 < e.por ^ 2 := by positivity
  rcases eq_or_ne (Real.cos lat) 0 with hc | hc
  · have hs : Real.sin lat ^ 2 = 1 := by rw [hc] at h1; simpa using h1
    rw [hc, hs]; simpa using hb2
  · have hc2 : 0 < Real.cos lat ^ 2 := by positivity
    have hs2 : 0 ≤ Real.sin lat ^ 2 := by positivity
    have := mul_pos ha2 hc2
    have := mul_nonneg hb2.le hs2
    linarith

/-- The length of the first vector built by `geoc`. -/
theorem geoc_length_first (e : ellipsoid) (lat lon : ℝ) :
    (xyz.mk (Real.cos lat * e.eqr * Real.cos lon) (Real.cos lat * e.eqr * Real.sin lon)
      (Real.sin lat * e.por)).length
      = Real.sqrt (e.eqr ^ 2 * Real.cos lat ^ 2 + e.por ^ 2 * Real.sin lat ^ 2) := by
  unfold xyz.length
  congr 1
  have h1 := Real.sin_sq_add_cos_sq lon
  simp only []
  linear_combination (Real.cos lat ^ 2 * e.eqr ^ 2) * h1

/-- The value of `geoc` in closed form. -/
theorem geoc_closed_form (e : ellipsoid) (lat lon elev : ℝ) (ha : 0 < e.eqr) (hb : 0 < e.por) :
    e.geoc lat lon elev =
      ⟨e.cen.x + (e.eqr ^ 2 / Real.sqrt (e.eqr ^ 2 * Real.cos lat ^ 2
          + e.por ^ 2 * Real.sin lat ^ 2) + elev) * Real.cos lat * Real.cos lon,
       e.cen.y + (e.eqr ^ 2 / Real.sqrt (e.eqr ^ 2 * Real.cos lat ^ 2
          + e.por ^ 2 * Real.sin lat ^ 2) + elev) * Real.cos lat * Real.sin lon,
       e.cen.z + (e.eqr ^ 2 / Real.sqrt (e.eqr ^ 2 * Real.cos lat ^ 2
          + e.por ^ 2 * Real.sin lat ^ 2) * e.por ^ 2 / e.eqr ^ 2 + elev) * Real.sin lat⟩ := by
  have hpos := geoc_radicand_pos e lat ha hb
  set W := Real.sqrt (e.eqr ^ 2 * Real.cos lat ^ 2 + e.por ^ 2 * Real.sin lat ^ 2) with hW
  have hWpos : 0 < W := Real.sqrt_pos.mpr hpos
  have hWW : W * W = e.eqr ^ 2 * Real.cos lat ^ 2 + e.por ^ 2 * Real.sin lat ^ 2 :=
    Real.mul_self_sqrt hpos.le
  have hlen1 := geoc_length_first e lat lon
  rw [← hW] at hlen1
  have hlen2 : (xyz.mk (Real.cos lat * e.eqr * Real.cos lon / W * e.por)
      (Real.cos lat * e.eqr * Real.sin lon / W * e.por)
      (Real.sin lat * e.por / W * e.eqr)).length = e.eqr * e.por / W := by
    unfold xyz.length
    have h1 := Real.sin_sq_add_cos_sq lon
    have h2 := Real.sin_sq_add_cos_sq lat
    rw [Real.sqrt_eq_iff_mul_self_eq
      (add_nonneg (add_nonneg (mul_self_nonneg _) (mul_self_nonneg _)) (mul_self_nonneg _))
      (by positivity)]
    simp only []
    linear_combination (e.eqr ^ 2 * e.por ^ 2 / W ^ 2 * Real.cos lat ^ 2) * h1
      + (e.eqr ^ 2 * e.por ^ 2 / W ^ 2) * h2
  unfold ellipsoid.geoc
  simp only [hlen1, xyz.sdiv, xyz.east, xyz.north, xyz.elev, hlen2, xyz.add, xyz.smul]
  have hane : e.eqr ≠ 0 := ha.ne'
  have hbne : e.por ≠ 0 := hb.ne'
  have hWne : W ≠ 0 := hWpos.ne'
  congr 1 <;> field_simp <;> ring

/-- C8. `ellipsoid::geoc` is the standard geodetic-to-geocentric formula: with
positive radii, `geoc(lat,lon,elev) = cen + ((N+elev) cos lat cos lon,
(N+elev) cos lat sin lon, (N por²/eqr² + elev) sin lat)` where
`N = eqr²/sqrt(eqr² cos² lat + por² sin² lat)`; equivalently the elevation
offset is `elev` times the unit vector `(cos lat cos lon, cos lat sin lon, sin lat)`. -/
theorem geoc_standard_formula (e : ellipsoid) (lat lon elev : ℝ)
    (ha : 0 < e.eqr) (hb : 0 < e.por) :
    e.geoc lat lon elev = e.cen.add
      ⟨(e.eqr ^ 2 / Real.sqrt (e.eqr ^ 2 * Real.cos lat ^ 2 + e.por ^ 2 * Real.sin lat ^ 2)
          + elev) * Real.cos lat * Real.cos lon,
       (e.eqr ^ 2 / Real.sqrt (e.eqr ^ 2 * Real.cos lat ^ 2 + e.por ^ 2 * Real.sin lat ^ 2)
          + elev) * Real.cos lat * Real.sin lon,
       (e.eqr ^ 2 / Real.sqrt (e.eqr ^ 2 * Real.cos lat ^ 2 + e.por ^ 2 * Real.sin lat ^ 2)
          * e.por ^ 2 / e.eqr ^ 2 + elev) * Real.sin lat⟩
    ∧ e.geoc lat lon elev = (e.geoc lat lon 0).add
        ((xyz.mk (Real.cos lat * Real.cos lon) (Real.cos lat * Real.sin lon)
          (Real.sin lat)).smul elev) := by
  rw [geoc_closed_form e lat lon elev ha hb, geoc_closed_form e lat lon 0 ha hb]
  constructor
  · simp only [xyz.add]
  · simp only [xyz.add, xyz.smul]
    congr 1 <;> ring

/-- The formula of `geoc_standard_formula` on the unit sphere at the point of
latitude, longitude and elevation zero. -/
theorem geoc_standard_formula_witness :
    (0 : ℝ) < (ellipsoid.mk 1 1 ⟨0, 0, 0⟩ "" [] []).eqr ∧ (0 : ℝ) < (ellipsoid.mk 1 1 ⟨0, 0, 0⟩ "" [] []).por
    ∧ (ellipsoid.mk 1 1 ⟨0, 0, 0⟩ "" [] []).geoc 0 0 0
      = ((ellipsoid.mk 1 1 ⟨0, 0, 0⟩ "" [] []).geoc 0 0 0).add
        ((xyz.mk (Real.cos 0 * Real.cos 0) (Real.cos 0 * Real.sin 0) (Real.sin 0)).smul 0) :=
  ⟨by norm_num, by norm_num,
    (geoc_standard_formula (ellipsoid.mk 1 1 ⟨0, 0, 0⟩ "" [] []) 0 0 0 (by norm_num) (by norm_num)).2⟩

/-- C9. With positive radii the zero-elevation point `p = geoc(lat,lon,0) − cen`
lies on the ellipsoid: `(p.x² + p.y²)/eqr² + p.z²/por² = 1`. -/
theorem geoc_on_surface (e : ellipsoid) (lat lon : ℝ) (ha : 0 < e.eqr) (hb : 0 < e.por) :
    (((e.geoc lat lon 0).sub e.cen).x ^ 2 + ((e.geoc lat lon 0).sub e.cen).y ^ 2) / e.eqr ^ 2
      + ((e.geoc lat lon 0).sub e.cen).z ^ 2 / e.por ^ 2 = 1 := by
  have hpos := geoc_radicand_pos e lat ha hb
  have hWpos : 0 < Real.sqrt (e.eqr ^ 2 * Real.cos lat ^ 2 + e.por ^ 2 * Real.sin lat ^ 2) :=
    Real.sqrt_pos.mpr hpos
  have hWW := Real.sq_sqrt hpos.le
  rw [geoc_closed_form e lat lon 0 ha hb]
  simp only [xyz.sub, add_sub_cancel_left, add_zero]
  generalize Real.sqrt (e.eqr ^ 2 * Real.cos lat ^ 2 + e.por ^ 2 * Real.sin lat ^ 2) = W
    at hWpos hWW
  have h1 := Real.sin_sq_add_cos_sq lon
  have hane : e.eqr ≠ 0 := ha.ne'
  have hbne : e.por ≠ 0 := hb.ne'
  have hWne : W ≠ 0 := hWpos.ne'
  field_simp
  linear_combination (W ^ 2 * e.eqr ^ 8 * e.por ^ 2 * Real.cos lat ^ 2) * h1
    - (W ^ 2 * e.eqr ^ 6 * e.por ^ 2) * hWW

/-- The point `geoc_on_surface` speaks of, on the unit sphere at latitude and
longitude zero. -/
theorem geoc_on_surface_witness :
    (0 : ℝ) < (ellipsoid.mk 1 1 ⟨0, 0, 0⟩ "" [] []).eqr ∧ (0 : ℝ) < (ellipsoid.mk 1 1 ⟨0, 0, 0⟩ "" [] []).por
    ∧ ((((ellipsoid.mk 1 1 ⟨0, 0, 0⟩ "" [] []).geoc 0 0 0).sub (ellipsoid.mk 1 1 ⟨0, 0, 0⟩ "" [] []).cen).x ^ 2
      + (((ellipsoid.mk 1 1 ⟨0, 0, 0⟩ "" [] []).geoc 0 0 0).sub
          (ellipsoid.mk 1 1 ⟨0, 0, 0⟩ "" [] []).cen).y ^ 2) / (ellipsoid.mk 1 1 ⟨0, 0, 0⟩ "" [] []).eqr ^ 2
      + (((ellipsoid.mk 1 1 ⟨0, 0, 0⟩ "" [] []).geoc 0 0 0).sub
          (ellipsoid.mk 1 1 ⟨0, 0, 0⟩ "" [] []).cen).z ^ 2 / (ellipsoid.mk 1 1 ⟨0, 0, 0⟩ "" [] []).por ^ 2
      = 1 :=
  ⟨by norm_num, by norm_num,
    geoc_on_surface (ellipsoid.mk 1 1 ⟨0, 0, 0⟩ "" [] []) 0 0 (by norm_num) (by norm_num)⟩

/-- The radii and the center that the constructor gives `WGS84`. -/
theorem WGS84_fields :
    WGS84.eqr = 6378137 ∧ WGS84.por = 6378137 * (1 - 1 / 298.257223563)
      ∧ WGS84.cen = ⟨0, 0, 0⟩ := by
  simp [WGS84, ellipsoid.new]

/-- The value of `geoc` at latitude and longitude zero. -/
theorem geoc_zero_zero (e : ellipsoid) (elev : ℝ) (ha : 0 < e.eqr) (hb : 0 < e.por) :
    e.geoc 0 0 elev = e.cen.add ⟨e.eqr + elev, 0, 0⟩ := by
  rw [geoc_closed_form e 0 0 elev ha hb]
  simp only [Real.cos_zero, Real.sin_zero, xyz.add]
  have h : Real.sqrt (e.eqr ^ 2 * 1 ^ 2 + e.por ^ 2 * 0 ^ 2) = e.eqr := by
    rw [show e.eqr ^ 2 * 1 ^ 2 + e.por ^ 2 * 0 ^ 2 = e.eqr ^ 2 by ring]
    exact Real.sqrt_sq ha.le
  rw [h]
  have hane : e.eqr ≠ 0 := ha.ne'
  congr 1
  · field_simp; ring
  · simp
  · simp

/-- C10. With positive radii `geoc(0,0,elev) = cen + (eqr + elev, 0, 0)`; and for
`WGS84` (equatorial radius 6378137, flattening 1/298.257223563, center at
the origin) `geoc(0,0,0)` is `(6378137, 0, 0)`. -/
theorem geoc_equator_prime_meridian (e : ellipsoid) (elev : ℝ)
    (ha : 0 < e.eqr) (hb : 0 < e.por) :
    e.geoc 0 0 elev = e.cen.add ⟨e.eqr + elev, 0, 0⟩
    ∧ WGS84 = ellipsoid.new 6378137 0 (1 / 298.257223563) ⟨0, 0, 0⟩ "WGS84"
    ∧ WGS84.geoc 0 0 0 = ⟨6378137, 0, 0⟩ := by
  refine ⟨geoc_zero_zero e elev ha hb, rfl, ?_⟩
  obtain ⟨h1, h2, h3⟩ := WGS84_fields
  have hw := geoc_zero_zero WGS84 0 (by rw [h1]; norm_num) (by rw [h2]; norm_num)
  rw [hw, h1, h3]
  simp [xyz.add]

/-- The first part of `geoc_equator_prime_meridian` at `WGS84` and elevation 0. -/
theorem geoc_equator_prime_meridian_witness :
    0 < WGS84.eqr ∧ 0 < WGS84.por ∧ WGS84.geoc 0 0 0 = WGS84.cen.add ⟨WGS84.eqr + 0, 0, 0⟩ :=
  have h1 : 0 < WGS84.eqr := by rw [WGS84_fields.1]; norm_num
  have h2 : 0 < WGS84.por := by rw [WGS84_fields.2.1]; norm_num
  ⟨h1, h2, (geoc_equator_prime_meridian WGS84 0 h1 h2).1⟩

/-- What the loop of `geod` leaves in `ret` and `i`: either the counter ran up to
`i + n` with the test failing at every estimate, or the loop was left at the
first estimate that passes the test. -/
theorem geodLoop_spec (e : ellipsoid) (g : xyz) (n : ℕ) :
    ∀ (i : ℕ) (ret : geodetic),
      ((e.geodLoop g n i ret).2 = i + n
        ∧ ∀ k < n, ¬ e.geodDone g ((e.geodRefine g)^[k] ret))
      ∨ ∃ k < n, e.geodLoop g n i ret = ((e.geodRefine g)^[k] ret, i + k)
        ∧ e.geodDone g ((e.geodRefine g)^[k] ret)
        ∧ ∀ j < k, ¬ e.geodDone g ((e.geodRefine g)^[j] ret) := by
  induction n with
  | zero => intro i ret; left; simp [ellipsoid.geodLoop]
  | succ n ih =>
    intro i ret
    by_cases hd : e.geodDone g ret
    · right
      refine ⟨0, Nat.succ_pos n, ?_, ?_, ?_⟩
      · simp [ellipsoid.geodLoop, hd]
      · simpa using hd
      · intro j hj; exact absurd hj (Nat.not_lt_zero j)
    · have hl : e.geodLoop g (n + 1) i ret = e.geodLoop g n (i + 1) (e.geodRefine g ret) := by
        simp [ellipsoid.geodLoop, hd]
      rw [hl]
      rcases ih (i + 1) (e.geodRefine g ret) with ⟨h1, h2⟩ | ⟨k, hk, h1, h2, h3⟩
      · left
        refine ⟨by rw [h1]; ring, ?_⟩
        intro k hk
        cases k with
        | zero => simpa using hd
        | succ k => simpa [Function.iterate_succ_apply] using h2 k (by omega)
      · right
        refine ⟨k + 1, by omega, ?_, ?_, ?_⟩
        · rw [h1]; simp [Function.iterate_succ_apply]; ring
        · simpa [Function.iterate_succ_apply] using h2
        · intro j hj
          cases j with
          | zero => simpa using hd
          | succ j => simpa [Function.iterate_succ_apply] using h3 j (by omega)

theorem dist_sub_right (p q c : xyz) : dist (p.sub c) (q.sub c) = dist p q := by
  unfold dist xyz.sub xyz.length
  simp only []
  congr 1
  ring

theorem toler_eq (e : ellipsoid) : e.toler = e.avgradius * 1e-15 := by
  unfold ellipsoid.toler
  norm_num
  ring

/-- C5. Postcondition of `ellipsoid::geod`: when `geod(p)` returns a result `r`
that is not NaN, the distance between `geoc(r)` and `p` is less than
`avgradius()·1e-15`, with `avgradius() = cbrt(eqr²·por)`. -/
theorem geod_postcondition (e : ellipsoid) (p : xyz) (lat lon elev : ℝ)
    (_ha : 0 < e.eqr) (_hb : 0 < e.por)
    (h : e.geod p = ⟨some lat, some lon, some elev⟩) :
    dist (e.geoc lat lon elev) p < e.avgradius * 1e-15
    ∧ e.avgradius = cbrt (e.eqr ^ 2 * e.por) := by
  refine ⟨?_, by unfold ellipsoid.avgradius; rw [sq]⟩
  unfold ellipsoid.geod at h
  simp only at h
  rcases geodLoop_spec e (p.sub e.cen) 100 0 (e.geodSeed (p.sub e.cen)) with
    ⟨h1, -⟩ | ⟨k, hk, h1, h2, -⟩
  · rw [if_pos (by rw [h1])] at h
    simp at h
  · rw [h1] at h
    rw [if_neg (by simp; omega)] at h
    simp only [latlongelev.mk.injEq, Option.some.injEq] at h
    obtain ⟨e1, e2, e3⟩ := h
    unfold ellipsoid.geodDone ellipsoid.geocLle at h2
    rw [e1, e2, e3, dist_sub_right, toler_eq] at h2
    exact h2

theorem atan2_mul_sin_cos (k t : ℝ) (hk : 0 < k) (h1 : -Real.pi < t) (h2 : t ≤ Real.pi) :
    atan2 (k * Real.sin t) (k * Real.cos t) = t := by
  unfold atan2
  have h := Complex.arg_mul_cos_add_sin_mul_I hk (Set.mem_Ioc.mpr ⟨h1, h2⟩)
  have hc : (⟨k * Real.cos t, k * Real.sin t⟩ : ℂ)
      = (k : ℂ) * (Complex.cos t + Complex.sin t * Complex.I) := by
    apply Complex.ext <;> simp [← Complex.ofReal_cos, ← Complex.ofReal_sin]
  rw [hc]
  exact h

theorem cbrt_pos (u : ℝ) (hu : 0 < u) : 0 < cbrt u := by
  unfold cbrt
  rw [if_pos hu.le]
  exact Real.rpow_pos_of_pos hu _

theorem toler_pos (e : ellipsoid) (ha : 0 < e.eqr) (hb : 0 < e.por) : 0 < e.toler := by
  unfold ellipsoid.toler ellipsoid.avgradius
  have := cbrt_pos (e.eqr * e.eqr * e.por) (by positivity)
  positivity

theorem dist_self_eq_zero (p : xyz) : dist p p = 0 := by
  unfold dist xyz.sub xyz.length
  simp

/-- When the seed already passes the test, `geod` returns the seed. -/
theorem geod_of_seed_done (e : ellipsoid) (p : xyz)
    (h : e.geodDone (p.sub e.cen) (e.geodSeed (p.sub e.cen))) :
    e.geod p = ⟨some (e.geodSeed (p.sub e.cen)).lat, some (e.geodSeed (p.sub e.cen)).lon,
      some (e.geodSeed (p.sub e.cen)).elev⟩ := by
  unfold ellipsoid.geod
  simp [ellipsoid.geodLoop, h]

/-- The seed of `geod` at a point of the surface is the point's latitude and
longitude. -/
theorem geodSeed_geoc_surface (e : ellipsoid) (lat lon : ℝ) (ha : 0 < e.eqr) (hb : 0 < e.por)
    (h1 : -(Real.pi / 2) < lat) (h2 : lat < Real.pi / 2)
    (h3 : -Real.pi < lon) (h4 : lon ≤ Real.pi) :
    e.geodSeed ((e.geoc lat lon 0).sub e.cen) = ⟨lat, lon, 0⟩ := by
  have hpos := geoc_radicand_pos e lat ha hb
  have hWpos : 0 < Real.sqrt (e.eqr ^ 2 * Real.cos lat ^ 2 + e.por ^ 2 * Real.sin lat ^ 2) :=
    Real.sqrt_pos.mpr hpos
  have hcl : 0 < Real.cos lat := Real.cos_pos_of_mem_Ioo ⟨h1, h2⟩
  rw [geoc_closed_form e lat lon 0 ha hb]
  simp only [xyz.sub, add_sub_cancel_left, add_zero]
  generalize Real.sqrt (e.eqr ^ 2 * Real.cos lat ^ 2 + e.por ^ 2 * Real.sin lat ^ 2) = W
    at hWpos
  have hane : e.eqr ≠ 0 := ha.ne'
  have hbne : e.por ≠ 0 := hb.ne'
  have hWne : W ≠ 0 := hWpos.ne'
  have hk : 0 < e.eqr ^ 2 / W * Real.cos lat := by positivity
  have hhyp : hypot (e.eqr ^ 2 / W * Real.cos lat * Real.sin lon)
      (e.eqr ^ 2 / W * Real.cos lat * Real.cos lon) = e.eqr ^ 2 / W * Real.cos lat := by
    unfold hypot
    rw [Real.sqrt_eq_iff_mul_self_eq (add_nonneg (mul_self_nonneg _) (mul_self_nonneg _)) hk.le]
    have := Real.sin_sq_add_cos_sq lon
    linear_combination ((e.eqr ^ 2 / W * Real.cos lat) ^ 2) * this
  have hpi : 0 < Real.pi := Real.pi_pos
  unfold ellipsoid.geodSeed
  simp only [xyz.getx, xyz.gety, xyz.getz, hhyp]
  congr 1
  · have hk2 : 0 < e.eqr * e.por / W := by positivity
    have hy : e.eqr ^ 2 / W * e.por ^ 2 / e.eqr ^ 2 * Real.sin lat * e.eqr / e.por
        = e.eqr * e.por / W * Real.sin lat := by
      field_simp; ring
    have hx : e.eqr ^ 2 / W * Real.cos lat * e.por / e.eqr
        = e.eqr * e.por / W * Real.cos lat := by
      field_simp; ring
    rw [hy, hx]
    exact atan2_mul_sin_cos (e.eqr * e.por / W) lat hk2 (by linarith) (by linarith)
  · exact atan2_mul_sin_cos _ lon hk h3 h4

/-- Exact round trip at the surface: with positive radii, `|lat| < π/2` and `lon`
in `(-π, π]`, `geod(geoc(lat,lon,0))` is `(lat, lon, 0)`. -/
theorem geod_geoc_surface (e : ellipsoid) (lat lon : ℝ) (ha : 0 < e.eqr) (hb : 0 < e.por)
    (h1 : -(Real.pi / 2) < lat) (h2 : lat < Real.pi / 2)
    (h3 : -Real.pi < lon) (h4 : lon ≤ Real.pi) :
    e.geod (e.geoc lat lon 0) = ⟨some lat, some lon, some 0⟩ := by
  have hs := geodSeed_geoc_surface e lat lon ha hb h1 h2 h3 h4
  have hd : e.geodDone ((e.geoc lat lon 0).sub e.cen)
      (e.geodSeed ((e.geoc lat lon 0).sub e.cen)) := by
    rw [hs]
    unfold ellipsoid.geodDone ellipsoid.geocLle
    rw [dist_self_eq_zero]
    exact toler_pos e ha hb
  rw [geod_of_seed_done e _ hd, hs]

theorem WGS84_pos : 0 < WGS84.eqr ∧ 0 < WGS84.por := by
  obtain ⟨h1, h2, -⟩ := WGS84_fields
  rw [h1, h2]; constructor <;> norm_num

/-- The postcondition `geod_postcondition` at the point of `WGS84` of latitude,
longitude and elevation zero, where `geod` returns `(0, 0, 0)`. -/
theorem geod_postcondition_witness :
    0 < WGS84.eqr ∧ 0 < WGS84.por
    ∧ WGS84.geod (WGS84.geoc 0 0 0) = ⟨some 0, some 0, some 0⟩
    ∧ dist (WGS84.geoc 0 0 0) (WGS84.geoc 0 0 0) < WGS84.avgradius * 1e-15 :=
  have h : WGS84.geod (WGS84.geoc 0 0 0) = ⟨some 0, some 0, some 0⟩ :=
    geod_geoc_surface WGS84 0 0 WGS84_pos.1 WGS84_pos.2
      (by linarith [Real.pi_pos]) (by linarith [Real.pi_pos]) (by linarith [Real.pi_pos])
      Real.pi_pos.le
  ⟨WGS84_pos.1, WGS84_pos.2, h,
    (geod_postcondition WGS84 (WGS84.geoc 0 0 0) 0 0 0 WGS84_pos.1 WGS84_pos.2 h).1⟩

/-- C6. Failure signal of `ellipsoid::geod`: the result depends on at most 100
successive estimates, the seed followed by its refinements. If none of them
passes the tolerance test, latitude, longitude and elevation are all NaN; if
estimate `k < 100` is the first to pass, the three outputs are its three
numbers; so the result is all NaN or free of NaN, never partly NaN. -/
theorem geod_failure_signal (e : ellipsoid) (p : xyz) (_ha : 0 < e.eqr) (_hb : 0 < e.por) :
    ((∀ k < 100, ¬ e.geodDone (p.sub e.cen)
          ((e.geodRefine (p.sub e.cen))^[k] (e.geodSeed (p.sub e.cen)))) →
        e.geod p = ⟨none, none, none⟩)
    ∧ (∀ k < 100,
        e.geodDone (p.sub e.cen) ((e.geodRefine (p.sub e.cen))^[k] (e.geodSeed (p.sub e.cen))) →
        (∀ j < k, ¬ e.geodDone (p.sub e.cen)
          ((e.geodRefine (p.sub e.cen))^[j] (e.geodSeed (p.sub e.cen)))) →
        e.geod p =
          ⟨some ((e.geodRefine (p.sub e.cen))^[k] (e.geodSeed (p.sub e.cen))).lat,
           some ((e.geodRefine (p.sub e.cen))^[k] (e.geodSeed (p.sub e.cen))).lon,
           some ((e.geodRefine (p.sub e.cen))^[k] (e.geodSeed (p.sub e.cen))).elev⟩)
    ∧ (e.geod p = ⟨none, none, none⟩
        ∨ ∃ lat lon elev : ℝ, e.geod p = ⟨some lat, some lon, some elev⟩) := by
  have hspec := geodLoop_spec e (p.sub e.cen) 100 0 (e.geodSeed (p.sub e.cen))
  refine ⟨?_, ?_, ?_⟩
  · intro hall
    rcases hspec with ⟨h1, -⟩ | ⟨k, hk, -, h2, -⟩
    · unfold ellipsoid.geod
      simp only
      rw [if_pos (by rw [h1])]
    · exact absurd h2 (hall k hk)
  · intro k hk hd hfirst
    rcases hspec with ⟨-, h2⟩ | ⟨k1, hk1, h1, h2, h3⟩
    · exact absurd hd (h2 k hk)
    · have hkk : k1 = k := by
        rcases lt_trichotomy k1 k with hlt | heq | hgt
        · exact absurd h2 (hfirst k1 hlt)
        · exact heq
        · exact absurd hd (h3 k hgt)
      subst hkk
      unfold ellipsoid.geod
      simp only
      rw [h1, if_neg (by simp; omega)]
  · rcases hspec with ⟨h1, -⟩ | ⟨k, hk, h1, -, -⟩
    · left
      unfold ellipsoid.geod
      simp only
      rw [if_pos (by rw [h1])]
    · right
      refine ⟨((e.geodRefine (p.sub e.cen))^[k] (e.geodSeed (p.sub e.cen))).lat,
        ((e.geodRefine (p.sub e.cen))^[k] (e.geodSeed (p.sub e.cen))).lon,
        ((e.geodRefine (p.sub e.cen))^[k] (e.geodSeed (p.sub e.cen))).elev, ?_⟩
      unfold ellipsoid.geod
      simp only
      rw [h1, if_neg (by simp; omega)]

/-- The statement `geod_failure_signal` at the point of `WGS84` of latitude,
longitude and elevation zero: the result is all NaN or free of NaN. -/
theorem geod_failure_signal_witness :
    0 < WGS84.eqr ∧ 0 < WGS84.por
    ∧ (WGS84.geod (WGS84.geoc 0 0 0) = ⟨none, none, none⟩
        ∨ ∃ lat lon elev : ℝ, WGS84.geod (WGS84.geoc 0 0 0) = ⟨some lat, some lon, some elev⟩) :=
  ⟨WGS84_pos.1, WGS84_pos.2,
    (geod_failure_signal WGS84 (WGS84.geoc 0 0 0) WGS84_pos.1 WGS84_pos.2).2.2⟩

theorem Sphere_fields : Sphere.eqr = 6371000 ∧ Sphere.por = 6371000 ∧ Sphere.cen = ⟨0, 0, 0⟩ := by
  simp [Sphere, ellipsoid.new]

theorem Sphere_pos : 0 < Sphere.eqr ∧ 0 < Sphere.por := by
  obtain ⟨h1, h2, -⟩ := Sphere_fields
  rw [h1, h2]; constructor <;> norm_num

theorem ellipsoids_pos (e : ellipsoid) (he : e ∈ ellipsoids) : 0 < e.eqr ∧ 0 < e.por := by
  simp only [ellipsoids, List.mem_cons, List.mem_singleton, List.not_mem_nil, or_false] at he
  rcases he with h | h | h | h | h | h | h | h <;> rw [h] <;>
    simp only [Sphere, TestEll9, Clarke, GRS80, HGRS87, WGS84, ITRS, Hayford, ellipsoid.new] <;>
    norm_num

/-- The value of `geoc` at latitude `π/2` and elevation zero: the north pole. -/
theorem geoc_north_pole (e : ellipsoid) (lon : ℝ) (ha : 0 < e.eqr) (hb : 0 < e.por) :
    e.geoc (Real.pi / 2) lon 0 = e.cen.add ⟨0, 0, e.por⟩ := by
  rw [geoc_closed_form e (Real.pi / 2) lon 0 ha hb]
  simp only [Real.cos_pi_div_two, Real.sin_pi_div_two, xyz.add]
  have h : Real.sqrt (e.eqr ^ 2 * 0 ^ 2 + e.por ^ 2 * 1 ^ 2) = e.por := by
    rw [show e.eqr ^ 2 * 0 ^ 2 + e.por ^ 2 * 1 ^ 2 = e.por ^ 2 by ring]
    exact Real.sqrt_sq hb.le
  rw [h]
  have hane : e.eqr ≠ 0 := ha.ne'
  have hbne : e.por ≠ 0 := hb.ne'
  congr 1
  · simp
  · simp
  · field_simp; ring

theorem atan2_pos_zero (u : ℝ) (hu : 0 < u) : atan2 u 0 = Real.pi / 2 := by
  unfold atan2
  have h : (⟨0, u⟩ : ℂ) = (u : ℂ) * Complex.I := by
    apply Complex.ext <;> simp
  rw [h, Complex.arg_real_mul _ hu, Complex.arg_I]

theorem atan2_zero_zero : atan2 0 0 = 0 := by
  unfold atan2
  have h : (⟨0, 0⟩ : ℂ) = 0 := by apply Complex.ext <;> simp
  rw [h, Complex.arg_zero]

/-- The seed of `geod` at the north pole. -/
theorem geodSeed_north_pole (e : ellipsoid) (ha : 0 < e.eqr) (hb : 0 < e.por) :
    e.geodSeed ⟨0, 0, e.por⟩ = ⟨Real.pi / 2, 0, 0⟩ := by
  unfold ellipsoid.geodSeed hypot
  simp only [xyz.getx, xyz.gety, xyz.getz, mul_zero, add_zero, Real.sqrt_zero, zero_mul,
    zero_div]
  have hbne : e.por ≠ 0 := hb.ne'
  rw [atan2_zero_zero, show e.por * e.eqr / e.por = e.eqr by field_simp,
    atan2_pos_zero _ ha]

/-- C11. With positive radii, `geod` at the north-pole point `cen + (0, 0, por)`
returns latitude `π/2` and elevation 0, none of its outputs being NaN; for
`WGS84` that point is `(0, 0, 6356752.314...)`. -/
theorem geod_north_pole (e : ellipsoid) (ha : 0 < e.eqr) (hb : 0 < e.por) :
    e.geod (e.cen.add ⟨0, 0, e.por⟩) = ⟨some (Real.pi / 2), some 0, some 0⟩
    ∧ WGS84.cen.add ⟨0, 0, WGS84.por⟩ = ⟨0, 0, WGS84.por⟩
    ∧ 6356752.314 < WGS84.por ∧ WGS84.por < 6356752.315 := by
  refine ⟨?_, ?_, ?_, ?_⟩
  · have hg : (e.cen.add ⟨0, 0, e.por⟩).sub e.cen = ⟨0, 0, e.por⟩ := by
      simp [xyz.add, xyz.sub]
    have hs := geodSeed_north_pole e ha hb
    have hd : e.geodDone ((e.cen.add ⟨0, 0, e.por⟩).sub e.cen)
        (e.geodSeed ((e.cen.add ⟨0, 0, e.por⟩).sub e.cen)) := by
      rw [hg, hs]
      unfold ellipsoid.geodDone ellipsoid.geocLle
      simp only
      rw [geoc_north_pole e 0 ha hb, hg, dist_self_eq_zero]
      exact toler_pos e ha hb
    rw [geod_of_seed_done e _ hd, hg, hs]
  · rw [WGS84_fields.2.2]; simp [xyz.add]
  · rw [WGS84_fields.2.1]; norm_num
  · rw [WGS84_fields.2.1]; norm_num

/-- The statement `geod_north_pole` at `WGS84`. -/
theorem geod_north_pole_witness :
    0 < WGS84.eqr ∧ 0 < WGS84.por
    ∧ WGS84.geod (WGS84.cen.add ⟨0, 0, WGS84.por⟩) = ⟨some (Real.pi / 2), some 0, some 0⟩ :=
  ⟨WGS84_pos.1, WGS84_pos.2, (geod_north_pole WGS84 WGS84_pos.1 WGS84_pos.2).1⟩

/-- C12. Radius derivation in the constructor. With `polradius` supplied as 0
the stored radii are `eqr = equradius` and `por = equradius·(1 − flattening)`.
With `equradius` supplied as 0 and `polradius = 6356752`, `flattening = 1/298`
the constructor computes `equradius/(1 − flattening)` from the zero
`equradius` itself: the stored `eqr` is 0, not `polradius/(1 − flattening)`,
and `por = eqr·(1 − flattening)` fails. -/
theorem ellipsoid_new_radii :
    (∀ (er f : ℝ) (c : xyz) (n : String),
      (ellipsoid.new er 0 f c n).eqr = er ∧ (ellipsoid.new er 0 f c n).por = er * (1 - f))
    ∧ (ellipsoid.new 0 6356752 (1 / 298) ⟨0, 0, 0⟩ "").eqr = 0
    ∧ (ellipsoid.new 0 6356752 (1 / 298) ⟨0, 0, 0⟩ "").por = 6356752
    ∧ (ellipsoid.new 0 6356752 (1 / 298) ⟨0, 0, 0⟩ "").eqr ≠ 6356752 / (1 - 1 / 298)
    ∧ (ellipsoid.new 0 6356752 (1 / 298) ⟨0, 0, 0⟩ "").por
        ≠ (ellipsoid.new 0 6356752 (1 / 298) ⟨0, 0, 0⟩ "").eqr * (1 - 1 / 298) := by
  refine ⟨?_, ?_, ?_, ?_, ?_⟩
  · intro er f c n
    simp [ellipsoid.new]
  · simp [ellipsoid.new]
  · simp [ellipsoid.new]
  · simp only [ellipsoid.new]; norm_num
  · simp only [ellipsoid.new]; norm_num

theorem cbrt_pow_three (u : ℝ) : cbrt u ^ 3 = u := by
  unfold cbrt
  split_ifs with h
  · have := Real.rpow_inv_natCast_pow h (show (3 : ℕ) ≠ 0 by norm_num)
    simpa using this
  · have h' : 0 ≤ -u := by linarith
    have := Real.rpow_inv_natCast_pow h' (show (3 : ℕ) ≠ 0 by norm_num)
    have h3 : ((-u) ^ ((3 : ℝ)⁻¹)) ^ 3 = -u := by simpa using this
    rw [show (-((-u) ^ ((3 : ℝ)⁻¹))) ^ 3 = -(((-u) ^ ((3 : ℝ)⁻¹)) ^ 3) by ring, h3, neg_neg]

/-- The ellipsoid that `new ellipsoid(r,0,0,center,"")` constructs. -/
theorem new_sphere_fields (r : ℝ) (c : xyz) :
    (ellipsoid.new r 0 0 c "").eqr = r ∧ (ellipsoid.new r 0 0 c "").por = r
      ∧ (ellipsoid.new r 0 0 c "").cen = c := by
  simp [ellipsoid.new]

/-- C13. Best-fit sphere: the member `sphere` of an ellipsoid is the ellipsoid
itself if and only if `eqr = por`; otherwise it is the ellipsoid constructed
as `ellipsoid(avgradius(),0,0,center,"")`, with the same center and both
radii equal to `r = cbrt(eqr²·por)`, where `r³ = eqr²·por`; and the sphere of
that sphere is itself. -/
theorem sphere_best_fit (e : ellipsoid) :
    (e.sphere = e ↔ e.eqr = e.por)
    ∧ (e.eqr ≠ e.por →
        e.sphere = ellipsoid.new e.avgradius 0 0 e.cen ""
        ∧ e.sphere.cen = e.cen
        ∧ e.sphere.eqr = cbrt (e.eqr ^ 2 * e.por)
        ∧ e.sphere.por = cbrt (e.eqr ^ 2 * e.por)
        ∧ cbrt (e.eqr ^ 2 * e.por) ^ 3 = e.eqr ^ 2 * e.por)
    ∧ e.sphere.sphere = e.sphere := by
  have havg : e.avgradius = cbrt (e.eqr ^ 2 * e.por) := by
    unfold ellipsoid.avgradius; rw [sq]
  obtain ⟨n1, n2, n3⟩ := new_sphere_fields e.avgradius e.cen
  refine ⟨?_, ?_, ?_⟩
  · constructor
    · intro h
      by_contra hne
      have hs : e.sphere = ellipsoid.new e.avgradius 0 0 e.cen "" := by
        unfold ellipsoid.sphere; rw [if_neg hne]
      rw [hs] at h
      apply hne
      rw [← h, n1, n2]
    · intro h
      unfold ellipsoid.sphere; rw [if_pos h]
  · intro hne
    have hs : e.sphere = ellipsoid.new e.avgradius 0 0 e.cen "" := by
      unfold ellipsoid.sphere; rw [if_neg hne]
    refine ⟨hs, ?_, ?_, ?_, cbrt_pow_three _⟩
    · rw [hs, n3]
    · rw [hs, n1, havg]
    · rw [hs, n2, havg]
  · by_cases h : e.eqr = e.por
    · have hs : e.sphere = e := by unfold ellipsoid.sphere; rw [if_pos h]
      rw [hs, hs]
    · have hs : e.sphere = ellipsoid.new e.avgradius 0 0 e.cen "" := by
        unfold ellipsoid.sphere; rw [if_neg h]
      rw [hs]
      unfold ellipsoid.sphere
      rw [if_pos (by rw [n1, n2])]

theorem Clarke_fields :
    Clarke.eqr = 6378206.4 ∧ Clarke.por = 6356583.8 ∧ Clarke.cen = ⟨0, 0, 0⟩ := by
  simp [Clarke, ellipsoid.new]
  norm_num

/-- The statement `sphere_best_fit` at `Clarke`, whose radii differ. -/
theorem sphere_best_fit_witness :
    Clarke.eqr ≠ Clarke.por
    ∧ Clarke.sphere.cen = Clarke.cen
    ∧ Clarke.sphere.eqr = cbrt (Clarke.eqr ^ 2 * Clarke.por)
    ∧ Clarke.sphere.por = cbrt (Clarke.eqr ^ 2 * Clarke.por) :=
  have h : Clarke.eqr ≠ Clarke.por := by
    rw [Clarke_fields.1, Clarke_fields.2.1]; norm_num
  ⟨h, ((sphere_best_fit Clarke).2.1 h).2.1, ((sphere_best_fit Clarke).2.1 h).2.2.1,
    ((sphere_best_fit Clarke).2.1 h).2.2.2.1⟩

theorem eccentricity_of_sphere (e : ellipsoid) (hs : e.eqr = e.por) (ha : 0 < e.eqr) :
    e.eccentricity = 0 := by
  unfold ellipsoid.eccentricity
  have hane : e.eqr ≠ 0 := ha.ne'
  rw [← hs, show e.eqr * e.eqr / e.eqr / e.eqr = 1 by field_simp]
  simp

/-- C14. Sphere degeneracy: when `eqr = por > 0` and `|lat| < π/2`,
`conformalLatitude(lat) = lat`. -/
theorem conformalLatitude_sphere (e : ellipsoid) (lat : ℝ) (hs : e.eqr = e.por)
    (ha : 0 < e.eqr) (hlat : |lat| < Real.pi / 2) :
    e.conformalLatitude lat = lat := by
  obtain ⟨h1, h2⟩ := abs_lt.mp hlat
  unfold ellipsoid.conformalLatitude guder invGuder
  simp only [eccentricity_of_sphere e hs ha, zero_mul, sub_zero]
  rw [Real.sinh_arsinh, Real.arctan_tan h1 h2]

/-- The statement `conformalLatitude_sphere` on the registry `Sphere` at
latitude 1. -/
theorem conformalLatitude_sphere_witness :
    Sphere.eqr = Sphere.por ∧ 0 < Sphere.eqr ∧ |(1 : ℝ)| < Real.pi / 2
    ∧ Sphere.conformalLatitude 1 = 1 :=
  have hs : Sphere.eqr = Sphere.por := by rw [Sphere_fields.1, Sphere_fields.2.1]
  have hl : |(1 : ℝ)| < Real.pi / 2 := by
    rw [abs_one]; linarith [Real.pi_gt_three]
  ⟨hs, Sphere_pos.1, hl, conformalLatitude_sphere Sphere 1 hs Sphere_pos.1 hl⟩

/-! ## Theorems: invquad -/

/-- The function `invquad` is its two parts in sequence. -/
theorem invquad_eq (x0 y0 x1 y1 x2 y2 : Dbl) :
    invquad x0 y0 x1 y1 x2 y2 = invquadShifted (invquadOffset x0 x1 x2) x0 y0 x1 y1 x2 y2 :=
  rfl

theorem swapIfGt_fin (a b : ℚ) :
    swapIfGt (fin a, fin b) = (fin (min a b), fin (max a b)) := by
  unfold swapIfGt
  simp only [Dbl.gt, Dbl.lt]
  by_cases h : b < a
  · simp [h, min_eq_right h.le, max_eq_left h.le]
  · simp [h, min_eq_left (not_lt.mp h), max_eq_right (not_lt.mp h)]

/-- For finite abscissas the offset of `invquad` is finite. -/
theorem invquadOffset_fin (x0 x1 x2 : ℚ) :
    ∃ o : ℚ, invquadOffset (fin x0) (fin x1) (fin x2) = fin o := by
  unfold invquadOffset
  simp only [swapIfGt_fin, Dbl.gt, Dbl.ge, Dbl.le, Dbl.lt, Dbl.eq]
  split_ifs with h1 h2 h3
  all_goals first
    | exact ⟨_, rfl⟩
    | (exfalso
       simp only [Bool.and_eq_true, Bool.or_eq_true, decide_eq_true_eq, not_and, not_or,
         not_lt] at *
       obtain ⟨a1, a2⟩ := h1
       obtain ⟨b1, b2⟩ := h2
       exact a2 (le_antisymm (h3 (lt_of_le_of_ne b1 (fun hh => b2 hh.symm))) a1))

/-- With a finite offset and pairwise distinct ordinates, the second part of
`invquad` gives the value at 0 of the inverse quadratic interpolant, whatever
the offset. -/
theorem invquadShifted_fin (o x0 y0 x1 y1 x2 y2 : ℚ)
    (h01 : y0 ≠ y1) (h12 : y1 ≠ y2) (h02 : y0 ≠ y2) :
    invquadShifted (fin o) (fin x0) (fin y0) (fin x1) (fin y1) (fin x2) (fin y2)
      = fin (inverseQuadratic x0 y0 x1 y1 x2 y2 0) := by
  have d01 : y0 - y1 ≠ 0 := sub_ne_zero.mpr h01
  have d10 : y1 - y0 ≠ 0 := sub_ne_zero.mpr h01.symm
  have d12 : y1 - y2 ≠ 0 := sub_ne_zero.mpr h12
  have d21 : y2 - y1 ≠ 0 := sub_ne_zero.mpr h12.symm
  have d02 : y0 - y2 ≠ 0 := sub_ne_zero.mpr h02
  have d20 : y2 - y0 ≠ 0 := sub_ne_zero.mpr h02.symm
  unfold invquadShifted inverseQuadratic
  simp only [Dbl.sub, Dbl.neg, Dbl.add, Dbl.mul, Dbl.div, ← sub_eq_add_neg, d01, d10, d12, d21,
    d02, d20, if_false, Dbl.fin.injEq]
  field_simp
  ring

/-- The value of `invquad` on finite samples with pairwise distinct ordinates. -/
theorem invquad_fin (x0 y0 x1 y1 x2 y2 : ℚ)
    (h01 : y0 ≠ y1) (h12 : y1 ≠ y2) (h02 : y0 ≠ y2) :
    invquad (fin x0) (fin y0) (fin x1) (fin y1) (fin x2) (fin y2)
      = fin (inverseQuadratic x0 y0 x1 y1 x2 y2 0) := by
  obtain ⟨o, ho⟩ := invquadOffset_fin x0 x1 x2
  rw [invquad_eq, ho, invquadShifted_fin o x0 y0 x1 y1 x2 y2 h01 h12 h02]

/-- The inverse quadratic interpolant passes through the three samples. -/
theorem inverseQuadratic_interpolates (x0 y0 x1 y1 x2 y2 : ℚ)
    (h01 : y0 ≠ y1) (h12 : y1 ≠ y2) (h02 : y0 ≠ y2) :
    inverseQuadratic x0 y0 x1 y1 x2 y2 y0 = x0
    ∧ inverseQuadratic x0 y0 x1 y1 x2 y2 y1 = x1
    ∧ inverseQuadratic x0 y0 x1 y1 x2 y2 y2 = x2 := by
  have d01 : y0 - y1 ≠ 0 := sub_ne_zero.mpr h01
  have d10 : y1 - y0 ≠ 0 := sub_ne_zero.mpr h01.symm
  have d12 : y1 - y2 ≠ 0 := sub_ne_zero.mpr h12
  have d21 : y2 - y1 ≠ 0 := sub_ne_zero.mpr h12.symm
  have d02 : y0 - y2 ≠ 0 := sub_ne_zero.mpr h02
  have d20 : y2 - y0 ≠ 0 := sub_ne_zero.mpr h02.symm
  unfold inverseQuadratic
  refine ⟨?_, ?_, ?_⟩
  · simp only [sub_self, mul_zero, zero_mul, zero_div, add_zero]
    field_simp
    ring
  · simp only [sub_self, mul_zero, zero_mul, zero_div, add_zero, zero_add]
    field_simp
    ring
  · simp only [sub_self, mul_zero, zero_mul, zero_div, add_zero, zero_add]
    field_simp
    ring

/-- Every polynomial `a·y² + b·y + c` through the three samples has the constant
term `inverseQuadratic … 0`. -/
theorem inverseQuadratic_unique (x0 y0 x1 y1 x2 y2 a b c : ℚ)
    (h01 : y0 ≠ y1) (h12 : y1 ≠ y2) (h02 : y0 ≠ y2)
    (e0 : a * y0 ^ 2 + b * y0 + c = x0) (e1 : a * y1 ^ 2 + b * y1 + c = x1)
    (e2 : a * y2 ^ 2 + b * y2 + c = x2) :
    inverseQuadratic x0 y0 x1 y1 x2 y2 0 = c := by
  have d01 : y0 - y1 ≠ 0 := sub_ne_zero.mpr h01
  have d10 : y1 - y0 ≠ 0 := sub_ne_zero.mpr h01.symm
  have d12 : y1 - y2 ≠ 0 := sub_ne_zero.mpr h12
  have d21 : y2 - y1 ≠ 0 := sub_ne_zero.mpr h12.symm
  have d02 : y0 - y2 ≠ 0 := sub_ne_zero.mpr h02
  have d20 : y2 - y0 ≠ 0 := sub_ne_zero.mpr h02.symm
  unfold inverseQuadratic
  rw [← e0, ← e1, ← e2]
  field_simp
  ring

/-- C15. In exact arithmetic, on finite samples with pairwise distinct `y0`, `y1`,
`y2`, `invquad` returns `P(0)` where `P` is the polynomial of degree at most 2
with `P(yi) = xi`: the Lagrange sum `Σ xi·yj·yk/((yi−yj)(yi−yk))`, which is the
constant term of every such polynomial; the value does not depend on the
offset subtracted; and when some `yi` is 0 the result is `xi`. -/
theorem invquad_inverse_quadratic (x0 y0 x1 y1 x2 y2 : ℚ)
    (h01 : y0 ≠ y1) (h12 : y1 ≠ y2) (h02 : y0 ≠ y2) :
    invquad (fin x0) (fin y0) (fin x1) (fin y1) (fin x2) (fin y2)
      = fin (x0 * y1 * y2 / ((y0 - y1) * (y0 - y2)) + x1 * y2 * y0 / ((y1 - y2) * (y1 - y0))
          + x2 * y0 * y1 / ((y2 - y0) * (y2 - y1)))
    ∧ invquad (fin x0) (fin y0) (fin x1) (fin y1) (fin x2) (fin y2)
      = fin (inverseQuadratic x0 y0 x1 y1 x2 y2 0)
    ∧ (inverseQuadratic x0 y0 x1 y1 x2 y2 y0 = x0
      ∧ inverseQuadratic x0 y0 x1 y1 x2 y2 y1 = x1
      ∧ inverseQuadratic x0 y0 x1 y1 x2 y2 y2 = x2)
    ∧ (∀ a b c : ℚ, a * y0 ^ 2 + b * y0 + c = x0 → a * y1 ^ 2 + b * y1 + c = x1 →
        a * y2 ^ 2 + b * y2 + c = x2 →
        invquad (fin x0) (fin y0) (fin x1) (fin y1) (fin x2) (fin y2) = fin c)
    ∧ (∀ o : ℚ, invquadShifted (fin o) (fin x0) (fin y0) (fin x1) (fin y1) (fin x2) (fin y2)
        = invquad (fin x0) (fin y0) (fin x1) (fin y1) (fin x2) (fin y2))
    ∧ (y0 = 0 → invquad (fin x0) (fin y0) (fin x1) (fin y1) (fin x2) (fin y2) = fin x0)
    ∧ (y1 = 0 → invquad (fin x0) (fin y0) (fin x1) (fin y1) (fin x2) (fin y2) = fin x1)
    ∧ (y2 = 0 → invquad (fin x0) (fin y0) (fin x1) (fin y1) (fin x2) (fin y2) = fin x2) := by
  have hv := invquad_fin x0 y0 x1 y1 x2 y2 h01 h12 h02
  have hi := inverseQuadratic_interpolates x0 y0 x1 y1 x2 y2 h01 h12 h02
  refine ⟨?_, hv, hi, ?_, ?_, ?_, ?_, ?_⟩
  · rw [hv]
    unfold inverseQuadratic
    congr 1
    ring
  · intro a b c e0 e1 e2
    rw [hv, inverseQuadratic_unique x0 y0 x1 y1 x2 y2 a b c h01 h12 h02 e0 e1 e2]
  · intro o
    rw [hv, invquadShifted_fin o x0 y0 x1 y1 x2 y2 h01 h12 h02]
  · intro h; rw [hv]; congr 1; rw [← h]; exact hi.1
  · intro h; rw [hv]; congr 1; rw [← h]; exact hi.2.1
  · intro h; rw [hv]; congr 1; rw [← h]; exact hi.2.2

/-- The statement `invquad_inverse_quadratic` on the samples `(1,-1)`, `(2,2)`,
`(4/3,-2/9)` of `x²-2`: the Lagrange value is `149/105`. -/
theorem invquad_inverse_quadratic_witness :
    (-1 : ℚ) ≠ 2 ∧ (2 : ℚ) ≠ -2/9 ∧ (-1 : ℚ) ≠ -2/9
    ∧ invquad (fin 1) (fin (-1)) (fin 2) (fin 2) (fin (4/3)) (fin (-2/9)) = fin (149/105) :=
  ⟨by norm_num, by norm_num, by norm_num,
    (invquad_inverse_quadratic 1 (-1) 2 2 (4/3) (-2/9) (by norm_num) (by norm_num)
      (by norm_num)).1.trans (by norm_num)⟩

/-- C16. In exact arithmetic `invquad` is translation-equivariant in `x`: on
finite samples with pairwise distinct ordinates, shifting the three abscissas
by `t` shifts the result by `t`, whatever the sign of the shifted abscissas. -/
theorem invquad_translation (x0 y0 x1 y1 x2 y2 t : ℚ)
    (h01 : y0 ≠ y1) (h12 : y1 ≠ y2) (h02 : y0 ≠ y2) :
    invquad (fin (x0 + t)) (fin y0) (fin (x1 + t)) (fin y1) (fin (x2 + t)) (fin y2)
      = Dbl.add (invquad (fin x0) (fin y0) (fin x1) (fin y1) (fin x2) (fin y2)) (fin t) := by
  have d01 : y0 - y1 ≠ 0 := sub_ne_zero.mpr h01
  have d10 : y1 - y0 ≠ 0 := sub_ne_zero.mpr h01.symm
  have d12 : y1 - y2 ≠ 0 := sub_ne_zero.mpr h12
  have d21 : y2 - y1 ≠ 0 := sub_ne_zero.mpr h12.symm
  have d02 : y0 - y2 ≠ 0 := sub_ne_zero.mpr h02
  have d20 : y2 - y0 ≠ 0 := sub_ne_zero.mpr h02.symm
  rw [invquad_fin _ _ _ _ _ _ h01 h12 h02, invquad_fin _ _ _ _ _ _ h01 h12 h02]
  simp only [Dbl.add, Dbl.fin.injEq]
  unfold inverseQuadratic
  field_simp
  ring

/-- The statement `invquad_translation` on three samples with abscissas in
`[6378000, 6378100]`, shifted by `-6378050` so that they straddle zero. -/
theorem invquad_translation_witness :
    (-1 : ℚ) ≠ 2 ∧ (2 : ℚ) ≠ 1 ∧ (-1 : ℚ) ≠ 1
    ∧ invquad (fin (6378000 + -6378050)) (fin (-1)) (fin (6378100 + -6378050)) (fin 2)
        (fin (6378060 + -6378050)) (fin 1)
      = Dbl.add (invquad (fin 6378000) (fin (-1)) (fin 6378100) (fin 2) (fin 6378060) (fin 1))
          (fin (-6378050)) :=
  ⟨by norm_num, by norm_num, by norm_num,
    invquad_translation 6378000 (-1) 6378100 2 6378060 1 (-6378050) (by norm_num) (by norm_num)
      (by norm_num)⟩

/-! ## Theorems: the Krüger series and the registry -/

/-- The four Krüger methods return `none` exactly when a coefficient vector is
empty. -/
theorem kruger_none_iff (e : ellipsoid) (p : xy) :
    (e.krugerize p = none ↔ (e.tmForward = [] ∨ e.tmReverse = []))
    ∧ (e.dekrugerize p = none ↔ (e.tmForward = [] ∨ e.tmReverse = []))
    ∧ (e.krugerizeDeriv p = none ↔ (e.tmForward = [] ∨ e.tmReverse = []))
    ∧ (e.dekrugerizeDeriv p = none ↔ (e.tmForward = [] ∨ e.tmReverse = [])) := by
  unfold ellipsoid.krugerize ellipsoid.dekrugerize ellipsoid.krugerizeDeriv
    ellipsoid.dekrugerizeDeriv
  rcases hf : e.tmForward with _ | ⟨f0, fs⟩ <;> rcases hr : e.tmReverse with _ | ⟨r0, rs⟩ <;>
    simp

/-- C17. Each of `krugerize`, `dekrugerize`, `krugerizeDeriv`, `dekrugerizeDeriv`
fails its precondition check (the `assert`) if and only if the forward or the
reverse coefficient sequence is empty; when both are non-empty each returns a
point. -/
theorem kruger_precondition (e : ellipsoid) (p : xy) :
    ((e.krugerize p = none ↔ (e.tmForward = [] ∨ e.tmReverse = []))
      ∧ (e.dekrugerize p = none ↔ (e.tmForward = [] ∨ e.tmReverse = []))
      ∧ (e.krugerizeDeriv p = none ↔ (e.tmForward = [] ∨ e.tmReverse = []))
      ∧ (e.dekrugerizeDeriv p = none ↔ (e.tmForward = [] ∨ e.tmReverse = [])))
    ∧ (e.tmForward ≠ [] → e.tmReverse ≠ [] →
        (∃ q, e.krugerize p = some q) ∧ (∃ q, e.dekrugerize p = some q)
        ∧ (∃ q, e.krugerizeDeriv p = some q) ∧ (∃ q, e.dekrugerizeDeriv p = some q)) := by
  obtain ⟨h1, h2, h3, h4⟩ := kruger_none_iff e p
  refine ⟨⟨h1, h2, h3, h4⟩, ?_⟩
  intro hf hr
  have hne : ¬ (e.tmForward = [] ∨ e.tmReverse = []) := by
    rintro (h | h)
    · exact hf h
    · exact hr h
  refine ⟨?_, ?_, ?_, ?_⟩
  · exact Option.ne_none_iff_exists'.mp (fun h => hne (h1.mp h))
  · exact Option.ne_none_iff_exists'.mp (fun h => hne (h2.mp h))
  · exact Option.ne_none_iff_exists'.mp (fun h => hne (h3.mp h))
  · exact Option.ne_none_iff_exists'.mp (fun h => hne (h4.mp h))

/-- The statement `kruger_precondition` on `WGS84` with the coefficients
`[6367449, 0]` and `[6367449, 0]` attached: every method returns a point. -/
theorem kruger_precondition_witness :
    (WGS84.setTmCoefficients [6367449, 0] [6367449, 0]).tmForward ≠ []
    ∧ (WGS84.setTmCoefficients [6367449, 0] [6367449, 0]).tmReverse ≠ []
    ∧ (∃ q, (WGS84.setTmCoefficients [6367449, 0] [6367449, 0]).krugerize ⟨0, 0⟩ = some q)
    ∧ (∃ q, (WGS84.setTmCoefficients [6367449, 0] [6367449, 0]).dekrugerize ⟨0, 0⟩ = some q) :=
  have hf : (WGS84.setTmCoefficients [6367449, 0] [6367449, 0]).tmForward ≠ [] := by
    simp [ellipsoid.setTmCoefficients]
  have hr : (WGS84.setTmCoefficients [6367449, 0] [6367449, 0]).tmReverse ≠ [] := by
    simp [ellipsoid.setTmCoefficients]
  ⟨hf, hr,
    ((kruger_precondition (WGS84.setTmCoefficients [6367449, 0] [6367449, 0]) ⟨0, 0⟩).2 hf hr).1,
    ((kruger_precondition (WGS84.setTmCoefficients [6367449, 0] [6367449, 0]) ⟨0, 0⟩).2 hf hr).2.1⟩

theorem Sphere_coefficients : Sphere.tmForward = [] ∧ Sphere.tmReverse = [] := by
  simp [Sphere, ellipsoid.new]

/-- C18, counterexample. On the registry ellipsoid `Sphere`, whose coefficients
have not been set, `krugerize` and `dekrugerize` fail their `assert`: the call
aborts and no point, with NaN coordinates or otherwise, is returned. -/
theorem kruger_unset_aborts :
    Sphere.tmForward = [] ∧ Sphere.tmReverse = []
    ∧ Sphere.krugerize ⟨0, 0⟩ = none ∧ Sphere.dekrugerize ⟨0, 0⟩ = none
    ∧ ¬ (∃ q, Sphere.krugerize ⟨0, 0⟩ = some q)
    ∧ ¬ (∃ q, Sphere.dekrugerize ⟨0, 0⟩ = some q) := by
  obtain ⟨h1, h2, -, -⟩ := kruger_none_iff Sphere ⟨0, 0⟩
  have k1 := h1.mpr (Or.inl Sphere_coefficients.1)
  have k2 := h2.mpr (Or.inl Sphere_coefficients.1)
  refine ⟨Sphere_coefficients.1, Sphere_coefficients.2, k1, k2, ?_, ?_⟩
  · rintro ⟨q, hq⟩; rw [k1] at hq; exact Option.noConfusion hq
  · rintro ⟨q, hq⟩; rw [k2] at hq; exact Option.noConfusion hq

theorem init_same_sign_nan (st : brent) (x0 y0 x1 y1 : ℚ)
    (h : (0 < y0 ∧ 0 < y1) ∨ (y0 < 0 ∧ y1 < 0)) :
    (st.init (fin x0) (fin y0) (fin x1) (fin y1)).2 = nan := by
  unfold brent.init
  simp only [Dbl.gt, Dbl.lt]
  simp [h]

theorem step_side3_nan (st : brent) (y : Dbl) (h : sideOf st.fa y st.fb = 3) :
    (st.step y).2 = nan := by
  obtain ⟨ha1, ha2, -, -, -⟩ := acceptOrBisect_fields st (st.interpolate y)
  generalize hr1 : st.acceptOrBisect (st.interpolate y) = r1 at ha1 ha2
  have hstep : (st.step y).2 = ((r1.1.classify y r1.2).1.tooNarrow (r1.1.classify y r1.2).2).2 := by
    simp only [brent.step, hr1]
  rw [hstep]
  rw [← ha1, ← ha2] at h
  rcases classify_cases r1.1 y r1.2 with ⟨h0, -⟩ | ⟨h1, -⟩ | ⟨h2, -⟩ | ⟨-, hc⟩
  · rw [h] at h0; exact absurd h0 (by decide)
  · rw [h] at h1; exact absurd h1 (by decide)
  · rw [h] at h2; exact absurd h2 (by decide)
  · rw [hc, tooNarrow_nan]

/-- C18, amended. The failures of `brent::init` (two finite samples of the same
strict sign), of `brent::step` (classification 3) and of `geod` (no estimate
among the 100 passes the test) are reported as NaN in the returned value;
`krugerize` and `dekrugerize` on an ellipsoid with an empty coefficient
sequence do not return: their `assert` fails. -/
theorem failures_reported (st : brent) (x0 y0 x1 y1 : ℚ) (y : Dbl) (e : ellipsoid) (p : xyz)
    (q : xy) :
    (((0 < y0 ∧ 0 < y1) ∨ (y0 < 0 ∧ y1 < 0)) →
        (st.init (fin x0) (fin y0) (fin x1) (fin y1)).2 = nan)
    ∧ (sideOf st.fa y st.fb = 3 → (st.step y).2 = nan)
    ∧ (e.geod p = ⟨none, none, none⟩
        ∨ ∃ k < 100,
            e.geodDone (p.sub e.cen) ((e.geodRefine (p.sub e.cen))^[k] (e.geodSeed (p.sub e.cen)))
            ∧ e.geod p =
              ⟨some ((e.geodRefine (p.sub e.cen))^[k] (e.geodSeed (p.sub e.cen))).lat,
               some ((e.geodRefine (p.sub e.cen))^[k] (e.geodSeed (p.sub e.cen))).lon,
               some ((e.geodRefine (p.sub e.cen))^[k] (e.geodSeed (p.sub e.cen))).elev⟩)
    ∧ ((e.tmForward = [] ∨ e.tmReverse = []) → e.krugerize q = none ∧ e.dekrugerize q = none) := by
  refine ⟨init_same_sign_nan st x0 y0 x1 y1, step_side3_nan st y, ?_, ?_⟩
  · rcases geodLoop_spec e (p.sub e.cen) 100 0 (e.geodSeed (p.sub e.cen)) with
      ⟨h1, -⟩ | ⟨k, hk, h1, h2, -⟩
    · left
      unfold ellipsoid.geod
      simp only
      rw [if_pos (by rw [h1])]
    · right
      refine ⟨k, hk, h2, ?_⟩
      unfold ellipsoid.geod
      simp only
      rw [h1, if_neg (by simp; omega)]
  · intro h
    obtain ⟨h1, h2, -, -⟩ := kruger_none_iff e q
    exact ⟨h1.mpr h, h2.mpr h⟩

/-- The statement `failures_reported` on concrete failures: `init` on the samples
`(1,1)`, `(2,2)`; `step` with `y = 1` on the bracket that `init` builds from
`(1,0)`, `(2,1)`; `krugerize` on `Sphere`. -/
theorem failures_reported_witness :
    ((0 : ℚ) < 1 ∧ (0 : ℚ) < 2)
    ∧ (brent.blank.init (fin 1) (fin 1) (fin 2) (fin 2)).2 = nan
    ∧ sideOf (brent.blank.init (fin 1) (fin 0) (fin 2) (fin 1)).1.fa (fin 1)
        (brent.blank.init (fin 1) (fin 0) (fin 2) (fin 1)).1.fb = 3
    ∧ ((brent.blank.init (fin 1) (fin 0) (fin 2) (fin 1)).1.step (fin 1)).2 = nan
    ∧ Sphere.tmForward = []
    ∧ Sphere.krugerize ⟨0, 0⟩ = none :=
  have hs : sideOf (brent.blank.init (fin 1) (fin 0) (fin 2) (fin 1)).1.fa (fin 1)
      (brent.blank.init (fin 1) (fin 0) (fin 2) (fin 1)).1.fb = 3 := by decide!
  ⟨⟨by norm_num, by norm_num⟩,
    (failures_reported brent.blank 1 1 2 2 (fin 1) Sphere ⟨0, 0, 0⟩ ⟨0, 0⟩).1
      (Or.inl ⟨by norm_num, by norm_num⟩),
    hs,
    (failures_reported (brent.blank.init (fin 1) (fin 0) (fin 2) (fin 1)).1 1 1 2 2 (fin 1)
      Sphere ⟨0, 0, 0⟩ ⟨0, 0⟩).2.1 hs,
    Sphere_coefficients.1,
    ((failures_reported brent.blank 1 1 2 2 (fin 1) Sphere ⟨0, 0, 0⟩ ⟨0, 0⟩).2.2.2
      (Or.inl Sphere_coefficients.1)).1⟩

theorem list_sum_map_re (l : List ℂ) : (l.map Complex.re).sum = l.sum.re := by
  induction l with
  | nil => simp
  | cons a l ih => simp [ih]

theorem list_sum_map_im (l : List ℂ) : (l.map Complex.im).sum = l.sum.im := by
  induction l with
  | nil => simp
  | cons a l ih => simp [ih]

/-- The sum of the terms of `krugerTerms` has the sum of the terms of
`krugerDerivTerms` as its complex derivative. -/
theorem krugerTerms_hasDerivAt (coeff : List ℝ) (z : ℂ) :
    HasDerivAt (fun u : ℂ => (krugerTerms coeff u).sum) (krugerDerivTerms coeff z).sum z := by
  unfold krugerTerms krugerDerivTerms
  generalize coeff.length = n
  induction n with
  | zero => simpa using hasDerivAt_const z (0 : ℂ)
  | succ n ih =>
    simp only [List.range_succ, List.map_append, List.sum_append, List.map_cons, List.map_nil,
      List.sum_cons, List.sum_nil, add_zero]
    refine ih.add ?_
    by_cases hn : n = 0
    · simp only [hn, ne_eq, not_true_eq_false, if_false]
      exact hasDerivAt_id z
    · simp only [hn, ne_eq, not_false_eq_true, if_true]
      have h1 : HasDerivAt (fun u : ℂ => ((n : ℝ) : ℂ) * u) (((n : ℝ) : ℂ) * 1) z :=
        (hasDerivAt_id z).const_mul _
      have h2 := (h1.csin).mul_const ((coeff.getD n 0 : ℝ) : ℂ)
      convert h2 using 1
      ring

/-- The sum of the terms of `krugerDerivTerms`: 1 plus the terms of index at
least 1. -/
theorem krugerDerivTerms_sum (c0 : ℝ) (cs : List ℝ) (z : ℂ) :
    (krugerDerivTerms (c0 :: cs) z).sum
      = 1 + ∑ k in Finset.Ico 1 (c0 :: cs).length,
          (k : ℂ) * (((c0 :: cs).getD k 0 : ℝ) : ℂ) * Complex.cos ((k : ℂ) * z) := by
  have h : ∀ n : ℕ, ((List.range n).map fun (i : ℕ) =>
      if i ≠ 0 then ((i : ℝ) : ℂ) * Complex.cos (((i : ℝ) : ℂ) * z)
        * (((c0 :: cs).getD i 0 : ℝ) : ℂ) else 1).sum
      = ∑ i in Finset.range n, if i ≠ 0 then ((i : ℝ) : ℂ) * Complex.cos (((i : ℝ) : ℂ) * z)
        * (((c0 :: cs).getD i 0 : ℝ) : ℂ) else 1 := by
    intro n
    induction n with
    | zero => simp
    | succ n ih =>
      rw [List.range_succ, List.map_append, List.sum_append, ih, Finset.sum_range_succ]
      simp
  unfold krugerDerivTerms
  rw [h, Finset.range_eq_Ico, Finset.sum_eq_sum_Ico_succ_bot (by simp)]
  simp only [ne_eq, not_true_eq_false, if_false, zero_add]
  congr 1
  apply Finset.sum_congr rfl
  intro k hk
  have hk0 : k ≠ 0 := by
    have := (Finset.mem_Ico.mp hk).1
    omega
  simp only [hk0, not_false_eq_true, if_true, Complex.ofReal_natCast]
  ring

/-- The complex number `z` that the Krüger methods build from the point `w`
and the scale `s`: `−iπw/s`. -/
theorem kruger_z (w : ℂ) (s : ℝ) :
    (⟨w.im * Real.pi / s, -w.re * Real.pi / s⟩ : ℂ) = -Complex.I * Real.pi * w / s := by
  apply Complex.ext
  · simp [Complex.div_re, Complex.normSq_apply]
    by_cases hs : s = 0
    · simp [hs]
    · field_simp; ring
  · simp [Complex.div_im, Complex.normSq_apply]
    by_cases hs : s = 0
    · simp [hs]
    · field_simp; ring

/-- The complex map behind `krugerize` and `dekrugerize`, for the coefficients
`coeff`, the scale `s` dividing the argument and the scale `c` of the result:
its derivative is the sum of the derivative terms times `c/s`. -/
theorem kruger_series_hasDerivAt (coeff : List ℝ) (s c : ℝ) (hs : s ≠ 0) (w : ℂ) :
    HasDerivAt
      (fun u : ℂ => Complex.I
        * (krugerTerms coeff ⟨u.im * Real.pi / s, -u.re * Real.pi / s⟩).sum
        * ((c / Real.pi : ℝ) : ℂ))
      ((krugerDerivTerms coeff ⟨w.im * Real.pi / s, -w.re * Real.pi / s⟩).sum
        * ((c / s : ℝ) : ℂ)) w := by
  have hpi : (Real.pi : ℂ) ≠ 0 := by exact_mod_cast Real.pi_ne_zero
  have hsc : (s : ℂ) ≠ 0 := by exact_mod_cast hs
  simp only [kruger_z]
  have hg : HasDerivAt (fun u : ℂ => -Complex.I * Real.pi * u / s)
      (-Complex.I * Real.pi * 1 / s) w :=
    ((hasDerivAt_id w).const_mul (-Complex.I * Real.pi)).div_const (s : ℂ)
  have hS := krugerTerms_hasDerivAt coeff (-Complex.I * Real.pi * w / s)
  have hc := ((hS.comp w hg).const_mul Complex.I).mul_const ((c / Real.pi : ℝ) : ℂ)
  convert hc using 1
  push_cast
  field_simp
  ring_nf
  rw [Complex.I_sq]
  ring

/-- The coordinates of `i·S·c` for a complex `S` and a real `c`. -/
theorem I_mul_ofReal_coords (S : ℂ) (c : ℝ) :
    (Complex.I * S * (c : ℂ)).re = -S.im * c ∧ (Complex.I * S * (c : ℂ)).im = S.re * c := by
  constructor <;> simp

theorem xy_length_eq_abs (d : ℂ) : xy.length ⟨d.re, d.im⟩ = Complex.abs d := by
  unfold xy.length
  rw [Complex.abs_apply, Complex.normSq_apply]

/-- C19. Reading a point `(x,y)` as the complex number `x+iy`, with non-empty
coefficient sequences whose index-0 entries are non-zero: `krugerizeDeriv(p)`
is the complex derivative at `p` of the map `krugerize`, namely
`(forward[0]/reverse[0])·(1 + Σ_{k≥1} k·forward[k]·cos(k·z))` with
`z = −iπ(x+iy)/reverse[0]`, and `krugerizeScale(p)` is its modulus; likewise
`dekrugerizeDeriv(p)` is the derivative of `dekrugerize`, with the two
sequences exchanged. -/
theorem krugerizeDeriv_is_derivative (e : ellipsoid) (p : xy) (f0 r0 : ℝ) (fs rs : List ℝ)
    (hf : e.tmForward = f0 :: fs) (hr : e.tmReverse = r0 :: rs)
    (hf0 : f0 ≠ 0) (hr0 : r0 ≠ 0) :
    (∃ (K : ℂ → ℂ) (d : ℂ),
      (∀ w : ℂ, e.krugerize ⟨w.re, w.im⟩ = some ⟨(K w).re, (K w).im⟩)
      ∧ e.krugerizeDeriv p = some ⟨d.re, d.im⟩
      ∧ HasDerivAt K d ⟨p.x, p.y⟩
      ∧ d = ((f0 / r0 : ℝ) : ℂ) * (1 + ∑ k in Finset.Ico 1 e.tmForward.length,
          (k : ℂ) * ((e.tmForward.getD k 0 : ℝ) : ℂ)
            * Complex.cos ((k : ℂ) * (-Complex.I * Real.pi * ⟨p.x, p.y⟩ / r0)))
      ∧ e.krugerizeScale p = some (Complex.abs d))
    ∧ (∃ (K : ℂ → ℂ) (d : ℂ),
      (∀ w : ℂ, e.dekrugerize ⟨w.re, w.im⟩ = some ⟨(K w).re, (K w).im⟩)
      ∧ e.dekrugerizeDeriv p = some ⟨d.re, d.im⟩
      ∧ HasDerivAt K d ⟨p.x, p.y⟩
      ∧ d = ((r0 / f0 : ℝ) : ℂ) * (1 + ∑ k in Finset.Ico 1 e.tmReverse.length,
          (k : ℂ) * ((e.tmReverse.getD k 0 : ℝ) : ℂ)
            * Complex.cos ((k : ℂ) * (-Complex.I * Real.pi * ⟨p.x, p.y⟩ / f0)))
      ∧ e.dekrugerizeScale p = some (Complex.abs d)) := by
  constructor
  · refine ⟨fun u : ℂ => Complex.I
        * (krugerTerms (f0 :: fs) ⟨u.im * Real.pi / r0, -u.re * Real.pi / r0⟩).sum
        * ((f0 / Real.pi : ℝ) : ℂ),
      (krugerDerivTerms (f0 :: fs) ⟨p.y * Real.pi / r0, -p.x * Real.pi / r0⟩).sum
        * ((f0 / r0 : ℝ) : ℂ), ?_, ?_, ?_, ?_, ?_⟩
    · intro w
      obtain ⟨c1, c2⟩ := I_mul_ofReal_coords
        (krugerTerms (f0 :: fs) ⟨w.im * Real.pi / r0, -w.re * Real.pi / r0⟩).sum (f0 / Real.pi)
      simp only [ellipsoid.krugerize, hf, hr, xy.getx, xy.gety, pairwisesum, list_sum_map_re,
        list_sum_map_im, c1, c2, Option.some.injEq, xy.mk.injEq]
      constructor <;> ring
    · simp only [ellipsoid.krugerizeDeriv, hf, hr, xy.getx, xy.gety, pairwisesum,
        list_sum_map_re, list_sum_map_im, Option.some.injEq, xy.mk.injEq, Complex.mul_re,
        Complex.mul_im, Complex.ofReal_re, Complex.ofReal_im, mul_zero, sub_zero, add_zero]
      constructor <;> ring
    · exact kruger_series_hasDerivAt (f0 :: fs) r0 f0 hr0 ⟨p.x, p.y⟩
    · rw [krugerDerivTerms_sum, hf, ← kruger_z ⟨p.x, p.y⟩ r0, mul_comm]
    · simp only [ellipsoid.krugerizeScale, ellipsoid.krugerizeDeriv, hf, hr, xy.getx, xy.gety,
        pairwisesum, list_sum_map_re, list_sum_map_im, Option.map_some', Option.some.injEq]
      rw [← xy_length_eq_abs]
      congr 2 <;> simp <;> ring
  · refine ⟨fun u : ℂ => Complex.I
        * (krugerTerms (r0 :: rs) ⟨u.im * Real.pi / f0, -u.re * Real.pi / f0⟩).sum
        * ((r0 / Real.pi : ℝ) : ℂ),
      (krugerDerivTerms (r0 :: rs) ⟨p.y * Real.pi / f0, -p.x * Real.pi / f0⟩).sum
        * ((r0 / f0 : ℝ) : ℂ), ?_, ?_, ?_, ?_, ?_⟩
    · intro w
      obtain ⟨c1, c2⟩ := I_mul_ofReal_coords
        (krugerTerms (r0 :: rs) ⟨w.im * Real.pi / f0, -w.re * Real.pi / f0⟩).sum (r0 / Real.pi)
      simp only [ellipsoid.dekrugerize, hf, hr, xy.getx, xy.gety, pairwisesum, list_sum_map_re,
        list_sum_map_im, c1, c2, Option.some.injEq, xy.mk.injEq]
      constructor <;> ring
    · simp only [ellipsoid.dekrugerizeDeriv, hf, hr, xy.getx, xy.gety, pairwisesum,
        list_sum_map_re, list_sum_map_im, Option.some.injEq, xy.mk.injEq, Complex.mul_re,
        Complex.mul_im, Complex.ofReal_re, Complex.ofReal_im, mul_zero, sub_zero, add_zero]
      constructor <;> ring
    · exact kruger_series_hasDerivAt (r0 :: rs) f0 r0 hf0 ⟨p.x, p.y⟩
    · rw [krugerDerivTerms_sum, hr, ← kruger_z ⟨p.x, p.y⟩ f0, mul_comm]
    · simp only [ellipsoid.dekrugerizeScale, ellipsoid.dekrugerizeDeriv, hf, hr, xy.getx,
        xy.gety, pairwisesum, list_sum_map_re, list_sum_map_im, Option.map_some',
        Option.some.injEq]
      rw [← xy_length_eq_abs]
      congr 2 <;> simp <;> ring

/-- The statement `krugerizeDeriv_is_derivative` on `WGS84` with the coefficients
`[6367449, 1/1000]` and `[6367449, -1/1000]` attached, at the origin. -/
theorem krugerizeDeriv_is_derivative_witness :
    (WGS84.setTmCoefficients [6367449, 1 / 1000] [6367449, -1 / 1000]).tmForward
      = 6367449 :: [1 / 1000]
    ∧ (WGS84.setTmCoefficients [6367449, 1 / 1000] [6367449, -1 / 1000]).tmReverse
      = 6367449 :: [-1 / 1000]
    ∧ (6367449 : ℝ) ≠ 0
    ∧ ∃ (K : ℂ → ℂ) (d : ℂ),
      (∀ w : ℂ, (WGS84.setTmCoefficients [6367449, 1 / 1000] [6367449, -1 / 1000]).krugerize
        ⟨w.re, w.im⟩ = some ⟨(K w).re, (K w).im⟩)
      ∧ (WGS84.setTmCoefficients [6367449, 1 / 1000] [6367449, -1 / 1000]).krugerizeDeriv ⟨0, 0⟩
        = some ⟨d.re, d.im⟩
      ∧ HasDerivAt K d ⟨0, 0⟩ :=
  have h0 : (6367449 : ℝ) ≠ 0 := by norm_num
  ⟨rfl, rfl, h0,
    (krugerizeDeriv_is_derivative
      (WGS84.setTmCoefficients [6367449, 1 / 1000] [6367449, -1 / 1000]) ⟨0, 0⟩
      6367449 6367449 [1 / 1000] [-1 / 1000] rfl rfl h0 h0).1.imp
      (fun _ h => h.imp (fun _ hd => ⟨hd.1, hd.2.1, hd.2.2.1⟩))⟩

/-- What the loop of `getEllipsoid(string)` leaves in `ret`: the value it had
when no entry has the name, else an entry of the table with that name. -/
theorem lookupLoop_spec (name : String) (l : List ellipsoid) :
    ∀ ret : Option ellipsoid,
      (lookupLoop name l ret = ret ∧ ∀ e ∈ l, e.getName ≠ name)
      ∨ ∃ e ∈ l, e.getName = name ∧ lookupLoop name l ret = some e := by
  induction l with
  | nil => intro ret; left; simp [lookupLoop]
  | cons a l ih =>
    intro ret
    have hstep : lookupLoop name (a :: l) ret
        = lookupLoop name l (if name = a.getName then some a else ret) := by
      simp [lookupLoop]
    rw [hstep]
    rcases ih (if name = a.getName then some a else ret) with ⟨h1, h2⟩ | ⟨e, he, hn, h1⟩
    · by_cases ha : name = a.getName
      · right
        refine ⟨a, List.mem_cons_self _ _, ha.symm, ?_⟩
        rw [h1, if_pos ha]
      · left
        refine ⟨by rw [h1, if_neg ha], ?_⟩
        intro e he
        rcases List.mem_cons.mp he with rfl | he
        · exact fun hh => ha hh.symm
        · exact h2 e he
    · right
      exact ⟨e, List.mem_cons_of_mem _ he, hn, h1⟩

theorem ellipsoids_names :
    ellipsoids.map ellipsoid.getName
      = ["Sphere", "TestEll9", "Clarke", "GRS80", "HGRS87", "WGS84", "ITRS", "Hayford"] := by
  simp [ellipsoids, ellipsoid.getName, Sphere, TestEll9, Clarke, GRS80, HGRS87, WGS84, ITRS,
    Hayford, ellipsoid.new]

theorem ellipsoids_names_nodup : (ellipsoids.map ellipsoid.getName).Nodup := by
  rw [ellipsoids_names]
  decide

/-- C20. Registry lookup: `getEllipsoid(name)` returns an ellipsoid of the table
whose `getName()` is `name` when the table holds one, and null otherwise; the
registered names are pairwise distinct, so looking up the name of the
ellipsoid at index `i` gives back that ellipsoid. -/
theorem getEllipsoid_lookup :
    (∀ name : String,
      (∃ e ∈ ellipsoids, e.getName = name ∧ getEllipsoidByName name = some e)
      ∨ ((∀ e ∈ ellipsoids, e.getName ≠ name) ∧ getEllipsoidByName name = none))
    ∧ (ellipsoids.map ellipsoid.getName).Nodup
    ∧ ∀ (i : ℕ) (h : i < countEllipsoids),
        getEllipsoidByName (getEllipsoid i h).getName = some (getEllipsoid i h) := by
  refine ⟨?_, ellipsoids_names_nodup, ?_⟩
  · intro name
    unfold getEllipsoidByName
    rcases lookupLoop_spec name ellipsoids none with ⟨h1, h2⟩ | ⟨e, he, hn, h1⟩
    · right; exact ⟨h2, h1⟩
    · left; exact ⟨e, he, hn, h1⟩
  · intro i h
    have hmem : getEllipsoid i h ∈ ellipsoids := List.get_mem _ _ _
    unfold getEllipsoidByName
    rcases lookupLoop_spec (getEllipsoid i h).getName ellipsoids none with
      ⟨-, h2⟩ | ⟨e, he, hn, h1⟩
    · exact absurd rfl (h2 _ hmem)
    · rw [h1]
      congr 1
      exact List.inj_on_of_nodup_map ellipsoids_names_nodup he hmem hn

/-- The statement `getEllipsoid_lookup` at index 5, the ellipsoid `WGS84`. -/
theorem getEllipsoid_lookup_witness :
    5 < countEllipsoids ∧ getEllipsoidByName "WGS84" = some WGS84 :=
  have h : 5 < countEllipsoids := by decide
  ⟨h, getEllipsoid_lookup.2.2 5 h⟩

/-! ## Theorems: brent.cpp, runs of the solver -/

theorem between_congr (s t : brent) (v : Dbl) (h : sameBracket s t) :
    s.between v = t.between v := by
  obtain ⟨h1, -, h3, -, -⟩ := h
  unfold brent.between
  rw [h1, h3]

theorem interpolate_congr (s t : brent) (y : Dbl) (h : sameBracket s t) :
    s.interpolate y = t.interpolate y := by
  obtain ⟨h1, h2, h3, h4, h5⟩ := h
  unfold brent.interpolate
  rw [h1, h2, h3, h4, h5]

theorem acceptOrBisect_congr (s t : brent) (v : Dbl) (h : sameBracket s t) :
    (s.acceptOrBisect v).2 = (t.acceptOrBisect v).2
    ∧ sameBracket (s.acceptOrBisect v).1 (t.acceptOrBisect v).1
    ∧ (s.acceptOrBisect v).1.mflag = (t.acceptOrBisect v).1.mflag := by
  have hb := between_congr s t v h
  obtain ⟨h1, h2, h3, h4, h5⟩ := h
  unfold brent.acceptOrBisect sameBracket
  rw [hb]
  split_ifs <;> simp [h1, h2, h3, h4, h5]

theorem classify_congr (s t : brent) (y v : Dbl) (h : sameBracket s t)
    (hm : s.mflag = t.mflag) :
    (s.classify y v).2 = (t.classify y v).2
    ∧ sameBracket (s.classify y v).1 (t.classify y v).1
    ∧ (s.classify y v).1.mflag = (t.classify y v).1.mflag
    ∧ (s.classify y v).1.side = (t.classify y v).1.side := by
  obtain ⟨h1, h2, h3, h4, h5⟩ := h
  have hside : sideOf s.fa y s.fb = sideOf t.fa y t.fb := by rw [h2, h4]
  rcases classify_cases s y v with ⟨k, hc⟩ | ⟨k, hc⟩ | ⟨k, hc⟩ | ⟨k, hc⟩ <;>
    rcases classify_cases t y v with ⟨k', hc'⟩ | ⟨k', hc'⟩ | ⟨k', hc'⟩ | ⟨k', hc'⟩ <;>
    first
      | (exfalso; rw [hside, k'] at k; exact absurd k (by decide))
      | (rw [hc, hc']; simp [sameBracket, h1, h2, h3, h4, h5, hm])

theorem tooNarrow_congr (s t : brent) (v : Dbl) (h : sameBracket s t)
    (hm : s.mflag = t.mflag) (hs : s.side = t.side) :
    (s.tooNarrow v).2 = (t.tooNarrow v).2
    ∧ sameBracket (s.tooNarrow v).1 (t.tooNarrow v).1
    ∧ (s.tooNarrow v).1.side = (t.tooNarrow v).1.side := by
  obtain ⟨h1, h2, h3, h4, h5⟩ := h
  unfold brent.tooNarrow sameBracket
  rw [hm, h1, h3]
  split_ifs <;> simp [h1, h2, h3, h4, h5, hs]

theorem shift_congr (s t : brent) (bs fbs v : Dbl) (h : sameBracket s t)
    (hs : s.side = t.side) :
    sameBracket (s.shift bs fbs v) (t.shift bs fbs v) := by
  obtain ⟨h1, h2, h3, h4, h5⟩ := h
  unfold brent.shift sameBracket
  rw [hs, h2, h4]
  split_ifs <;> simp [h1, h2, h3, h4, h5]

/-- One step on two objects holding the same bracket returns the same value and
leaves the same bracket. -/
theorem step_congr (s t : brent) (y : Dbl) (h : sameBracket s t) :
    (s.step y).2 = (t.step y).2 ∧ sameBracket (s.step y).1 (t.step y).1 := by
  have hi := interpolate_congr s t y h
  obtain ⟨a1, a2, a3⟩ := acceptOrBisect_congr s t (s.interpolate y) h
  rw [hi] at a1 a2 a3
  generalize hr1 : s.acceptOrBisect (t.interpolate y) = r1 at a1 a2 a3
  generalize hr1' : t.acceptOrBisect (t.interpolate y) = r1' at a1 a2 a3
  obtain ⟨c1, c2, c3, c4⟩ := classify_congr r1.1 r1'.1 y r1.2 a2 a3
  rw [a1] at c1 c2 c3 c4
  generalize hr2 : r1.1.classify y r1'.2 = r2 at c1 c2 c3 c4
  generalize hr2' : r1'.1.classify y r1'.2 = r2' at c1 c2 c3 c4
  obtain ⟨n1, n2, n3⟩ := tooNarrow_congr r2.1 r2'.1 r2.2 c2 c3 c4
  rw [c1] at n1 n2 n3
  generalize hr3 : r2.1.tooNarrow r2'.2 = r3 at n1 n2 n3
  generalize hr3' : r2'.1.tooNarrow r2'.2 = r3' at n1 n2 n3
  have hs : s.step y = (r3.1.shift s.b s.fb r3.2, r3.2) := by
    simp only [brent.step, hi, hr1, a1, hr2, c1, hr3]
  have ht : t.step y = (r3'.1.shift t.b t.fb r3'.2, r3'.2) := by
    simp only [brent.step, hr1', hr2', hr3']
  rw [hs, ht]
  refine ⟨n1, ?_⟩
  simp only
  rw [n1, h.2.2.1, h.2.2.2.1]
  exact shift_congr r3.1 r3'.1 _ _ _ n2 n3

theorem run_congr (ys : List Dbl) :
    ∀ s t : brent, sameBracket s t →
      (s.run ys).2 = (t.run ys).2 ∧ sameBracket (s.run ys).1 (t.run ys).1 := by
  induction ys with
  | nil => intro s t h; exact ⟨rfl, h⟩
  | cons y ys ih =>
    intro s t h
    obtain ⟨h1, h2⟩ := step_congr s t y h
    obtain ⟨i1, i2⟩ := ih _ _ h2
    simp only [brent.run]
    exact ⟨by rw [h1, i1], i2⟩

/-- After `init` the bracket and the trial do not depend on the object that
`init` was called on. -/
theorem init_congr (s t : brent) (x0 y0 x1 y1 : Dbl) :
    (s.init x0 y0 x1 y1).2 = (t.init x0 y0 x1 y1).2
    ∧ sameBracket (s.init x0 y0 x1 y1).1 (t.init x0 y0 x1 y1).1 := by
  have hb : sameBracket (s.initBracket x0 y0 x1 y1).initTrial
      (t.initBracket x0 y0 x1 y1).initTrial := by
    unfold brent.initTrial brent.initBracket brent.between sameBracket
    simp only
    split_ifs <;> simp
  have hx : (s.init x0 y0 x1 y1).1.x = (t.init x0 y0 x1 y1).1.x
      ∧ sameBracket (s.init x0 y0 x1 y1).1 (t.init x0 y0 x1 y1).1 := by
    obtain ⟨h1, h2, h3, h4, h5⟩ := hb
    unfold brent.init sameBracket
    simp only
    split_ifs <;> simp [h1, h2, h3, h4, h5]
  exact ⟨hx.1, hx.2⟩

/-- C21. The Brent solver keeps no state across solves. The trial returned by
`init`, the values returned by the following steps and the resulting bracket
`(a, fa, b, fb, x)` are the same whatever object `init` was called on; and two
objects that agree on `a`, `fa`, `b`, `fb`, `x` (differing at most in `c`,
`d`, `fc`, `fd`, `side`, `mflag`) return the same values and end with the same
bracket under the same steps. -/
theorem brent_no_retained_state :
    (∀ (s t : brent) (x0 y0 x1 y1 : Dbl) (ys : List Dbl),
      (s.init x0 y0 x1 y1).2 = (t.init x0 y0 x1 y1).2
      ∧ ((s.init x0 y0 x1 y1).1.run ys).2 = ((t.init x0 y0 x1 y1).1.run ys).2
      ∧ sameBracket ((s.init x0 y0 x1 y1).1.run ys).1 ((t.init x0 y0 x1 y1).1.run ys).1)
    ∧ (∀ (s t : brent) (ys : List Dbl), sameBracket s t →
      (s.run ys).2 = (t.run ys).2 ∧ sameBracket (s.run ys).1 (t.run ys).1) := by
  refine ⟨?_, fun s t ys h => run_congr ys s t h⟩
  intro s t x0 y0 x1 y1 ys
  obtain ⟨h1, h2⟩ := init_congr s t x0 y0 x1 y1
  obtain ⟨r1, r2⟩ := run_congr ys _ _ h2
  exact ⟨h1, r1, r2⟩

/-- The second part of `brent_no_retained_state` on the bracket of `x²−2` between
`(1,-1)` and `(2,2)`, against the same object with other history fields, a
set `mflag` reset and another `side`. -/
theorem brent_no_retained_state_witness :
    sameBracket (brent.blank.init (fin 1) (fin (-1)) (fin 2) (fin 2)).1
      { (brent.blank.init (fin 1) (fin (-1)) (fin 2) (fin 2)).1 with
        c := fin 7, fc := fin 8, d := fin 9, fd := pinf, side := 2, mflag := false }
    ∧ ((brent.blank.init (fin 1) (fin (-1)) (fin 2) (fin 2)).1.run [fin (-2/9), fin 1]).2
      = (({ (brent.blank.init (fin 1) (fin (-1)) (fin 2) (fin 2)).1 with
          c := fin 7, fc := fin 8, d := fin 9, fd := pinf, side := 2, mflag := false } :
          brent).run [fin (-2/9), fin 1]).2 :=
  have h : sameBracket (brent.blank.init (fin 1) (fin (-1)) (fin 2) (fin 2)).1
      { (brent.blank.init (fin 1) (fin (-1)) (fin 2) (fin 2)).1 with
        c := fin 7, fc := fin 8, d := fin 9, fd := pinf, side := 2, mflag := false } :=
    ⟨rfl, rfl, rfl, rfl, rfl⟩
  ⟨h, (brent_no_retained_state.2 _ _ [fin (-2/9), fin 1] h).1⟩

/-- C22. Brent convergence fails on `f(x) = 3x²/4 − 2x − 2` between `(0,−2)` and
`(4,2)`: `init` returns the trial 2 (secant and midpoint coincide), and the
first step, fed `f(2) = −3`, rejects the interpolated value, bisects at 2,
replaces `b` by the trial 2 and then finds the midpoint equal to the new `b`:
it returns 2 with the classification set to converged (0), although
`|f(2)| = 3` is larger than at both initial points and the bracket `[2,4]` is
half the initial one. -/
theorem brent_false_convergence :
    Dbl.lt (Dbl.mul (fin (-2)) (fin 2)) (fin 0) = true
    ∧ (brent.blank.init (fin 0) (fin (-2)) (fin 4) (fin 2)).2 = fin 2
    ∧ Dbl.sub (Dbl.sub (Dbl.mul (Dbl.mul (fin (3/4)) (fin 2)) (fin 2)) (Dbl.mul (fin 2) (fin 2)))
        (fin 2) = fin (-3)
    ∧ ((brent.blank.init (fin 0) (fin (-2)) (fin 4) (fin 2)).1.step (fin (-3))).2 = fin 2
    ∧ ((brent.blank.init (fin 0) (fin (-2)) (fin 4) (fin 2)).1.step (fin (-3))).1.side = 0
    ∧ ((brent.blank.init (fin 0) (fin (-2)) (fin 4) (fin 2)).1.step (fin (-3))).1.a = fin 4
    ∧ ((brent.blank.init (fin 0) (fin (-2)) (fin 4) (fin 2)).1.step (fin (-3))).1.b = fin 2
    ∧ ((brent.blank.init (fin 0) (fin (-2)) (fin 4) (fin 2)).1.step (fin (-3))).1.fa = fin 2
    ∧ ((brent.blank.init (fin 0) (fin (-2)) (fin 4) (fin 2)).1.step (fin (-3))).1.fb
        = fin (-3) := by
  refine ⟨?_, ?_, ?_, ?_, ?_, ?_, ?_, ?_, ?_⟩ <;> decide!

/-- A value that passes `between` lies strictly inside the interval spanned by
`a` and `b`. -/
theorem between_in_hull (st : brent) (a b q : ℚ) (ha : st.a = fin a) (hb : st.b = fin b)
    (h : st.between (fin q) = true) : min a b < q ∧ q < max a b := by
  unfold brent.between at h
  rw [ha, hb] at h
  simp only [Dbl.mul, Dbl.add, Dbl.div, Dbl.lt, Bool.or_eq_true, Bool.and_eq_true,
    decide_eq_true_eq] at h
  norm_num at h
  rcases h with ⟨h1, h2⟩ | ⟨h1, h2⟩
  · have hab : a < b := by linarith
    rw [min_eq_left hab.le, max_eq_right hab.le]
    constructor <;> linarith
  · have hab : b < a := by linarith
    rw [min_eq_right hab.le, max_eq_left hab.le]
    constructor <;> linarith

/-- What `acceptOrBisect` returns: the value itself when it passes `between`,
else the midpoint, and the flag says which. -/
theorem acceptOrBisect_cases (st : brent) (v : Dbl) :
    (st.between v = true ∧ st.acceptOrBisect v = ({ st with mflag := false }, v))
    ∨ (st.between v = false ∧ st.acceptOrBisect v
        = ({ st with mflag := true }, Dbl.div (Dbl.add st.a st.b) (fin 2))) := by
  unfold brent.acceptOrBisect
  by_cases h : st.between v = true
  · left; exact ⟨h, by rw [if_pos h]⟩
  · right; exact ⟨by simpa using h, by rw [if_neg h]⟩

/-- The value returned by a step whose classification is not 3 is `x`, the value
left by `acceptOrBisect`, or the `b` left by the `switch`, which is `b` or `x`. -/
theorem step_value_cases (st : brent) (y : Dbl) (h3 : sideOf st.fa y st.fb ≠ 3) :
    (st.step y).2 = st.x
    ∨ (st.step y).2 = (st.acceptOrBisect (st.interpolate y)).2
    ∨ (st.step y).2 = st.b := by
  obtain ⟨ha1, ha2, ha3, ha4, ha5⟩ := acceptOrBisect_fields st (st.interpolate y)
  generalize hr1 : st.acceptOrBisect (st.interpolate y) = r1 at ha1 ha2 ha3 ha4 ha5
  have hstep : (st.step y).2 = ((r1.1.classify y r1.2).1.tooNarrow (r1.1.classify y r1.2).2).2 := by
    simp only [brent.step, hr1]
  rw [hstep]
  rw [← ha1, ← ha2] at h3
  rcases classify_cases r1.1 y r1.2 with ⟨-, hc⟩ | ⟨-, hc⟩ | ⟨-, hc⟩ | ⟨h, -⟩
  · rw [hc]; unfold brent.tooNarrow; split_ifs
    · right; right; exact ha4
    · left; exact ha5
  · rw [hc]; unfold brent.tooNarrow; split_ifs
    · left; exact ha5
    · right; left; rfl
  · rw [hc]; unfold brent.tooNarrow; split_ifs
    · right; right; exact ha4
    · right; left; rfl
  · exact absurd h h3

theorem strictBracket_side_ne_three (st : brent) (y : Dbl) (h : strictBracket st) :
    sideOf st.fa y st.fb ≠ 3 := by
  intro h3
  have h4 : ¬ (sideOf st.fa y st.fb = 0) := by rw [h3]; decide
  have h5 : ¬ (sideOf st.fa y st.fb = 1) := by rw [h3]; decide
  have h6 : ¬ (sideOf st.fa y st.fb = 2) := by rw [h3]; decide
  rw [sideOf_eq_zero_iff] at h4
  rw [sideOf_eq_one_iff] at h5
  rw [sideOf_eq_two_iff] at h6
  rcases sign_cases y with e | e | e <;> rcases h with ⟨e1, e2⟩ | ⟨e1, e2⟩ <;>
    simp [e, e1, e2] at h4 h5 h6

/-- C24, counterexample. On `f(x) = 1/(x+3) − 1/4` between `(0, 1/12)` and
`(10, −9/52)`, `init` leaves `a = 10`, `b = 0` and the trial `x = 13/4`
strictly between them; the first step, fed `f(13/4) = −9/100`, returns the
midpoint 5 of the entry bracket and replaces `a` by `13/4`: the trial 5 is
outside the bracket `[0, 13/4]` that the step leaves. -/
theorem step_trial_outside_new_bracket :
    (brent.blank.init (fin 0) (fin (1/12)) (fin 10) (fin (-9/52))).1.a = fin 10
    ∧ (brent.blank.init (fin 0) (fin (1/12)) (fin 10) (fin (-9/52))).1.b = fin 0
    ∧ (brent.blank.init (fin 0) (fin (1/12)) (fin 10) (fin (-9/52))).1.x = fin (13/4)
    ∧ Dbl.lt (Dbl.mul (brent.blank.init (fin 0) (fin (1/12)) (fin 10) (fin (-9/52))).1.fa
        (brent.blank.init (fin 0) (fin (1/12)) (fin 10) (fin (-9/52))).1.fb) (fin 0) = true
    ∧ ((brent.blank.init (fin 0) (fin (1/12)) (fin 10) (fin (-9/52))).1.step
        (fin (-9/100))).2 = fin 5
    ∧ ((brent.blank.init (fin 0) (fin (1/12)) (fin 10) (fin (-9/52))).1.step
        (fin (-9/100))).1.a = fin (13/4)
    ∧ ((brent.blank.init (fin 0) (fin (1/12)) (fin 10) (fin (-9/52))).1.step
        (fin (-9/100))).1.b = fin 0
    ∧ ¬ ((5 : ℚ) ≤ max (13/4) 0) := by
  refine ⟨?_, ?_, ?_, ?_, ?_, ?_, ?_, ?_⟩ <;> decide!

/-- C24, amended. The trial produced by `brent::step` stays inside the bracket
the step was entered with: from a state with `fa·fb` a strict sign change,
finite `a`, `b` and `x` in the closed interval they span, and `y` a number,
the value returned is an interpolated value accepted by the `between` test,
or the midpoint `(a+b)/2`, or `x`, or `b`, and it lies in the closed interval
spanned by the endpoints `a` and `b` as they stood on entry. -/
theorem step_trial_in_entry_bracket (st : brent) (y : Dbl) (a b x : ℚ)
    (h : strictBracket st) (ha : st.a = fin a) (hb : st.b = fin b) (hx : st.x = fin x)
    (hx1 : min a b ≤ x) (hx2 : x ≤ max a b) :
    ∃ q : ℚ, (st.step y).2 = fin q ∧ min a b ≤ q ∧ q ≤ max a b
      ∧ (st.between (fin q) = true ∨ q = (a + b) / 2 ∨ q = x ∨ q = b) := by
  have h3 := strictBracket_side_ne_three st y h
  have hmid1 : min a b ≤ (a + b) / 2 := by
    rcases le_total a b with hab | hab
    · rw [min_eq_left hab]; linarith
    · rw [min_eq_right hab]; linarith
  have hmid2 : (a + b) / 2 ≤ max a b := by
    rcases le_total a b with hab | hab
    · rw [max_eq_right hab]; linarith
    · rw [max_eq_left hab]; linarith
  rcases step_value_cases st y h3 with e | e | e
  · exact ⟨x, by rw [e, hx], hx1, hx2, Or.inr (Or.inr (Or.inl rfl))⟩
  · rcases acceptOrBisect_cases st (st.interpolate y) with ⟨hbt, hv⟩ | ⟨-, hv⟩
    · obtain ⟨q, hq⟩ := between_finite st _ a b ha hb hbt
      rw [hq] at hbt
      obtain ⟨l1, l2⟩ := between_in_hull st a b q ha hb hbt
      exact ⟨q, by rw [e, hv, hq], l1.le, l2.le, Or.inl hbt⟩
    · refine ⟨(a + b) / 2, ?_, hmid1, hmid2, Or.inr (Or.inl rfl)⟩
      rw [e, hv, ha, hb]
      simp [Dbl.add, Dbl.div]
  · exact ⟨b, by rw [e, hb], min_le_right a b, le_max_right a b,
      Or.inr (Or.inr (Or.inr rfl))⟩

/-- The statement `step_trial_in_entry_bracket` on the first step of
`f(x) = 1/(x+3) − 1/4` between 0 and 10: the trial 5 lies in `[0, 10]`. -/
theorem step_trial_in_entry_bracket_witness :
    strictBracket (brent.blank.init (fin 0) (fin (1/12)) (fin 10) (fin (-9/52))).1
    ∧ min (10 : ℚ) 0 ≤ 13/4 ∧ (13/4 : ℚ) ≤ max 10 0
    ∧ ∃ q : ℚ, ((brent.blank.init (fin 0) (fin (1/12)) (fin 10) (fin (-9/52))).1.step
        (fin (-9/100))).2 = fin q ∧ min 10 0 ≤ q ∧ q ≤ max 10 0 :=
  have hs : strictBracket (brent.blank.init (fin 0) (fin (1/12)) (fin 10) (fin (-9/52))).1 :=
    Or.inr ⟨by decide!, by decide!⟩
  have h1 : min (10 : ℚ) 0 ≤ 13/4 := by norm_num
  have h2 : (13/4 : ℚ) ≤ max 10 0 := by norm_num
  ⟨hs, h1, h2,
    (step_trial_in_entry_bracket (brent.blank.init (fin 0) (fin (1/12)) (fin 10) (fin (-9/52))).1
      (fin (-9/100)) 10 0 (13/4) hs (by decide!) (by decide!) (by decide!) h1 h2).imp
      (fun _ hq => ⟨hq.1, hq.2.1, hq.2.2.1⟩)⟩

/-- A quotient of finite numbers by zero is not finite. -/
theorem div_zero_not_fin (p : ℚ) (q : ℚ) : Dbl.div (fin p) (fin 0) ≠ fin q := by
  simp only [Dbl.div, if_true, infOfSigns]
  split_ifs <;> simp

/-- A finite number minus a value that is not finite is not finite. -/
theorem sub_not_fin (x : ℚ) (v : Dbl) (hv : ∀ q, v ≠ fin q) (q : ℚ) :
    Dbl.sub (fin x) v ≠ fin q := by
  cases v with
  | fin r => exact absurd rfl (hv r)
  | pinf => simp [Dbl.sub, Dbl.neg, Dbl.add]
  | ninf => simp [Dbl.sub, Dbl.neg, Dbl.add]
  | nan => simp [Dbl.sub, Dbl.neg, Dbl.add]

/-- C25, counterexample. After `init(0, -2, 4, 2)` the object holds `b = 0`,
`fb = -2`, `x = 2`; a step fed `y = -2` takes the secant branch because
`fb == y`, and the divisor `fb - y` of the secant is zero: the quotient is
`+inf` and the trial computed is `-inf`. -/
theorem secant_divides_by_zero :
    (brent.blank.init (fin 0) (fin (-2)) (fin 4) (fin 2)).1.fb = fin (-2)
    ∧ (brent.blank.init (fin 0) (fin (-2)) (fin 4) (fin 2)).2 = fin 2
    ∧ (Dbl.eq (brent.blank.init (fin 0) (fin (-2)) (fin 4) (fin 2)).1.fa
          (brent.blank.init (fin 0) (fin (-2)) (fin 4) (fin 2)).1.fb
        || Dbl.eq (brent.blank.init (fin 0) (fin (-2)) (fin 4) (fin 2)).1.fb (fin (-2))
        || Dbl.eq (fin (-2)) (brent.blank.init (fin 0) (fin (-2)) (fin 4) (fin 2)).1.fa) = true
    ∧ Dbl.sub (brent.blank.init (fin 0) (fin (-2)) (fin 4) (fin 2)).1.fb (fin (-2)) = fin 0
    ∧ Dbl.div (Dbl.mul (fin (-2))
          (Dbl.sub (brent.blank.init (fin 0) (fin (-2)) (fin 4) (fin 2)).1.b
            (brent.blank.init (fin 0) (fin (-2)) (fin 4) (fin 2)).1.x))
        (Dbl.sub (brent.blank.init (fin 0) (fin (-2)) (fin 4) (fin 2)).1.fb (fin (-2))) = pinf
    ∧ (brent.blank.init (fin 0) (fin (-2)) (fin 4) (fin 2)).1.interpolate (fin (-2)) = ninf := by
  refine ⟨?_, ?_, ?_, ?_, ?_, ?_⟩ <;> decide!

/-- C25, amended. Divisions in the first statement of `brent::step`, for a
state with finite members and a finite `y`. When no two of `fa`, `fb`, `y`
are equal, `invquad` is called, its six divisors are non-zero and the trial
is the finite value of the inverse quadratic interpolant at 0. When two of
them are equal the secant is taken, with divisor `fb - y`: it is non-zero,
and the trial finite, unless `fb = y`; when `fb = y` the division is by
zero, the trial is not a finite number, the `between` test rejects it and
the step goes on with the midpoint `(a+b)/2` and `mflag` set. -/
theorem interpolate_divisions (st : brent) (a fa b fb x y : ℚ)
    (ha : st.a = fin a) (hfa : st.fa = fin fa) (hb : st.b = fin b) (hfb : st.fb = fin fb)
    (hx : st.x = fin x) :
    (¬ (fa = fb ∨ fb = y ∨ y = fa) →
        st.interpolate (fin y) = invquad (fin a) (fin fa) (fin b) (fin fb) (fin x) (fin y)
        ∧ st.interpolate (fin y) = fin (inverseQuadratic a fa b fb x y 0)
        ∧ fa - fb ≠ 0 ∧ fa - y ≠ 0 ∧ fb - y ≠ 0 ∧ fb - fa ≠ 0 ∧ y - fa ≠ 0 ∧ y - fb ≠ 0)
    ∧ ((fa = fb ∨ fb = y ∨ y = fa) →
        st.interpolate (fin y)
          = Dbl.sub (fin x) (Dbl.div (fin (y * (b - x))) (fin (fb - y))))
    ∧ ((fa = fb ∨ fb = y ∨ y = fa) → fb ≠ y →
        st.interpolate (fin y) = fin (x - y * (b - x) / (fb - y)))
    ∧ (fb = y →
        (∀ q : ℚ, st.interpolate (fin y) ≠ fin q)
        ∧ st.acceptOrBisect (st.interpolate (fin y))
            = ({ st with mflag := true }, fin ((a + b) / 2))) := by
  have hsec : (fa = fb ∨ fb = y ∨ y = fa) →
      st.interpolate (fin y)
        = Dbl.sub (fin x) (Dbl.div (fin (y * (b - x))) (fin (fb - y))) := by
    intro h
    unfold brent.interpolate
    rw [hfa, hb, hfb, hx]
    have hc : (Dbl.eq (fin fa) (fin fb) || Dbl.eq (fin fb) (fin y)
        || Dbl.eq (fin y) (fin fa)) = true := by
      simp only [Dbl.eq, Bool.or_eq_true, decide_eq_true_eq]
      tauto
    rw [if_pos hc]
    simp only [Dbl.sub, Dbl.neg, Dbl.add, Dbl.mul]
    congr 3 <;> ring_nf
  refine ⟨?_, hsec, ?_, ?_⟩
  · intro h
    have h1 : fa ≠ fb := fun e => h (Or.inl e)
    have h2 : fb ≠ y := fun e => h (Or.inr (Or.inl e))
    have h3 : y ≠ fa := fun e => h (Or.inr (Or.inr e))
    have hi : st.interpolate (fin y)
        = invquad (fin a) (fin fa) (fin b) (fin fb) (fin x) (fin y) := by
      unfold brent.interpolate
      rw [ha, hfa, hb, hfb, hx]
      have hc : ¬ ((Dbl.eq (fin fa) (fin fb) || Dbl.eq (fin fb) (fin y)
          || Dbl.eq (fin y) (fin fa)) = true) := by
        simp only [Dbl.eq, Bool.or_eq_true, decide_eq_true_eq]
        tauto
      rw [if_neg hc]
    refine ⟨hi, ?_, sub_ne_zero.mpr h1, sub_ne_zero.mpr h3.symm, sub_ne_zero.mpr h2,
      sub_ne_zero.mpr h1.symm, sub_ne_zero.mpr h3, sub_ne_zero.mpr h2.symm⟩
    rw [hi]
    exact invquad_fin a fa b fb x y h1 h2 h3.symm
  · intro h h2
    rw [hsec h]
    have d : fb - y ≠ 0 := sub_ne_zero.mpr h2
    simp [Dbl.sub, Dbl.neg, Dbl.add, Dbl.div, d]
    ring
  · intro h
    have hn : ∀ q : ℚ, st.interpolate (fin y) ≠ fin q := by
      intro q
      rw [hsec (Or.inr (Or.inl h)), h, sub_self]
      exact sub_not_fin x _ (div_zero_not_fin _) q
    refine ⟨hn, ?_⟩
    rcases acceptOrBisect_cases st (st.interpolate (fin y)) with ⟨hbt, -⟩ | ⟨-, hv⟩
    · obtain ⟨q, hq⟩ := between_finite st _ a b ha hb hbt
      exact absurd hq (hn q)
    · rw [hv, ha, hb]
      simp [Dbl.add, Dbl.div]

/-- The statement `interpolate_divisions` on the state left by
`init(0, -2, 4, 2)` and `y = -2`. -/
theorem interpolate_divisions_witness :
    (¬ ((2 : ℚ) = -2 ∨ (-2 : ℚ) = -2 ∨ (-2 : ℚ) = 2) →
        (brent.blank.init (fin 0) (fin (-2)) (fin 4) (fin 2)).1.interpolate (fin (-2))
          = invquad (fin 4) (fin 2) (fin 0) (fin (-2)) (fin 2) (fin (-2))
        ∧ (brent.blank.init (fin 0) (fin (-2)) (fin 4) (fin 2)).1.interpolate (fin (-2))
          = fin (inverseQuadratic 4 2 0 (-2) 2 (-2) 0)
        ∧ (2 : ℚ) - -2 ≠ 0 ∧ (2 : ℚ) - -2 ≠ 0 ∧ (-2 : ℚ) - -2 ≠ 0 ∧ (-2 : ℚ) - 2 ≠ 0
        ∧ (-2 : ℚ) - 2 ≠ 0 ∧ (-2 : ℚ) - -2 ≠ 0)
    ∧ (((2 : ℚ) = -2 ∨ (-2 : ℚ) = -2 ∨ (-2 : ℚ) = 2) →
        (brent.blank.init (fin 0) (fin (-2)) (fin 4) (fin 2)).1.interpolate (fin (-2))
          = Dbl.sub (fin 2) (Dbl.div (fin (-2 * (0 - 2))) (fin (-2 - -2))))
    ∧ (((2 : ℚ) = -2 ∨ (-2 : ℚ) = -2 ∨ (-2 : ℚ) = 2) → (-2 : ℚ) ≠ -2 →
        (brent.blank.init (fin 0) (fin (-2)) (fin 4) (fin 2)).1.interpolate (fin (-2))
          = fin (2 - -2 * (0 - 2) / (-2 - -2)))
    ∧ ((-2 : ℚ) = -2 →
        (∀ q : ℚ, (brent.blank.init (fin 0) (fin (-2)) (fin 4) (fin 2)).1.interpolate (fin (-2))
            ≠ fin q)
        ∧ (brent.blank.init (fin 0) (fin (-2)) (fin 4) (fin 2)).1.acceptOrBisect
            ((brent.blank.init (fin 0) (fin (-2)) (fin 4) (fin 2)).1.interpolate (fin (-2)))
          = ({ (brent.blank.init (fin 0) (fin (-2)) (fin 4) (fin 2)).1 with mflag := true },
              fin ((4 + 0) / 2))) :=
  interpolate_divisions (brent.blank.init (fin 0) (fin (-2)) (fin 4) (fin 2)).1
    4 2 0 (-2) 2 (-2) (by decide!) (by decide!) (by decide!) (by decide!) (by decide!)

/-- C30, counterexample. For the abscissas 2, -1, 5, which straddle zero and
whose median is 2, the offset chosen by `invquad` is 0. -/
theorem invquad_offset_not_median :
    invquadOffset (fin 2) (fin (-1)) (fin 5) = fin 0
    ∧ swapIfGt ((swapIfGt (fin 2, fin (-1))).2, fin 5) = (fin 2, fin 5)
    ∧ swapIfGt ((swapIfGt (fin 2, fin (-1))).1, fin 2) = (fin (-1), fin 2)
    ∧ invquad (fin 2) (fin 1) (fin (-1)) (fin 2) (fin 5) (fin 3)
        = invquadShifted (fin 0) (fin 2) (fin 1) (fin (-1)) (fin 2) (fin 5) (fin 3) := by
  refine ⟨?_, ?_, ?_, ?_⟩ <;> decide!

/-- C30, amended. Offset chosen by `invquad` for finite abscissas, with `z0`
the least and `z2` the greatest of the three: the offset is 0 when they
straddle zero (`z0 < 0 < z2`), and otherwise the abscissa nearest zero (`z0`
when all are `≥ 0`, `z2` when all are `≤ 0`); it is subtracted from the three
abscissas before the Lagrange estimate and added back afterwards. -/
theorem invquad_offset (x0 y0 x1 y1 x2 y2 : ℚ) :
    invquadOffset (fin x0) (fin x1) (fin x2)
      = fin (if max (max x0 x1) x2 ≤ 0 then max (max x0 x1) x2
             else if 0 ≤ min (min x0 x1) x2 then min (min x0 x1) x2 else 0)
    ∧ invquad (fin x0) (fin y0) (fin x1) (fin y1) (fin x2) (fin y2)
      = invquadShifted (invquadOffset (fin x0) (fin x1) (fin x2))
          (fin x0) (fin y0) (fin x1) (fin y1) (fin x2) (fin y2)
    ∧ invquadShifted (invquadOffset (fin x0) (fin x1) (fin x2))
          (fin x0) (fin y0) (fin x1) (fin y1) (fin x2) (fin y2)
      = Dbl.add
          (invquadShifted (fin 0)
            (Dbl.sub (fin x0) (invquadOffset (fin x0) (fin x1) (fin x2))) (fin y0)
            (Dbl.sub (fin x1) (invquadOffset (fin x0) (fin x1) (fin x2))) (fin y1)
            (Dbl.sub (fin x2) (invquadOffset (fin x0) (fin x1) (fin x2))) (fin y2))
          (invquadOffset (fin x0) (fin x1) (fin x2)) := by
  refine ⟨?_, rfl, ?_⟩
  · unfold invquadOffset
    simp only [swapIfGt_fin, Dbl.gt, Dbl.ge, Dbl.le, Dbl.lt, Dbl.eq]
    have hmin : min (min x0 x1) (min (max x0 x1) x2) = min (min x0 x1) x2 := by
      rcases le_total x0 x1 with h | h <;> rcases le_total x1 x2 with h' | h' <;>
        rcases le_total x0 x2 with h'' | h'' <;>
        simp [min_def, max_def] <;> split_ifs <;> linarith
    rw [hmin]
    generalize min (min x0 x1) x2 = lo
    generalize max (max x0 x1) x2 = hi
    by_cases h1 : hi ≤ 0
    · have h1' : hi < 0 ∨ hi = 0 := lt_or_eq_of_le h1
      simp [h1, h1']
    · have h1' : ¬ (hi < 0 ∨ hi = 0) := fun h => h1 (le_of_lt_or_eq h)
      have hhi : 0 < hi := not_le.mp h1
      by_cases h2 : 0 ≤ lo
      · have h2' : lo > 0 ∨ lo = 0 := (lt_or_eq_of_le h2).imp id Eq.symm
        simp [h1, h1', h2, h2']
        intro h3 h4
        exact absurd (le_antisymm h2 h3) h4
      · have hlo : lo < 0 := not_le.mp h2
        simp [h1, h1', h2, hlo, hhi, not_lt.mpr hlo.le, hlo.ne, hlo.ne']
  · obtain ⟨o, ho⟩ := invquadOffset_fin x0 x1 x2
    have e : ∀ x : ℚ, Dbl.sub (Dbl.sub (fin x) (fin o)) (fin 0) = Dbl.sub (fin x) (fin o) := by
      intro x
      simp [Dbl.sub, Dbl.neg, Dbl.add]
    have e0 : ∀ u : Dbl, Dbl.add u (fin 0) = u := by
      intro u
      cases u <;> simp [Dbl.add]
    rw [ho]
    unfold invquadShifted
    simp only [e, e0]

/-! ## Theorems: brent.cpp, the first trial and the first step -/

/-- For finite samples, the members `a`, `fa`, `b`, `fb` after `initBracket`. -/
theorem initBracket_fin (st : brent) (x0 y0 x1 y1 : ℚ) :
    (|y1| < |y0| →
      (st.initBracket (fin x0) (fin y0) (fin x1) (fin y1)).a = fin x0
      ∧ (st.initBracket (fin x0) (fin y0) (fin x1) (fin y1)).fa = fin y0
      ∧ (st.initBracket (fin x0) (fin y0) (fin x1) (fin y1)).b = fin x1
      ∧ (st.initBracket (fin x0) (fin y0) (fin x1) (fin y1)).fb = fin y1)
    ∧ (¬ |y1| < |y0| →
      (st.initBracket (fin x0) (fin y0) (fin x1) (fin y1)).a = fin x1
      ∧ (st.initBracket (fin x0) (fin y0) (fin x1) (fin y1)).fa = fin y1
      ∧ (st.initBracket (fin x0) (fin y0) (fin x1) (fin y1)).b = fin x0
      ∧ (st.initBracket (fin x0) (fin y0) (fin x1) (fin y1)).fb = fin y0) := by
  constructor <;> intro hg <;>
    simp [brent.initBracket, Dbl.gt, Dbl.lt, Dbl.fabs, hg]

/-- With `fb` exactly zero, every `y` that is not zero is classified 3. -/
theorem sideOf_zero_fb (fa y : Dbl) (hy : sign y ≠ 0) : sideOf fa y (fin 0) = 3 := by
  have hfb : sign (fin 0) = 0 := by decide!
  rcases sign_cases fa with ha | ha | ha <;> rcases sign_cases y with h | h | h <;>
    first
      | exact absurd h hy
      | (rw [sideOf_of_signs fa y (fin 0) _ _ _ ha h hfb]; decide)

/-- When one of the finite samples is exactly zero, `init` stores zero in `fb`. -/
theorem init_fb_zero (st : brent) (x0 y0 x1 y1 : ℚ) (h : y0 = 0 ∨ y1 = 0) :
    (st.init (fin x0) (fin y0) (fin x1) (fin y1)).1.fb = fin 0 := by
  obtain ⟨-, -, -, i4⟩ := init_fields st (fin x0) (fin y0) (fin x1) (fin y1)
  obtain ⟨c1, c2⟩ := initBracket_fin st x0 y0 x1 y1
  rw [i4]
  by_cases hg : |y1| < |y0|
  · have h1 : y1 = 0 := by
      rcases h with e | e
      · rw [e, abs_zero] at hg
        exact absurd hg (not_lt.mpr (abs_nonneg _))
      · exact e
    rw [(c1 hg).2.2.2, h1]
  · have h0 : y0 = 0 := by
      rcases h with e | e
      · exact e
      · rw [e, abs_zero, not_lt] at hg
        exact abs_eq_zero.mp (le_antisymm hg (abs_nonneg _))
    rw [(c2 hg).2.2.2, h0]

/-- After `init` on finite samples of strictly opposite signs the object holds a
strict sign change and finite `a`, `b`, `x`. -/
theorem init_strictBracket (st : brent) (x0 y0 x1 y1 : ℚ) (hy : y0 * y1 < 0) :
    strictBracket (st.init (fin x0) (fin y0) (fin x1) (fin y1)).1 := by
  have h0 : y0 ≠ 0 := by
    intro e; rw [e, zero_mul] at hy; exact lt_irrefl _ hy
  have h1 : y1 ≠ 0 := by
    intro e; rw [e, mul_zero] at hy; exact lt_irrefl _ hy
  have hs : (0 < y0 ∧ y1 < 0) ∨ (y0 < 0 ∧ 0 < y1) := by
    rcases lt_or_gt_of_ne h0 with a | a <;> rcases lt_or_gt_of_ne h1 with b | b
    · exact absurd hy (not_lt.mpr (mul_nonneg_of_nonpos_of_nonpos a.le b.le))
    · exact Or.inr ⟨a, b⟩
    · exact Or.inl ⟨a, b⟩
    · exact absurd hy (not_lt.mpr (mul_nonneg a.le b.le))
  unfold strictBracket
  rcases init_fa_fb st (fin x0) (fin y0) (fin x1) (fin y1) with ⟨e1, e2⟩ | ⟨e1, e2⟩ <;>
    rw [e1, e2, sign_fin, sign_fin] <;>
    rcases hs with ⟨a, b⟩ | ⟨a, b⟩ <;>
    simp [a, b, not_lt.mpr a.le, not_lt.mpr b.le]

/-- C34. A caller who passed the check of `brent::init` can be told 'impossible'
on the first step: `init(0, 0, 1, 5)` returns the trial `1/2`, not NaN, and
the step that follows returns NaN for `y = 1` and for `y = -1`
(classification 3). In general, on finite samples: when `y0` or `y1` is
exactly zero the first step returns NaN for every finite non-zero `y`; when
`y0·y1 < 0` it returns NaN for no finite `y`. -/
theorem first_step_after_init (st : brent) (x0 y0 x1 y1 y : ℚ) :
    ((brent.blank.init (fin 0) (fin 0) (fin 1) (fin 5)).2 = fin (1 / 2)
      ∧ sideOf (brent.blank.init (fin 0) (fin 0) (fin 1) (fin 5)).1.fa (fin 1)
          (brent.blank.init (fin 0) (fin 0) (fin 1) (fin 5)).1.fb = 3
      ∧ ((brent.blank.init (fin 0) (fin 0) (fin 1) (fin 5)).1.step (fin 1)).2 = nan
      ∧ ((brent.blank.init (fin 0) (fin 0) (fin 1) (fin 5)).1.step (fin (-1))).2 = nan)
    ∧ ((y0 = 0 ∨ y1 = 0) → y ≠ 0 →
        (st.init (fin x0) (fin y0) (fin x1) (fin y1)).2.isNaN = false
        ∧ ((st.init (fin x0) (fin y0) (fin x1) (fin y1)).1.step (fin y)).2 = nan)
    ∧ (y0 * y1 < 0 →
        (st.init (fin x0) (fin y0) (fin x1) (fin y1)).2.isNaN = false
        ∧ ((st.init (fin x0) (fin y0) (fin x1) (fin y1)).1.step (fin y)).2.isNaN = false) := by
  obtain ⟨a, b, ha, hb⟩ := initBracket_finite st x0 y0 x1 y1
  obtain ⟨i1, -, i3, -⟩ := init_fields st (fin x0) (fin y0) (fin x1) (fin y1)
  have hval : ∀ (_ : ¬ ((0 < y0 ∧ 0 < y1) ∨ (y0 < 0 ∧ y1 < 0))),
      ∃ q, (st.init (fin x0) (fin y0) (fin x1) (fin y1)).2 = fin q
        ∧ (st.init (fin x0) (fin y0) (fin x1) (fin y1)).1.x = fin q := by
    intro hs
    obtain ⟨q, hq⟩ := initTrial_finite _ a b ha hb
    have hc : ¬ (((Dbl.gt (fin y0) (fin 0) && Dbl.gt (fin y1) (fin 0))
        || (Dbl.lt (fin y0) (fin 0) && Dbl.lt (fin y1) (fin 0))) = true) := by
      simp only [Dbl.gt, Dbl.lt, Bool.or_eq_true, Bool.and_eq_true, decide_eq_true_eq]
      exact hs
    refine ⟨q, ?_, ?_⟩ <;>
    · unfold brent.init
      simp only []
      rw [if_neg hc]
      exact hq
  refine ⟨⟨by decide!, by decide!, by decide!, by decide!⟩, ?_, ?_⟩
  · intro hz hy0
    have hs : ¬ ((0 < y0 ∧ 0 < y1) ∨ (y0 < 0 ∧ y1 < 0)) := by
      rintro (⟨h1, h2⟩ | ⟨h1, h2⟩) <;> rcases hz with e | e <;>
        first
          | exact absurd e h1.ne'
          | exact absurd e h2.ne'
          | exact absurd e h1.ne
          | exact absurd e h2.ne
    obtain ⟨q, hq, -⟩ := hval hs
    refine ⟨by rw [hq]; rfl, ?_⟩
    apply step_side3_nan
    rw [init_fb_zero st x0 y0 x1 y1 hz]
    apply sideOf_zero_fb
    rw [sign_fin]
    rcases lt_or_gt_of_ne hy0 with h | h
    · simp [h, not_lt.mpr h.le]
    · simp [h]
  · intro hy
    have hs : ¬ ((0 < y0 ∧ 0 < y1) ∨ (y0 < 0 ∧ y1 < 0)) := by
      rintro (⟨h1, h2⟩ | ⟨h1, h2⟩)
      · exact absurd hy (not_lt.mpr (mul_nonneg h1.le h2.le))
      · exact absurd hy (not_lt.mpr (mul_nonneg_of_nonpos_of_nonpos h1.le h2.le))
    obtain ⟨q, hq, hxq⟩ := hval hs
    refine ⟨by rw [hq]; rfl, ?_⟩
    have hsb := init_strictBracket st x0 y0 x1 y1 hy
    obtain ⟨r, hr⟩ := step_finite_of_side _ (fin y) a b q (i1.trans ha) (i3.trans hb) hxq
      (strictBracket_side_ne_three _ (fin y) hsb)
    rw [hr]
    rfl

/-- The statement `first_step_after_init` on `init(0, 0, 1, 5)` followed by
`step(3)`, and on `init(0, -6, 4, 5)` followed by `step(3)`. -/
theorem first_step_after_init_witness :
    ((brent.blank.init (fin 0) (fin 0) (fin 1) (fin 5)).2.isNaN = false
      ∧ ((brent.blank.init (fin 0) (fin 0) (fin 1) (fin 5)).1.step (fin 3)).2 = nan)
    ∧ ((brent.blank.init (fin 0) (fin (-6)) (fin 4) (fin 5)).2.isNaN = false
      ∧ ((brent.blank.init (fin 0) (fin (-6)) (fin 4) (fin 5)).1.step (fin 3)).2.isNaN
          = false) :=
  ⟨(first_step_after_init brent.blank 0 0 1 5 3).2.1 (Or.inl rfl) (by norm_num),
    (first_step_after_init brent.blank 0 (-6) 4 5 3).2.2 (by norm_num)⟩

/-! ## Theorems: ellipsoid.cpp, surface round trip and conformal latitude seeds -/

/-- C35. Exact surface round trip: in exact arithmetic, for every ellipsoid with
positive radii (any center), every `lat` with `|lat| < π/2` and every `lon` in
`(−π, π]`, the seed computed by `geod` from `geoc(lat,lon,0)` is already
`(lat, lon, 0)`, it passes the first tolerance test, the loop ends with
`i = 0` (no refinement), and `geod(geoc(lat,lon,0)) = (lat, lon, 0)`. -/
theorem geod_surface_roundtrip (e : ellipsoid) (lat lon : ℝ) (ha : 0 < e.eqr)
    (hb : 0 < e.por) (hlat : |lat| < Real.pi / 2) (h3 : -Real.pi < lon)
    (h4 : lon ≤ Real.pi) :
    e.geodSeed ((e.geoc lat lon 0).sub e.cen) = ⟨lat, lon, 0⟩
    ∧ e.geodDone ((e.geoc lat lon 0).sub e.cen) (e.geodSeed ((e.geoc lat lon 0).sub e.cen))
    ∧ (e.geodLoop ((e.geoc lat lon 0).sub e.cen) 100 0
        (e.geodSeed ((e.geoc lat lon 0).sub e.cen))).2 = 0
    ∧ e.geod (e.geoc lat lon 0) = ⟨some lat, some lon, some 0⟩ := by
  obtain ⟨h1, h2⟩ := abs_lt.mp hlat
  have hs := geodSeed_geoc_surface e lat lon ha hb h1 h2 h3 h4
  have hd : e.geodDone ((e.geoc lat lon 0).sub e.cen)
      (e.geodSeed ((e.geoc lat lon 0).sub e.cen)) := by
    rw [hs]
    unfold ellipsoid.geodDone ellipsoid.geocLle
    rw [dist_self_eq_zero]
    exact toler_pos e ha hb
  refine ⟨hs, hd, ?_, geod_geoc_surface e lat lon ha hb h1 h2 h3 h4⟩
  simp [ellipsoid.geodLoop, hd]

/-- The statement `geod_surface_roundtrip` on `HGRS87`, whose center is not the
origin, at latitude `1/2` and longitude `1`. -/
theorem geod_surface_roundtrip_witness :
    0 < HGRS87.eqr ∧ 0 < HGRS87.por ∧ |(1 / 2 : ℝ)| < Real.pi / 2
    ∧ -Real.pi < (1 : ℝ) ∧ (1 : ℝ) ≤ Real.pi
    ∧ HGRS87.geod (HGRS87.geoc (1 / 2) 1 0) = ⟨some (1 / 2), some 1, some 0⟩ :=
  have hp := ellipsoids_pos HGRS87 (by simp [ellipsoids])
  have hl : |(1 / 2 : ℝ)| < Real.pi / 2 := by
    rw [abs_of_pos (by norm_num)]; linarith [Real.pi_gt_three]
  have h3 : -Real.pi < (1 : ℝ) := by linarith [Real.pi_gt_three]
  have h4 : (1 : ℝ) ≤ Real.pi := by linarith [Real.pi_gt_three]
  ⟨hp.1, hp.2, hl, h3, h4,
    (geod_surface_roundtrip HGRS87 (1 / 2) 1 hp.1 hp.2 hl h3 h4).2.2.2⟩

theorem guder_strictMono : StrictMono guder := by
  intro x y h
  unfold guder
  exact Real.arctan_strictMono (Real.sinh_strictMono h)

theorem guder_invGuder (x : ℝ) (h1 : -(Real.pi / 2) < x) (h2 : x < Real.pi / 2) :
    guder (invGuder x) = x := by
  unfold guder invGuder
  rw [Real.sinh_arsinh, Real.arctan_tan h1 h2]

theorem guder_zero : guder 0 = 0 := by
  unfold guder
  simp

/-- The eccentricity of an oblate ellipsoid lies in `[0, 1)`. -/
theorem eccentricity_range (e : ellipsoid) (hb : 0 < e.por) (hle : e.por ≤ e.eqr) :
    0 ≤ e.eccentricity ∧ e.eccentricity < 1 := by
  have ha : 0 < e.eqr := lt_of_lt_of_le hb hle
  unfold ellipsoid.eccentricity
  refine ⟨Real.sqrt_nonneg _, ?_⟩
  rw [Real.sqrt_lt' (by norm_num)]
  have : 0 < e.por * e.por / e.eqr / e.eqr := by positivity
  linarith

theorem atanh_nonneg (u : ℝ) (h0 : 0 ≤ u) (h1 : u < 1) : 0 ≤ atanh u := by
  unfold atanh
  apply div_nonneg _ (by norm_num)
  apply Real.log_nonneg
  rw [le_div_iff₀ (by linarith)]
  linarith

theorem atanh_nonpos (u : ℝ) (h0 : u ≤ 0) (h1 : -1 < u) : atanh u ≤ 0 := by
  unfold atanh
  apply div_nonpos_of_nonpos_of_nonneg _ (by norm_num)
  apply Real.log_nonpos
  · apply div_nonneg <;> linarith
  · rw [div_le_iff₀ (by linarith)]
    linarith

theorem atanh_mono (u v : ℝ) (h0 : 0 ≤ u) (huv : u ≤ v) (h1 : v < 1) : atanh u ≤ atanh v := by
  unfold atanh
  apply div_le_div_of_nonneg_right _ (by norm_num)
  apply Real.log_le_log
  · apply div_pos <;> linarith
  · rw [div_le_div_iff₀ (by linarith) (by linarith)]
    nlinarith

/-- For `0 ≤ x < π/2`, `invGuder x` is `atanh (sin x)`. -/
theorem invGuder_eq_atanh_sin (x : ℝ) (h0 : 0 ≤ x) (h2 : x < Real.pi / 2) :
    invGuder x = atanh (Real.sin x) := by
  have hc : 0 < Real.cos x := Real.cos_pos_of_mem_Ioo ⟨by linarith [Real.pi_pos], h2⟩
  have hs0 : 0 ≤ Real.sin x := Real.sin_nonneg_of_nonneg_of_le_pi h0 (by linarith [Real.pi_pos])
  have hs1 : Real.sin x < 1 := by
    have h := Real.sin_sq_add_cos_sq x
    nlinarith [Real.sin_le_one x]
  have hsq : Real.sqrt (1 + Real.tan x ^ 2) = 1 / Real.cos x := by
    rw [Real.sqrt_eq_iff_mul_self_eq (by positivity) (by positivity), Real.tan_eq_sin_div_cos]
    have h := Real.sin_sq_add_cos_sq x
    field_simp
    nlinarith
  unfold invGuder atanh
  rw [Real.arsinh, hsq, Real.tan_eq_sin_div_cos]
  have hpos : 0 < Real.sin x / Real.cos x + 1 / Real.cos x := by positivity
  have hsq2 : (Real.sin x / Real.cos x + 1 / Real.cos x) ^ 2
      = (1 + Real.sin x) / (1 - Real.sin x) := by
    have h := Real.sin_sq_add_cos_sq x
    have h1 : (1 - Real.sin x) ≠ 0 := by linarith
    field_simp
    nlinarith
  rw [← hsq2, Real.log_pow]
  push_cast
  ring

/-- On the northern side the conformal latitude lies between 0 and the
latitude. -/
theorem conformalLatitude_nonneg_le (e : ellipsoid) (x : ℝ) (hb : 0 < e.por)
    (hle : e.por ≤ e.eqr) (h0 : 0 ≤ x) (h2 : x < Real.pi / 2) :
    0 ≤ e.conformalLatitude x ∧ e.conformalLatitude x ≤ x := by
  obtain ⟨e0, e1⟩ := eccentricity_range e hb hle
  have hs0 : 0 ≤ Real.sin x := Real.sin_nonneg_of_nonneg_of_le_pi h0 (by linarith [Real.pi_pos])
  have hc : 0 < Real.cos x := Real.cos_pos_of_mem_Ioo ⟨by linarith [Real.pi_pos], h2⟩
  have hs1 : Real.sin x < 1 := by
    have h := Real.sin_sq_add_cos_sq x
    nlinarith [Real.sin_le_one x]
  have hu0 : 0 ≤ e.eccentricity * Real.sin x := mul_nonneg e0 hs0
  have hu1 : e.eccentricity * Real.sin x ≤ Real.sin x := by nlinarith
  have ht0 : 0 ≤ atanh (e.eccentricity * Real.sin x) := atanh_nonneg _ hu0 (by linarith)
  have ht1 : atanh (e.eccentricity * Real.sin x) ≤ atanh (Real.sin x) :=
    atanh_mono _ _ hu0 hu1 hs1
  have hprod0 : 0 ≤ e.eccentricity * atanh (e.eccentricity * Real.sin x) := mul_nonneg e0 ht0
  have hprod1 : e.eccentricity * atanh (e.eccentricity * Real.sin x) ≤ invGuder x := by
    rw [invGuder_eq_atanh_sin x h0 h2]
    nlinarith
  unfold ellipsoid.conformalLatitude
  simp only []
  constructor
  · rw [← guder_zero]
    exact guder_strictMono.monotone (by linarith)
  · have := guder_strictMono.monotone
      (show invGuder x - e.eccentricity * atanh (e.eccentricity * Real.sin x) ≤ invGuder x
        by linarith)
    rwa [guder_invGuder x (by linarith [Real.pi_pos]) h2] at this

/-- On the southern side the conformal latitude is at least the latitude. -/
theorem conformalLatitude_ge (e : ellipsoid) (x : ℝ) (hb : 0 < e.por)
    (hle : e.por ≤ e.eqr) (h1 : -(Real.pi / 2) < x) (h0 : x ≤ 0) :
    x ≤ e.conformalLatitude x := by
  obtain ⟨e0, e1⟩ := eccentricity_range e hb hle
  have hs0 : Real.sin x ≤ 0 := Real.sin_nonpos_of_nonnpos_of_neg_pi_le h0
    (by linarith [Real.pi_pos])
  have hs1 : -1 ≤ Real.sin x := Real.neg_one_le_sin x
  have hu0 : e.eccentricity * Real.sin x ≤ 0 := mul_nonpos_of_nonneg_of_nonpos e0 hs0
  have hu1 : -1 < e.eccentricity * Real.sin x := by nlinarith
  have ht0 : atanh (e.eccentricity * Real.sin x) ≤ 0 := atanh_nonpos _ hu0 hu1
  have hprod0 : e.eccentricity * atanh (e.eccentricity * Real.sin x) ≤ 0 :=
    mul_nonpos_of_nonneg_of_nonpos e0 ht0
  unfold ellipsoid.conformalLatitude
  simp only []
  have := guder_strictMono.monotone
    (show invGuder x ≤ invGuder x - e.eccentricity * atanh (e.eccentricity * Real.sin x)
      by linarith)
  rwa [guder_invGuder x h1 (by linarith [Real.pi_pos])] at this

/-- The seeds of `inverseConformalLatitude` on an oblate ellipsoid: `lo` lies
between 0 and `lat`, `hi` between `lat` and `π/2`. -/
theorem seeds_position (e : ellipsoid) (lat : ℝ) (hb : 0 < e.por) (hle : e.por ≤ e.eqr)
    (h2 : lat < Real.pi / 2) :
    (0 ≤ lat → 0 ≤ e.inverseConformalLatitudeLo lat ∧ e.inverseConformalLatitudeLo lat ≤ lat)
    ∧ (lat ≤ 0 → lat ≤ e.inverseConformalLatitudeLo lat ∧ e.inverseConformalLatitudeLo lat ≤ 0)
    ∧ (lat < 0 → e.por < e.eqr → lat < e.inverseConformalLatitudeLo lat)
    ∧ lat ≤ e.inverseConformalLatitudeHi lat
    ∧ (e.por < e.eqr → lat < e.inverseConformalLatitudeHi lat)
    ∧ e.inverseConformalLatitudeHi lat < Real.pi / 2 := by
  have ha : 0 < e.eqr := lt_of_lt_of_le hb hle
  have hk0 : 0 < e.por / e.eqr := div_pos hb ha
  have hk1 : e.por / e.eqr ≤ 1 := (div_le_one ha).mpr hle
  have hlo : e.inverseConformalLatitudeLo lat = lat * (e.por / e.eqr) := by
    unfold ellipsoid.inverseConformalLatitudeLo; ring
  have hhi : e.inverseConformalLatitudeHi lat
      = (lat - Real.pi / 2) * (e.por / e.eqr) + Real.pi / 2 := by
    unfold ellipsoid.inverseConformalLatitudeHi; ring
  have hk : e.por < e.eqr → e.por / e.eqr < 1 := fun h => (div_lt_one ha).mpr h
  rw [hlo, hhi]
  generalize e.por / e.eqr = k at hk0 hk1 hk
  refine ⟨fun h => ⟨by positivity, by nlinarith⟩, fun h => ⟨by nlinarith, by nlinarith⟩,
    fun h hs => ?_, by nlinarith, fun hs => ?_, by nlinarith⟩
  · have := hk hs
    nlinarith
  · have := hk hs
    nlinarith

/-- C31, counterexample. On `WGS84` and for the target latitude `-1`, the lower
seed `lo = -1·por/eqr` has a positive residual `conformalLatitude(lo) - lat`,
where the claim requires it to be at most 0. -/
theorem seed_lo_residual_positive :
    0 < WGS84.por ∧ WGS84.por ≤ WGS84.eqr
    ∧ -(Real.pi / 2) < (-1 : ℝ) ∧ (-1 : ℝ) < Real.pi / 2
    ∧ 0 < WGS84.conformalLatitude (WGS84.inverseConformalLatitudeLo (-1)) - (-1)
    ∧ ¬ (WGS84.conformalLatitude (WGS84.inverseConformalLatitudeLo (-1)) - (-1) ≤ 0) := by
  obtain ⟨f1, f2, -⟩ := WGS84_fields
  have hb : 0 < WGS84.por := WGS84_pos.2
  have hlt : WGS84.por < WGS84.eqr := by
    rw [f1, f2]; norm_num
  have hpi := Real.pi_gt_three
  have h1 : -(Real.pi / 2) < (-1 : ℝ) := by linarith
  have h2 : (-1 : ℝ) < Real.pi / 2 := by linarith
  obtain ⟨-, p2, p3, -⟩ := seeds_position WGS84 (-1) hb hlt.le h2
  have hlo0 := (p2 (by norm_num)).2
  have hlo1 := p3 (by norm_num) hlt
  have hge := conformalLatitude_ge WGS84 (WGS84.inverseConformalLatitudeLo (-1)) hb hlt.le
    (by linarith) hlo0
  have hpos : 0 < WGS84.conformalLatitude (WGS84.inverseConformalLatitudeLo (-1)) - (-1) := by
    linarith
  exact ⟨hb, hlt.le, h1, h2, hpos, not_le.mpr hpos⟩

/-- C31, amended. Seeds of `inverseConformalLatitude` on an oblate ellipsoid
(`0 < por ≤ eqr`) for a target `lat` with `−π/2 < lat < π/2`, with
`lo = lat·por/eqr` and `hi = (lat − π/2)·por/eqr + π/2`. For `lat ≥ 0` the
residual at `lo` satisfies `conformalLatitude(lo) − lat ≤ 0`. For `lat ≤ 0`
both residuals are `≥ 0`, and they are both positive when `lat < 0` and
`por < eqr`: the seeds then do not bracket the root. On a sphere
(`por = eqr`) both seeds are `lat` and both residuals are 0. -/
theorem seeds_residuals (e : ellipsoid) (lat : ℝ) (hb : 0 < e.por) (hle : e.por ≤ e.eqr)
    (h1 : -(Real.pi / 2) < lat) (h2 : lat < Real.pi / 2) :
    (0 ≤ lat → e.conformalLatitude (e.inverseConformalLatitudeLo lat) - lat ≤ 0)
    ∧ (lat ≤ 0 → 0 ≤ e.conformalLatitude (e.inverseConformalLatitudeLo lat) - lat
        ∧ 0 ≤ e.conformalLatitude (e.inverseConformalLatitudeHi lat) - lat)
    ∧ (lat < 0 → e.por < e.eqr →
        0 < e.conformalLatitude (e.inverseConformalLatitudeLo lat) - lat
        ∧ 0 < e.conformalLatitude (e.inverseConformalLatitudeHi lat) - lat)
    ∧ (e.por = e.eqr →
        e.inverseConformalLatitudeLo lat = lat ∧ e.inverseConformalLatitudeHi lat = lat
        ∧ e.conformalLatitude (e.inverseConformalLatitudeLo lat) - lat = 0
        ∧ e.conformalLatitude (e.inverseConformalLatitudeHi lat) - lat = 0) := by
  have hpi := Real.pi_pos
  have ha : 0 < e.eqr := lt_of_lt_of_le hb hle
  obtain ⟨p1, p2, p3, p4, p5, p6⟩ := seeds_position e lat hb hle h2
  have hhi_lower : lat ≤ 0 →
      min (e.inverseConformalLatitudeHi lat) 0
        ≤ e.conformalLatitude (e.inverseConformalLatitudeHi lat) := by
    intro h0
    rcases le_or_lt (e.inverseConformalLatitudeHi lat) 0 with h | h
    · rw [min_eq_left h]
      exact conformalLatitude_ge e _ hb hle (by linarith) h
    · rw [min_eq_right h.le]
      exact (conformalLatitude_nonneg_le e _ hb hle h.le p6).1
  refine ⟨?_, ?_, ?_, ?_⟩
  · intro h0
    obtain ⟨l0, l1⟩ := p1 h0
    have := (conformalLatitude_nonneg_le e _ hb hle l0 (by linarith)).2
    linarith
  · intro h0
    obtain ⟨l0, l1⟩ := p2 h0
    have hlo := conformalLatitude_ge e _ hb hle (by linarith) l1
    have hhi := hhi_lower h0
    have hmin : lat ≤ min (e.inverseConformalLatitudeHi lat) 0 := le_min p4 h0
    exact ⟨by linarith, by linarith⟩
  · intro hneg hs
    obtain ⟨l0, l1⟩ := p2 hneg.le
    have hlo := conformalLatitude_ge e _ hb hle (by linarith) l1
    have hlo2 := p3 hneg hs
    have hhi := hhi_lower hneg.le
    have hmin : lat < min (e.inverseConformalLatitudeHi lat) 0 := lt_min (p5 hs) hneg
    exact ⟨by linarith, by linarith⟩
  · intro hs
    have hane : e.eqr ≠ 0 := ha.ne'
    have hlo : e.inverseConformalLatitudeLo lat = lat := by
      unfold ellipsoid.inverseConformalLatitudeLo
      rw [hs]
      field_simp
    have hhi : e.inverseConformalLatitudeHi lat = lat := by
      unfold ellipsoid.inverseConformalLatitudeHi
      rw [hs]
      field_simp
      ring
    have hc : e.conformalLatitude lat = lat := by
      unfold ellipsoid.conformalLatitude
      simp only [eccentricity_of_sphere e hs.symm ha, zero_mul, sub_zero]
      exact guder_invGuder lat h1 h2
    rw [hlo, hhi, hc]
    exact ⟨rfl, rfl, sub_self _, sub_self _⟩

/-- The statement `seeds_residuals` on `WGS84` for the target latitude `1`: the
residual at the lower seed is at most 0. -/
theorem seeds_residuals_witness :
    0 < WGS84.por ∧ WGS84.por ≤ WGS84.eqr
    ∧ -(Real.pi / 2) < (1 : ℝ) ∧ (1 : ℝ) < Real.pi / 2
    ∧ WGS84.conformalLatitude (WGS84.inverseConformalLatitudeLo 1) - 1 ≤ 0 :=
  have hb : 0 < WGS84.por := WGS84_pos.2
  have hle : WGS84.por ≤ WGS84.eqr := by
    rw [WGS84_fields.1, WGS84_fields.2.1]; norm_num
  have h1 : -(Real.pi / 2) < (1 : ℝ) := by linarith [Real.pi_gt_three]
  have h2 : (1 : ℝ) < Real.pi / 2 := by linarith [Real.pi_gt_three]
  ⟨hb, hle, h1, h2, (seeds_residuals WGS84 1 hb hle h1 h2).1 (by norm_num)⟩

/-! ## Theorems: ellipsoid.cpp, index 0 of the Krüger series -/

theorem getD_zero_of_all_zero (cs : List ℝ) (h : ∀ c ∈ cs, c = 0) (i : ℕ) :
    cs.getD i 0 = 0 := by
  rw [List.getD_eq_getElem?_getD]
  by_cases hi : i < cs.length
  · rw [List.getElem?_eq_getElem hi]
    exact h _ (List.getElem_mem _)
  · rw [List.getElem?_eq_none (not_lt.mp hi)]
    rfl

/-- With every coefficient of index at least 1 zero or absent, the terms of the
Krüger series add up to `z`. -/
theorem krugerTerms_sum_linear (c0 : ℝ) (cs : List ℝ) (z : ℂ) (h : ∀ c ∈ cs, c = 0) :
    (krugerTerms (c0 :: cs) z).sum = z := by
  unfold krugerTerms
  rw [List.length_cons, List.range_succ_eq_map, List.map_cons, List.sum_cons, List.map_map]
  have hz : ((List.range cs.length).map
      ((fun (i : ℕ) => if i ≠ 0 then
          Complex.sin (((i : ℝ) : ℂ) * z) * (((c0 :: cs).getD i 0 : ℝ) : ℂ) else z)
        ∘ Nat.succ)).sum = 0 := by
    apply List.sum_eq_zero
    intro x hx
    obtain ⟨i, -, hi⟩ := List.mem_map.mp hx
    rw [← hi]
    have h0 := getD_zero_of_all_zero cs h i
    rw [List.getD_eq_getElem?_getD] at h0
    simp [h0]
  rw [hz]
  simp

/-- At `z = 0` the terms of the Krüger series add up to 0, whatever the
coefficients. -/
theorem krugerTerms_sum_zero (coeff : List ℝ) : (krugerTerms coeff 0).sum = 0 := by
  unfold krugerTerms
  apply List.sum_eq_zero
  intro x hx
  obtain ⟨i, -, hi⟩ := List.mem_map.mp hx
  rw [← hi]
  by_cases h0 : i ≠ 0
  · simp [h0]
  · simp [h0]

/-- C32, counterexample. Not for any coefficients do `krugerize` and
`dekrugerize` map the origin to the origin: on `WGS84` as it stands in the
registry (no coefficients set), and on `WGS84` with only the forward
coefficients set, the `assert` fails and no point is returned. -/
theorem kruger_origin_unset :
    WGS84.krugerize ⟨0, 0⟩ = none ∧ WGS84.dekrugerize ⟨0, 0⟩ = none
    ∧ (WGS84.setTmCoefficients [6367449] []).krugerize ⟨0, 0⟩ = none
    ∧ (WGS84.setTmCoefficients [6367449] []).dekrugerize ⟨0, 0⟩ = none
    ∧ WGS84.krugerize ⟨0, 0⟩ ≠ some ⟨0, 0⟩ ∧ WGS84.dekrugerize ⟨0, 0⟩ ≠ some ⟨0, 0⟩ := by
  have hW : WGS84.tmForward = [] := by simp [WGS84, ellipsoid.new]
  have hS : (WGS84.setTmCoefficients [6367449] []).tmReverse = [] := by
    simp [ellipsoid.setTmCoefficients]
  obtain ⟨h1, h2, -, -⟩ := kruger_none_iff WGS84 ⟨0, 0⟩
  obtain ⟨h3, h4, -, -⟩ := kruger_none_iff (WGS84.setTmCoefficients [6367449] []) ⟨0, 0⟩
  have k1 := h1.mpr (Or.inl hW)
  have k2 := h2.mpr (Or.inl hW)
  refine ⟨k1, k2, h3.mpr (Or.inr hS), h4.mpr (Or.inr hS), ?_, ?_⟩
  · rw [k1]; exact fun h => Option.noConfusion h
  · rw [k2]; exact fun h => Option.noConfusion h

/-- C32, amended. Index 0 is a pure linear scale: when both coefficient
sequences are set, with non-zero index-0 coefficients `forward[0]` and
`reverse[0]`, and every coefficient of index ≥ 1 is zero or absent,
`krugerize(p) = p·forward[0]/reverse[0]` and
`dekrugerize(p) = p·reverse[0]/forward[0]` for every point `p`, so
`dekrugerize(krugerize(p)) = p` exactly; and whatever the coefficients of
index ≥ 1, `krugerize` and `dekrugerize` map the origin to the origin. -/
theorem kruger_linear_scale (e : ellipsoid) (p : xy) (f0 r0 : ℝ) (fs rs : List ℝ)
    (hf : e.tmForward = f0 :: fs) (hr : e.tmReverse = r0 :: rs) (hf0 : f0 ≠ 0)
    (hr0 : r0 ≠ 0) :
    ((∀ c ∈ fs, c = 0) → e.krugerize p = some ⟨p.x * f0 / r0, p.y * f0 / r0⟩)
    ∧ ((∀ c ∈ rs, c = 0) → e.dekrugerize p = some ⟨p.x * r0 / f0, p.y * r0 / f0⟩)
    ∧ ((∀ c ∈ fs, c = 0) → (∀ c ∈ rs, c = 0) →
        (e.krugerize p).bind e.dekrugerize = some p)
    ∧ e.krugerize ⟨0, 0⟩ = some ⟨0, 0⟩
    ∧ e.dekrugerize ⟨0, 0⟩ = some ⟨0, 0⟩ := by
  have hpi : Real.pi ≠ 0 := Real.pi_ne_zero
  have hk : ∀ q : xy, (∀ c ∈ fs, c = 0) →
      e.krugerize q = some ⟨q.x * f0 / r0, q.y * f0 / r0⟩ := by
    intro q h
    unfold ellipsoid.krugerize
    rw [hf, hr]
    simp only [pairwisesum, list_sum_map_re, list_sum_map_im, krugerTerms_sum_linear f0 fs _ h,
      xy.getx, xy.gety]
    congr 2 <;> field_simp <;> ring
  have hd : ∀ q : xy, (∀ c ∈ rs, c = 0) →
      e.dekrugerize q = some ⟨q.x * r0 / f0, q.y * r0 / f0⟩ := by
    intro q h
    unfold ellipsoid.dekrugerize
    rw [hf, hr]
    simp only [pairwisesum, list_sum_map_re, list_sum_map_im, krugerTerms_sum_linear r0 rs _ h,
      xy.getx, xy.gety]
    congr 2 <;> field_simp <;> ring
  have hzero : (⟨(0 : ℝ) * Real.pi / r0, -(0 : ℝ) * Real.pi / r0⟩ : ℂ) = 0 := by
    apply Complex.ext <;> simp
  have hzero' : (⟨(0 : ℝ) * Real.pi / f0, -(0 : ℝ) * Real.pi / f0⟩ : ℂ) = 0 := by
    apply Complex.ext <;> simp
  refine ⟨hk p, hd p, ?_, ?_, ?_⟩
  · intro h1 h2
    rw [hk p h1, Option.some_bind, hd _ h2]
    congr 2 <;> field_simp
  · unfold ellipsoid.krugerize
    rw [hf, hr]
    simp only [pairwisesum, list_sum_map_re, list_sum_map_im, xy.getx, xy.gety, hzero,
      krugerTerms_sum_zero]
    simp
  · unfold ellipsoid.dekrugerize
    rw [hf, hr]
    simp only [pairwisesum, list_sum_map_re, list_sum_map_im, xy.getx, xy.gety, hzero',
      krugerTerms_sum_zero]
    simp

/-- The statement `kruger_linear_scale` on `WGS84` with the coefficients
`[2, 0]` and `[4]`: `krugerize(3, 5) = (3/2, 5/2)` and back. -/
theorem kruger_linear_scale_witness :
    (WGS84.setTmCoefficients [2, 0] [4]).krugerize ⟨3, 5⟩ = some ⟨3 * 2 / 4, 5 * 2 / 4⟩
    ∧ ((WGS84.setTmCoefficients [2, 0] [4]).krugerize ⟨3, 5⟩).bind
        (WGS84.setTmCoefficients [2, 0] [4]).dekrugerize = some ⟨3, 5⟩
    ∧ (WGS84.setTmCoefficients [2, 0] [4]).krugerize ⟨0, 0⟩ = some ⟨0, 0⟩ :=
  have h := kruger_linear_scale (WGS84.setTmCoefficients [2, 0] [4]) ⟨3, 5⟩ 2 4 [0] []
    rfl rfl (by norm_num) (by norm_num)
  ⟨h.1 (by simp), h.2.2.1 (by simp) (by simp), h.2.2.2.1⟩

/-! ## Theorems: breakline.cpp -/

/-- The scan leaves `least` and `leastpos` alone when no node is below `least`. -/
theorem leastScan_noop (xs : List ℤ) (i : ℕ) (acc : ℤ × Option ℕ)
    (h : ∀ y ∈ xs, acc.1 ≤ y) : leastScan xs i acc = acc := by
  induction xs generalizing i acc with
  | nil => rfl
  | cons x xs ih =>
    have hx : ¬ x < acc.1 := not_lt.mpr (h x (List.mem_cons_self _ _))
    simp only [leastScan, if_neg hx]
    exact ih (i + 1) acc (fun y hy => h y (List.mem_cons_of_mem _ hy))

/-- What the scan returns: `least` is below the initial `least` and below every
node scanned, and either nothing was assigned or `leastpos` is the index of a
node equal to `least`, which is below the initial `least`. -/
theorem leastScan_spec (xs : List ℤ) (i : ℕ) (acc : ℤ × Option ℕ) :
    (leastScan xs i acc).1 ≤ acc.1
    ∧ (∀ y ∈ xs, (leastScan xs i acc).1 ≤ y)
    ∧ (leastScan xs i acc = acc
        ∨ ∃ k, (leastScan xs i acc).2 = some (i + k) ∧ k < xs.length
            ∧ nodeAt xs k = (leastScan xs i acc).1 ∧ (leastScan xs i acc).1 < acc.1) := by
  induction xs generalizing i acc with
  | nil => exact ⟨le_refl _, fun y hy => absurd hy (List.not_mem_nil y), Or.inl rfl⟩
  | cons x xs ih =>
    simp only [leastScan]
    by_cases hx : x < acc.1
    · rw [if_pos hx]
      obtain ⟨h1, h2, h3⟩ := ih (i + 1) (x, some i)
      simp only at h1 h3
      refine ⟨le_trans h1 hx.le, ?_, Or.inr ?_⟩
      · intro y hy
        rcases List.mem_cons.mp hy with e | e
        · rw [e]; exact h1
        · exact h2 y e
      · rcases h3 with e | ⟨k, e1, e2, e3, e4⟩
        · refine ⟨0, by rw [e]; rfl, by simp, by rw [e]; simp [nodeAt], by rw [e]; exact hx⟩
        · refine ⟨k + 1, by rw [e1]; congr 1; omega, by simp; omega, ?_, lt_trans e4 hx⟩
          rw [← e3]
          simp [nodeAt]
    · rw [if_neg hx]
      obtain ⟨h1, h2, h3⟩ := ih (i + 1) acc
      refine ⟨h1, ?_, ?_⟩
      · intro y hy
        rcases List.mem_cons.mp hy with e | e
        · rw [e]; exact le_trans h1 (not_lt.mp hx)
        · exact h2 y e
      · rcases h3 with e | ⟨k, e1, e2, e3, e4⟩
        · exact Or.inl e
        · refine Or.inr ⟨k + 1, by rw [e1]; congr 1; omega, by simp; omega, ?_, e4⟩
          rw [← e3]
          simp [nodeAt]

/-- The scan of `normalize` assigns `leastpos` unless every node is at least
`INT_MAX`. -/
theorem leastScan_none_iff (xs : List ℤ) :
    (leastScan xs 0 (INT_MAX, none)).2 = none ↔ ∀ y ∈ xs, INT_MAX ≤ y := by
  constructor
  · intro h
    obtain ⟨-, h2, h3⟩ := leastScan_spec xs 0 (INT_MAX, none)
    rcases h3 with e | ⟨k, e1, -⟩
    · intro y hy
      have := h2 y hy
      rwa [e] at this
    · rw [h] at e1
      exact absurd e1 (by simp)
  · intro h
    rw [leastScan_noop xs 0 (INT_MAX, none) h]

/-- When the scan of `normalize` assigns `leastpos`, it is the index of a node
that is below `INT_MAX` and below every node. -/
theorem leastScan_some (xs : List ℤ) (p : ℕ)
    (h : (leastScan xs 0 (INT_MAX, none)).2 = some p) :
    p < xs.length ∧ nodeAt xs p < INT_MAX ∧ ∀ y ∈ xs, nodeAt xs p ≤ y := by
  obtain ⟨-, h2, h3⟩ := leastScan_spec xs 0 (INT_MAX, none)
  rcases h3 with e | ⟨k, e1, e2, e3, e4⟩
  · rw [e] at h
    exact absurd h (by simp)
  · rw [h] at e1
    have hk : p = k := by simpa using e1
    rw [hk, e3]
    exact ⟨e2, e4, h2⟩

/-- The scan of a list whose first node is below `INT_MAX` and below every node
stops at position 0. -/
theorem leastScan_head (x : ℤ) (xs : List ℤ) (hx : x < INT_MAX) (h : ∀ y ∈ xs, x ≤ y) :
    (leastScan (x :: xs) 0 (INT_MAX, none)).2 = some 0 := by
  simp only [leastScan, if_pos hx]
  rw [leastScan_noop xs 1 (x, some 0) h]

theorem nodeAt_lt (l : List ℤ) (i : ℕ) (h : i < l.length) : nodeAt l i = l[i] := by
  unfold nodeAt
  rw [List.getD_eq_getElem?_getD, List.getElem?_eq_getElem h]
  rfl

theorem nodeAt_mem (l : List ℤ) (i : ℕ) (h : i < l.length) : nodeAt l i ∈ l := by
  rw [nodeAt_lt l i h]
  exact List.getElem_mem _

/-- The push loop of `normalize` appends the nodes of index 1 to `leastpos`. -/
theorem pushLoop_eq (l : List ℤ) (k : ℕ) (hk : k < l.length) :
    (List.range k).foldl (fun v i => v ++ [nodeAt v (i + 1)]) l
      = l ++ (l.drop 1).take k := by
  induction k with
  | zero => simp
  | succ k ih =>
    rw [List.range_succ, List.foldl_append, ih (by omega)]
    simp only [List.foldl_cons, List.foldl_nil]
    have h1 : nodeAt (l ++ (l.drop 1).take k) (k + 1) = l[k + 1] := by
      rw [nodeAt_lt _ _ (by simp; omega)]
      rw [List.getElem_append_left]
    rw [h1, List.take_succ, List.append_assoc]
    congr 2
    rw [List.getElem?_drop, List.getElem?_eq_getElem (by omega)]
    simp [Nat.add_comm]

/-- The rotation of `normalize` for a position inside the vector. -/
theorem rotateNodes_eq (l : List ℤ) (p : ℕ) (hp : p < l.length) :
    rotateNodes l p = l.drop p ++ (l.drop 1).take p := by
  unfold rotateNodes
  simp only []
  rw [pushLoop_eq l p hp, List.drop_append_of_le_length (by omega)]
  apply List.take_of_length_le
  simp
  omega

theorem rotateNodes_zero (l : List ℤ) : rotateNodes l 0 = l := by
  unfold rotateNodes
  simp

theorem nodeAt_reverse (l : List ℤ) (i : ℕ) (h : i < l.length) :
    nodeAt l.reverse i = nodeAt l (l.length - 1 - i) := by
  rw [nodeAt_lt _ _ (by simpa using h), nodeAt_lt _ _ (by omega), List.getElem_reverse]

theorem nodeBack_reverse (l : List ℤ) (h : 0 < l.length) :
    nodeAt l.reverse 0 = nodeBack l ∧ nodeBack l.reverse = nodeAt l 0 := by
  unfold nodeBack
  rw [nodeAt_reverse l 0 h, List.length_reverse, nodeAt_reverse l _ (by omega)]
  constructor
  · rfl
  · congr 1; omega

/-- Reversing a vector that fails the test of `normalize` yields one that passes
it. -/
theorem needsReverse_reverse (v : List ℤ) (h : needsReverse v = true) :
    needsReverse v.reverse = false := by
  have hlen : 0 < v.length := by
    rcases v with _ | ⟨x, xs⟩
    · simp [needsReverse] at h
    · simp
  obtain ⟨e1, e2⟩ := nodeBack_reverse v hlen
  unfold needsReverse at h ⊢
  rw [e1, e2, List.length_reverse]
  by_cases h2 : 2 < v.length
  · have e3 : nodeAt v.reverse 1 = nodeAt v (v.length - 2) := by
      rw [nodeAt_reverse v 1 (by omega)]; congr 1
    have e4 : nodeAt v.reverse (v.length - 2) = nodeAt v 1 := by
      rw [nodeAt_reverse v _ (by omega)]; congr 1; omega
    rw [e3, e4]
    simp only [Bool.or_eq_true, Bool.and_eq_true, decide_eq_true_eq, gt_iff_lt] at h
    simp only [Bool.or_eq_false_iff, Bool.and_eq_false_iff, decide_eq_false_iff_not,
      gt_iff_lt, not_lt]
    rcases h with ⟨-, h⟩ | ⟨⟨-, h⟩, h'⟩
    · exact ⟨Or.inr h.le, Or.inl (Or.inr h.ne)⟩
    · exact ⟨Or.inr h.ge, Or.inr h'.le⟩
  · simp only [h2, decide_False, Bool.false_and, Bool.or_false, Bool.and_eq_true,
      decide_eq_true_eq, gt_iff_lt] at h
    simp only [h2, decide_False, Bool.false_and, Bool.or_false, Bool.and_eq_false_iff,
      decide_eq_false_iff_not, gt_iff_lt, not_lt]
    exact Or.inr h.2.le

theorem isOpen_reverse (v : List ℤ) :
    (Breakline0.mk v.reverse).isOpen = (Breakline0.mk v).isOpen := by
  unfold Breakline0.isOpen
  simp only [List.length_reverse]
  by_cases h : v.length ≠ 0
  · obtain ⟨e1, e2⟩ := nodeBack_reverse v (by omega)
    rw [if_pos h, if_pos h, e1, e2]
    simp only [decide_eq_decide]
    exact ⟨fun h => fun e => h e.symm, fun h => fun e => h e.symm⟩
  · rw [if_neg h, if_neg h]

/-- The rotation of a closed vector of more than 2 nodes to a position holding
the least node: same length, first and last node the least node, nodes taken
from the vector. -/
theorem rotateNodes_spec (l : List ℤ) (p : ℕ) (hp : p < l.length)
    (hc : nodeAt l 0 = nodeBack l) :
    (rotateNodes l p).length = l.length
    ∧ nodeAt (rotateNodes l p) 0 = nodeAt l p
    ∧ nodeBack (rotateNodes l p) = nodeAt l p
    ∧ ∀ y ∈ rotateNodes l p, y ∈ l := by
  rw [rotateNodes_eq l p hp]
  have hlen : (l.drop p ++ (l.drop 1).take p).length = l.length := by
    simp; omega
  refine ⟨hlen, ?_, ?_, ?_⟩
  · rw [nodeAt_lt _ _ (by rw [hlen]; omega), nodeAt_lt _ _ hp,
      List.getElem_append_left (by simp; omega)]
    simp
  · unfold nodeBack
    rw [hlen]
    rcases Nat.eq_zero_or_pos p with h0 | h0
    · subst h0
      simp only [List.drop_zero, List.take_zero, List.append_nil]
      exact hc.symm
    · rw [nodeAt_lt _ _ (by rw [hlen]; omega), nodeAt_lt _ _ hp,
        List.getElem_append_right (by simp; omega)]
      simp only [List.getElem_take, List.getElem_drop, List.length_drop]
      congr 1
      omega
  · intro y hy
    rcases List.mem_append.mp hy with h | h
    · exact List.mem_of_mem_drop h
    · exact List.mem_of_mem_drop (List.mem_of_mem_take h)

/-- The second `if` of `normalize` keeps the length, the nodes and whether the
vector is open, and leaves a vector that passes its test. -/
theorem reverseIfNeeded_spec (v : List ℤ) :
    (reverseIfNeeded v).length = v.length
    ∧ (Breakline0.mk (reverseIfNeeded v)).isOpen = (Breakline0.mk v).isOpen
    ∧ needsReverse (reverseIfNeeded v) = false
    ∧ (∀ y, y ∈ reverseIfNeeded v ↔ y ∈ v)
    ∧ (nodeAt v 0 = nodeBack v → nodeAt (reverseIfNeeded v) 0 = nodeAt v 0) := by
  unfold reverseIfNeeded
  by_cases h : needsReverse v = true
  · rw [if_pos h]
    refine ⟨List.length_reverse v, isOpen_reverse v, needsReverse_reverse v h,
      fun y => List.mem_reverse, ?_⟩
    intro hc
    have hlen : 0 < v.length := by
      rcases v with _ | ⟨x, xs⟩
      · simp [needsReverse] at h
      · simp
    rw [(nodeBack_reverse v hlen).1, hc]
  · rw [if_neg h]
    exact ⟨rfl, rfl, by simpa using h, fun y => Iff.rfl, fun _ => rfl⟩

theorem isOpen_false_iff (v : List ℤ) :
    (Breakline0.mk v).isOpen = false ↔ v.length ≠ 0 ∧ nodeAt v 0 = nodeBack v := by
  unfold Breakline0.isOpen
  by_cases h : v.length ≠ 0
  · simp [h]
  · simp [h]

/-- When `rotateIfClosed` is undefined. -/
theorem rotateIfClosed_none_iff (v : List ℤ) :
    rotateIfClosed v = none
      ↔ 2 < v.length ∧ (Breakline0.mk v).isOpen = false ∧ ∀ y ∈ v, INT_MAX ≤ y := by
  unfold rotateIfClosed
  by_cases hc : 2 < v.length ∧ (Breakline0.mk v).isOpen = false
  · rw [if_pos hc]
    rcases hs : (leastScan v 0 (INT_MAX, none)).2 with _ | p
    · simp only [true_iff]
      exact ⟨hc.1, hc.2, (leastScan_none_iff v).mp hs⟩
    · constructor
      · intro h
        exact absurd h (by simp)
      · intro h
        rw [(leastScan_none_iff v).mpr h.2.2] at hs
        exact absurd hs (by simp)
  · rw [if_neg hc]
    constructor
    · intro h
      exact absurd h (by simp)
    · intro h
      exact absurd ⟨h.1, h.2.1⟩ hc

/-- What `rotateIfClosed` returns: an open or short vector unchanged; a closed
vector of more than 2 nodes rotated, of the same length, closed, starting at
a node below `INT_MAX` that is the least node. -/
theorem rotateIfClosed_some (v w : List ℤ) (h : rotateIfClosed v = some w) :
    w.length = v.length
    ∧ (Breakline0.mk w).isOpen = (Breakline0.mk v).isOpen
    ∧ (∀ y ∈ w, y ∈ v)
    ∧ (2 < v.length → (Breakline0.mk v).isOpen = false →
        nodeAt w 0 < INT_MAX ∧ ∀ y ∈ v, nodeAt w 0 ≤ y) := by
  unfold rotateIfClosed at h
  by_cases hc : 2 < v.length ∧ (Breakline0.mk v).isOpen = false
  · rw [if_pos hc] at h
    rcases hs : (leastScan v 0 (INT_MAX, none)).2 with _ | p
    · rw [hs] at h
      exact absurd h (by simp)
    · rw [hs] at h
      have hw : w = rotateNodes v p := by simpa using h.symm
      obtain ⟨hp, hlt, hmin⟩ := leastScan_some v p hs
      obtain ⟨hne, hclosed⟩ := (isOpen_false_iff v).mp hc.2
      obtain ⟨r1, r2, r3, r4⟩ := rotateNodes_spec v p hp hclosed
      rw [hw]
      refine ⟨r1, ?_, r4, fun _ _ => ⟨by rw [r2]; exact hlt, by rw [r2]; exact hmin⟩⟩
      rw [hc.2]
      exact (isOpen_false_iff _).mpr ⟨by rw [r1]; exact hne, by rw [r2, r3]⟩
  · rw [if_neg hc] at h
    have hw : w = v := by simpa using h.symm
    rw [hw]
    exact ⟨rfl, rfl, fun y hy => hy, fun h1 h2 => absurd ⟨h1, h2⟩ hc⟩

/-- When `normalize` is undefined: on a closed vector of more than 2 nodes, all
of them at least `INT_MAX`. -/
theorem normalize_none_iff (l : Breakline0) :
    l.normalize = none
      ↔ 2 < l.nodes.length ∧ l.isOpen = false ∧ ∀ y ∈ l.nodes, INT_MAX ≤ y := by
  unfold Breakline0.normalize
  rw [Option.map_eq_none']
  exact rotateIfClosed_none_iff l.nodes

/-- What `normalize` returns. -/
theorem normalize_some (l r : Breakline0) (h : l.normalize = some r) :
    r.nodes.length = l.nodes.length
    ∧ r.isOpen = l.isOpen
    ∧ needsReverse r.nodes = false
    ∧ (∀ y ∈ r.nodes, y ∈ l.nodes)
    ∧ (2 < l.nodes.length → l.isOpen = false →
        nodeAt r.nodes 0 < INT_MAX ∧ ∀ y ∈ l.nodes, nodeAt r.nodes 0 ≤ y) := by
  unfold Breakline0.normalize at h
  obtain ⟨w, hw, hr⟩ := Option.map_eq_some'.mp h
  obtain ⟨w1, w2, w3, w4⟩ := rotateIfClosed_some l.nodes w hw
  obtain ⟨v1, v2, v3, v4, v5⟩ := reverseIfNeeded_spec w
  rw [← hr]
  refine ⟨v1.trans w1, v2.trans w2, v3, fun y hy => w3 y ((v4 y).mp hy), ?_⟩
  intro h1 h2
  obtain ⟨k1, k2⟩ := w4 h1 h2
  have hclosed : nodeAt w 0 = nodeBack w :=
    ((isOpen_false_iff w).mp (w2.trans h2)).2
  simp only []
  rw [v5 hclosed]
  exact ⟨k1, k2⟩

/-- A vector that passes the test of the second `if` and, when closed with more
than 2 nodes, starts at a least node below `INT_MAX`, is left unchanged by
`normalize`. -/
theorem normalize_fixed (r : Breakline0) (h1 : needsReverse r.nodes = false)
    (h2 : 2 < r.nodes.length → r.isOpen = false →
      nodeAt r.nodes 0 < INT_MAX ∧ ∀ y ∈ r.nodes, nodeAt r.nodes 0 ≤ y) :
    r.normalize = some r := by
  have hrot : rotateIfClosed r.nodes = some r.nodes := by
    unfold rotateIfClosed
    by_cases hc : 2 < r.nodes.length ∧ (Breakline0.mk r.nodes).isOpen = false
    · rw [if_pos hc]
      obtain ⟨k1, k2⟩ := h2 hc.1 hc.2
      rcases hn : r.nodes with _ | ⟨x, xs⟩
      · rw [hn] at hc
        simp at hc
      · rw [hn] at k1 k2
        have e : nodeAt (x :: xs) 0 = x := rfl
        rw [e] at k1 k2
        rw [leastScan_head x xs k1 (fun y hy => k2 y (List.mem_cons_of_mem _ hy))]
        simp only []
        rw [rotateNodes_zero]
    · rw [if_neg hc]
  unfold Breakline0.normalize
  rw [hrot]
  simp only [Option.map_some', reverseIfNeeded, h1]
  rfl

/-- The method `normalize` is idempotent where it is defined. -/
theorem normalize_normalize (l r : Breakline0) (h : l.normalize = some r) :
    r.normalize = some r := by
  obtain ⟨n1, n2, n3, n4, n5⟩ := normalize_some l r h
  apply normalize_fixed r n3
  intro h1 h2
  obtain ⟨k1, k2⟩ := n5 (by rw [← n1]; exact h1) (by rw [← n2]; exact h2)
  exact ⟨k1, fun y hy => k2 y (n4 y hy)⟩

/-- Every node of `a` is among the nodes that `operator+` joins. -/
theorem mem_joinNodes (a b : Breakline0) (y : ℤ) (hy : y ∈ a.nodes) : y ∈ joinNodes a b := by
  unfold joinNodes
  split_ifs <;> simp [hy]

/-- An open breakline with nodes in the range of `int` has a node below
`INT_MAX`. -/
theorem open_has_small_node (a : Breakline0) (ho : a.isOpen = true) (hn : a.isEmpty = false)
    (hr : ∀ y ∈ a.nodes, y ≤ INT_MAX) : ∃ y ∈ a.nodes, y < INT_MAX := by
  have hlen : 2 ≤ a.nodes.length := by
    simpa [Breakline0.isEmpty] using hn
  have hne : nodeAt a.nodes 0 ≠ nodeBack a.nodes := by
    unfold Breakline0.isOpen at ho
    rw [if_pos (by omega)] at ho
    simpa using ho
  have m0 := nodeAt_mem a.nodes 0 (by omega)
  have m1 : nodeBack a.nodes ∈ a.nodes := nodeAt_mem a.nodes _ (by omega)
  by_contra hcon
  have hall : ∀ y ∈ a.nodes, y = INT_MAX := fun y hy =>
    le_antisymm (hr y hy) (not_lt.mp (fun h => hcon ⟨y, hy, h⟩))
  exact hne ((hall _ m0).trans (hall _ m1).symm)

/-- C37. The method `Breakline0::normalize` is idempotent and length-preserving
wherever its behaviour is defined. It is undefined exactly on a closed
sequence of more than 2 nodes that are all `INT_MAX`, such as
`(INT_MAX, INT_MAX, INT_MAX)`: the scan then never assigns `leastpos`, which
the rotation reads. On every other node sequence `normalize` keeps the number
of nodes and whether the breakline is open or closed, a second `normalize`
changes nothing, the result has `nodes[0] ≤ nodes.back()`, and for a closed
breakline of more than 2 nodes `nodes[0]` is the least node and
`nodes[1] ≤ nodes[size-2]`. -/
theorem normalize_idempotent (l : Breakline0) :
    (Breakline0.mk [INT_MAX, INT_MAX, INT_MAX]).normalize = none
    ∧ (l.normalize = none
        ↔ 2 < l.nodes.length ∧ l.isOpen = false ∧ ∀ y ∈ l.nodes, INT_MAX ≤ y)
    ∧ ∀ r : Breakline0, l.normalize = some r →
        r.nodes.length = l.nodes.length
        ∧ r.isOpen = l.isOpen
        ∧ r.normalize = some r
        ∧ (r.nodes.length ≠ 0 → nodeAt r.nodes 0 ≤ nodeBack r.nodes)
        ∧ (2 < r.nodes.length → r.isOpen = false →
            (∀ y ∈ l.nodes, nodeAt r.nodes 0 ≤ y)
            ∧ (∀ y ∈ r.nodes, nodeAt r.nodes 0 ≤ y)
            ∧ nodeAt r.nodes 1 ≤ nodeAt r.nodes (r.nodes.length - 2)) := by
  refine ⟨by decide, normalize_none_iff l, ?_⟩
  intro r h
  obtain ⟨n1, n2, n3, n4, n5⟩ := normalize_some l r h
  unfold needsReverse at n3
  simp only [Bool.or_eq_false_iff, Bool.and_eq_false_iff, decide_eq_false_iff_not,
    gt_iff_lt, not_lt, ne_eq, not_not] at n3
  refine ⟨n1, n2, normalize_normalize l r h, ?_, ?_⟩
  · intro hne
    rcases n3.1 with e | e
    · exact absurd e hne
    · exact e
  · intro h1 h2
    obtain ⟨k1, k2⟩ := n5 (by rw [← n1]; exact h1) (by rw [← n2]; exact h2)
    refine ⟨k2, fun y hy => k2 y (n4 y hy), ?_⟩
    have hclosed := ((isOpen_false_iff r.nodes).mp h2).2
    rcases n3.2 with (e | e) | e
    · exact absurd h1 (not_lt.mpr e)
    · exact absurd hclosed e
    · exact e

/-- The statement `normalize_idempotent` on the closed breakline `3-5-1-4-3`,
which `normalize` turns into `1-4-3-5-1`. -/
theorem normalize_idempotent_witness :
    (Breakline0.mk [3, 5, 1, 4, 3]).normalize = some ⟨[1, 4, 3, 5, 1]⟩
    ∧ (Breakline0.mk [1, 4, 3, 5, 1]).normalize = some ⟨[1, 4, 3, 5, 1]⟩
    ∧ (Breakline0.mk [1, 4, 3, 5, 1]).isOpen = (Breakline0.mk [3, 5, 1, 4, 3]).isOpen :=
  have h : (Breakline0.mk [3, 5, 1, 4, 3]).normalize = some ⟨[1, 4, 3, 5, 1]⟩ := by decide
  have hr := (normalize_idempotent ⟨[3, 5, 1, 4, 3]⟩).2.2 ⟨[1, 4, 3, 5, 1]⟩ h
  ⟨h, hr.2.2.1, hr.2.1⟩

/-- C36. The sum of two jungible breaklines is not always returned normalized:
when one operand is empty, `operator+` returns the other one as it is, so
`() + (5,3)` and `(5,3) + ()` are `(5,3)`, which `normalize` turns into
`(3,5)`. When neither operand is empty (and `a` is open with nodes in the
range of `int`, as for jungible breaklines) the sum is defined and
`normalize` leaves it unchanged. -/
theorem add_normalized (a b : Breakline0) :
    (jungible ⟨[]⟩ ⟨[5, 3]⟩ = true
      ∧ (Breakline0.mk []).add ⟨[5, 3]⟩ = some ⟨[5, 3]⟩
      ∧ jungible ⟨[5, 3]⟩ ⟨[]⟩ = true
      ∧ (Breakline0.mk [5, 3]).add ⟨[]⟩ = some ⟨[5, 3]⟩
      ∧ (Breakline0.mk [5, 3]).normalize = some ⟨[3, 5]⟩
      ∧ (Breakline0.mk [5, 3]).normalize ≠ some ⟨[5, 3]⟩)
    ∧ (a.isEmpty = true → a.add b = some b)
    ∧ (a.isEmpty = false → b.isEmpty = true → a.add b = some a)
    ∧ (a.isEmpty = false → b.isEmpty = false → a.isOpen = true →
        (∀ y ∈ a.nodes, y ≤ INT_MAX) →
        ∃ r : Breakline0, a.add b = some r ∧ r.normalize = some r) := by
  refine ⟨by decide, ?_, ?_, ?_⟩
  · intro h
    unfold Breakline0.add
    rw [if_pos h]
  · intro h1 h2
    unfold Breakline0.add
    rw [if_neg (by rw [h1]; simp), if_pos h2]
  · intro h1 h2 ho hr
    have hadd : a.add b = (Breakline0.mk (joinNodes a b)).normalize := by
      unfold Breakline0.add
      rw [if_neg (by rw [h1]; simp), if_neg (by rw [h2]; simp)]
    obtain ⟨y, hy, hlt⟩ := open_has_small_node a ho h1 hr
    rcases hn : (Breakline0.mk (joinNodes a b)).normalize with _ | r
    · exfalso
      obtain ⟨-, -, hall⟩ := (normalize_none_iff _).mp hn
      exact absurd (hall y (mem_joinNodes a b y hy)) (not_le.mpr hlt)
    · exact ⟨r, by rw [hadd, hn], normalize_normalize _ r hn⟩

/-- The statement `add_normalized` on `(1,2) + (2,3)`, whose sum `(1,2,3)` is
normalized. -/
theorem add_normalized_witness :
    (Breakline0.mk [1, 2]).isEmpty = false ∧ (Breakline0.mk [2, 3]).isEmpty = false
    ∧ jungible ⟨[1, 2]⟩ ⟨[2, 3]⟩ = true
    ∧ (Breakline0.mk [1, 2]).add ⟨[2, 3]⟩ = some ⟨[1, 2, 3]⟩
    ∧ ∃ r : Breakline0, (Breakline0.mk [1, 2]).add ⟨[2, 3]⟩ = some r ∧ r.normalize = some r :=
  ⟨by decide, by decide, by decide, by decide,
    (add_normalized ⟨[1, 2]⟩ ⟨[2, 3]⟩).2.2.2 (by decide) (by decide) (by decide) (by decide)⟩

/-! ## Theorems: geoidboundary.cpp -/

/-- For a boundary of fewer than `2^31` points and an `int` index, `seg(n)` starts
at the point of index `(n mod 2^64) mod m` and ends at the next point,
cyclically: the remainder is taken after the conversion of `n` to `size_t`, and
the branch `if (n<0)` is never taken. -/
theorem seg_unsigned_remainder (g : g1boundary) (n : ℤ) (hm : 0 < g.bdy.length)
    (hm2 : g.bdy.length < 2 ^ 31) :
    ∃ s e : vball, g.seg n = some ⟨s, e⟩
      ∧ g.bdy[toSizeT n % g.bdy.length]? = some s
      ∧ g.bdy[(toSizeT n % g.bdy.length + 1) % g.bdy.length]? = some e := by
  have hr : toSizeT n % g.bdy.length < g.bdy.length := Nat.mod_lt _ hm
  have hr2 : (toSizeT n % g.bdy.length + 1) % g.bdy.length < g.bdy.length := Nat.mod_lt _ hm
  generalize hrd : toSizeT n % g.bdy.length = r at hr hr2
  have h1 : toInt r = (r : ℤ) := by
    unfold toInt
    omega
  have h2 : toSizeT (r : ℤ) = r := by
    unfold toSizeT
    omega
  have h3 : toSizeT ((r : ℤ) + 1) = r + 1 := by
    unfold toSizeT
    omega
  refine ⟨g.bdy[r], g.bdy[(r + 1) % g.bdy.length], ?_, by simp [hr], by simp [hr2]⟩
  unfold g1boundary.seg
  rw [if_neg (by omega)]
  simp only [hrd, h1]
  rw [if_neg (by omega), h2, h3]
  simp [hr, hr2]

/-- C38. The method `g1boundary::seg` does not wrap negative indices as the
mathematical remainder: on a boundary of three points, `seg(-1)` is the
segment from `bdy[0]` to `bdy[1]`, not the segment from the last point
`bdy[2]` to the first, because `-1` is converted to `2^64 - 1` before the
remainder by 3 is taken and `(2^64 - 1) mod 3 = 0`, whereas `-1 mod 3 = 2`. On a
boundary of four points (4 divides `2^64`) `seg(-1)` does go from the last
point to the first, and non-negative indices wrap as expected. -/
theorem seg_negative_index :
    (g1boundary.mk [⟨1, fin 0, fin 0⟩, ⟨1, fin 1, fin 0⟩, ⟨1, fin 1, fin 1⟩]).seg (-1)
      = some ⟨⟨1, fin 0, fin 0⟩, ⟨1, fin 1, fin 0⟩⟩
    ∧ (g1boundary.mk [⟨1, fin 0, fin 0⟩, ⟨1, fin 1, fin 0⟩, ⟨1, fin 1, fin 1⟩]).seg (-1)
      ≠ some ⟨⟨1, fin 1, fin 1⟩, ⟨1, fin 0, fin 0⟩⟩
    ∧ toSizeT (-1) = 2 ^ 64 - 1
    ∧ toSizeT (-1) % 3 = 0
    ∧ (-1 : ℤ) % 3 = 2
    ∧ (g1boundary.mk [⟨1, fin 0, fin 0⟩, ⟨1, fin 1, fin 0⟩, ⟨1, fin 1, fin 1⟩]).seg 5
      = some ⟨⟨1, fin 1, fin 1⟩, ⟨1, fin 0, fin 0⟩⟩
    ∧ (g1boundary.mk
        [⟨1, fin 0, fin 0⟩, ⟨1, fin 1, fin 0⟩, ⟨1, fin 1, fin 1⟩, ⟨1, fin 0, fin 1⟩]).seg (-1)
      = some ⟨⟨1, fin 0, fin 1⟩, ⟨1, fin 0, fin 0⟩⟩ := by
  refine ⟨?_, ?_, ?_, ?_, ?_, ?_, ?_⟩ <;> decide!

end Bezitopo
